import Mathlib

/-!
# LocklessCommandFifo (libs/rs/rsLocklessFifo.cpp)

A shallow embedding of the single-producer / single-consumer command FIFO of
RenderScript and a verification of its documented properties.

Modelling conventions.

* Pointers into the buffer (mPut, mGet, mEnd) are byte offsets relative to
  mBuffer, kept as unbounded integers; mEnd may be -1 (capacity 0).
* The heap block behind mBuffer is a byte memory indexed by offset.  Accesses
  are total; the allocated length is kept next to it so that in-bounds
  properties can be stated separately.
* uint16_t / uint32_t / int32_t values wrap explicitly.
* 16-bit header fields are stored little-endian.
* Every method is a function on the object state.  A method that may suspend
  (Signal::wait on an unsignalled event, or a usleep polling loop whose
  condition only the other thread can change) yields an Outcome: it either
  returns, or is suspended at a named wait point from which a resume function
  continues once the other thread has acted.  Loops that can iterate are
  driven by a fuel argument.
-/

namespace LocklessFifo

/-! ## Machine integers and byte memory -/

/-- Conversion of an integer to int32_t (two's complement wrap). -/
def toInt32 (x : Int) : Int := (x + 2147483648) % 4294967296 - 2147483648

/-- Conversion of an integer to uint32_t. -/
def toUint32 (x : Int) : Nat := (x % 4294967296).toNat

/-- Byte memory of the block mBuffer points to, by offset from mBuffer. -/
abbrev Mem := Int → Nat

/-- Store of one byte. -/
def store8 (m : Mem) (a : Int) (v : Nat) : Mem := fun x => if x = a then v % 256 else m x

/-- Store through a uint16_t pointer: the value is truncated to 16 bits. -/
def store16 (m : Mem) (a : Int) (v : Nat) : Mem :=
  store8 (store8 m a (v % 256)) (a + 1) (v / 256 % 256)

/-- Load through a uint16_t pointer. -/
def read16 (m : Mem) (a : Int) : Nat := m a % 256 + 256 * (m (a + 1) % 256)

/-- The value `((sizeInBytes + 3) & ~3) + 4` computed in uint32_t arithmetic. -/
def recordAdvance (sizeInBytes : Nat) : Nat :=
  ((((sizeInBytes % 4294967296) + 3) % 4294967296 &&& 4294967292) + 4) % 4294967296

/-! ## Signal -/

/-- The class LocklessCommandFifo::Signal: only mSet is observable. -/
structure Signal where
  mSet : Bool
  deriving DecidableEq, Repr

namespace Signal

/-- The constructor Signal::Signal. -/
def new : Signal := { mSet := true }

/-- The method Signal::set. -/
def set (_s : Signal) : Signal := { mSet := true }

/-- The method Signal::wait: none when the caller has to block in pthread_cond_wait
(spurious wake-ups are not modelled), otherwise the signal with mSet cleared. -/
def wait (s : Signal) : Option Signal :=
  if s.mSet then some { mSet := false } else none

end Signal

/-! ## The FIFO object -/

/-- The data members of LocklessCommandFifo. -/
structure Fifo where
  /-- contents of the block behind mBuffer -/
  mBuffer : Mem
  /-- number of bytes obtained from malloc, none when mBuffer is null or freed -/
  mAlloc : Option Nat
  mPut : Int
  mGet : Int
  mEnd : Int
  mSize : Nat
  mInShutdown : Bool
  mSignalToControl : Signal
  mSignalToWorker : Signal

/-- Points at which a method can be suspended. -/
inductive WaitPoint where
  /-- first polling loop of makeSpace -/
  | wrapPoll (bytes : Nat)
  /-- second polling loop of makeSpace -/
  | spacePoll (bytes : Nat)
  /-- mSignalToControl.wait() inside flush -/
  | idleWait
  /-- mSignalToWorker.wait() inside get -/
  | dataWait
  deriving DecidableEq, Repr

/-- Result of running a method on one thread. -/
inductive Outcome (α : Type) where
  /-- the method returned -/
  | done (f : Fifo) (r : α)
  /-- the method is suspended at a wait point -/
  | waiting (f : Fifo) (w : WaitPoint)
  /-- the fuel for loop iterations ran out -/
  | timeout

namespace Outcome

/-- Sequential composition. -/
def andThen {α β : Type} (o : Outcome α) (k : Fifo → α → Outcome β) : Outcome β :=
  match o with
  | done f r => k f r
  | waiting f w => waiting f w
  | timeout => timeout

/-- The object state an outcome leaves behind. -/
def fifo? {α : Type} : Outcome α → Option Fifo
  | done f _ => some f
  | waiting f _ => some f
  | timeout => none

end Outcome

/-- What get hands back: command, bytesData and the returned pointer (none for null). -/
structure GetResult where
  command : Nat
  bytesData : Nat
  data : Option Int
  deriving DecidableEq, Repr

namespace Fifo

/-- The method shutdown. -/
def shutdown (f : Fifo) : Fifo :=
  { f with mInShutdown := true, mSignalToWorker := f.mSignalToWorker.set }

/-- The method init.  The environment supplies the result of malloc (none for a null
return, otherwise the contents of the fresh block) and of the two Signal::init calls. -/
def init (f : Fifo) (sizeInBytes : Nat) (block : Option Mem) (controlOk workerOk : Bool) :
    Bool × Fifo :=
  match block with
  | none => (false, { f with mAlloc := none })
  | some m =>
    let f1 := { f with mBuffer := m, mAlloc := some ((sizeInBytes + 4) % 4294967296) }
    if !controlOk || !workerOk then
      (false, { f1 with mAlloc := none })
    else
      (true, { f1 with
        mInShutdown := false
        mSize := sizeInBytes
        mPut := 0
        mGet := 0
        mEnd := (sizeInBytes : Int) - 1 })

/-- The method getFreeSpace. -/
def getFreeSpace (f : Fifo) : Nat :=
  let freeSpace : Int :=
    if f.mPut ≥ f.mGet then toInt32 (f.mEnd - f.mPut) else toInt32 (f.mGet - f.mPut)
  let freeSpace : Int := if freeSpace < 0 then 0 else freeSpace
  toUint32 freeSpace

/-- The method isEmpty. -/
def isEmpty (f : Fifo) : Bool := decide (f.mPut = f.mGet)

/-- Condition of the first polling loop of makeSpace. -/
def wrapPollCond (f : Fifo) : Bool :=
  decide (f.mGet > f.mPut) && decide ((0 : Int) + 4 ≥ f.mGet)

/-- Second polling loop of makeSpace, `while(getFreeSpace() < bytes) usleep(100)`. -/
def makeSpacePoll (f : Fifo) (bytes : Nat) : Outcome Unit :=
  if f.getFreeSpace < bytes then Outcome.waiting f (WaitPoint.spacePoll bytes)
  else Outcome.done f ()

/-- Body of makeSpace after its first polling loop: write the reset token, move mPut
to the start of the buffer, then poll for space. -/
def makeSpaceReset (f : Fifo) (bytes : Nat) : Outcome Unit :=
  makeSpacePoll
    { f with
      mBuffer := store16 (store16 f.mBuffer f.mPut 0) (f.mPut + 2) 0
      mPut := 0 }
    bytes

/-- The method makeSpace. -/
def makeSpace (f : Fifo) (bytes : Nat) : Outcome Unit :=
  if f.mPut + (bytes : Int) > f.mEnd then
    if f.wrapPollCond then Outcome.waiting f (WaitPoint.wrapPoll bytes)
    else makeSpaceReset f bytes
  else makeSpacePoll f bytes

/-- The method reserve; the result is the offset of the returned pointer. -/
def reserve (f : Fifo) (sizeInBytes : Nat) : Outcome Int :=
  let sizeInBytes := (sizeInBytes + 8) % 4294967296
  if f.getFreeSpace < sizeInBytes then
    (makeSpace f sizeInBytes).andThen fun f1 _ => Outcome.done f1 (f1.mPut + 4)
  else Outcome.done f (f.mPut + 4)

/-- Continuation of a reserve call suspended in one of the polling loops of makeSpace. -/
def reserveResume (f : Fifo) : WaitPoint → Outcome Int
  | WaitPoint.wrapPoll bytes =>
    (if f.wrapPollCond then Outcome.waiting f (WaitPoint.wrapPoll bytes)
      else makeSpaceReset f bytes).andThen fun f1 _ => Outcome.done f1 (f1.mPut + 4)
  | WaitPoint.spacePoll bytes =>
    (makeSpacePoll f bytes).andThen fun f1 _ => Outcome.done f1 (f1.mPut + 4)
  | w => Outcome.waiting f w

/-- The method commit. -/
def commit (f : Fifo) (command sizeInBytes : Nat) : Fifo :=
  if f.mInShutdown then f
  else
    { f with
      mBuffer := store16 (store16 f.mBuffer f.mPut command) (f.mPut + 2) sizeInBytes
      mPut := f.mPut + (recordAdvance sizeInBytes : Int)
      mSignalToWorker := f.mSignalToWorker.set }

/-- The loop of flush, `while(mPut != mGet) mSignalToControl.wait()`. -/
def flushLoop : Nat → Fifo → Outcome Unit
  | 0, _ => Outcome.timeout
  | fuel + 1, f =>
    if f.mPut ≠ f.mGet then
      match f.mSignalToControl.wait with
      | some sig => flushLoop fuel { f with mSignalToControl := sig }
      | none => Outcome.waiting f WaitPoint.idleWait
    else Outcome.done f ()

/-- The method flush. -/
def flush (fuel : Nat) (f : Fifo) : Outcome Unit := flushLoop fuel f

/-- Continuation of a flush suspended in mSignalToControl.wait(). -/
def flushResume (fuel : Nat) (f : Fifo) : Outcome Unit :=
  match f.mSignalToControl.wait with
  | some sig => flushLoop fuel { f with mSignalToControl := sig }
  | none => Outcome.waiting f WaitPoint.idleWait

/-- The method commitSync. -/
def commitSync (fuel : Nat) (f : Fifo) (command sizeInBytes : Nat) : Outcome Unit :=
  if f.mInShutdown then Outcome.done f ()
  else flush fuel (f.commit command sizeInBytes)

/-- The method get.  One unit of fuel is spent per iteration of either loop. -/
def get : Nat → Fifo → Outcome GetResult
  | 0, _ => Outcome.timeout
  | fuel + 1, f =>
    if f.isEmpty && !f.mInShutdown then
      let f1 := { f with mSignalToControl := f.mSignalToControl.set }
      match f1.mSignalToWorker.wait with
      | some sig => get fuel { f1 with mSignalToWorker := sig }
      | none => Outcome.waiting f1 WaitPoint.dataWait
    else if f.mInShutdown then
      Outcome.done f { command := 0, bytesData := 0, data := none }
    else
      let command := read16 f.mBuffer f.mGet
      let bytesData := read16 f.mBuffer (f.mGet + 2)
      if command ≠ 0 then
        Outcome.done f { command := command, bytesData := bytesData, data := some (f.mGet + 4) }
      else get fuel { f with mGet := 0 }

/-- Continuation of a get suspended in mSignalToWorker.wait(). -/
def getResume (fuel : Nat) (f : Fifo) : Outcome GetResult :=
  match f.mSignalToWorker.wait with
  | some sig => get fuel { f with mSignalToWorker := sig }
  | none => Outcome.waiting f WaitPoint.dataWait

/-- The method next. -/
def next (f : Fifo) : Fifo :=
  let bytes := read16 f.mBuffer (f.mGet + 2)
  let f1 := { f with mGet := f.mGet + (recordAdvance bytes : Int) }
  if f1.isEmpty then { f1 with mSignalToControl := f1.mSignalToControl.set } else f1

end Fifo

/-- A freshly constructed object: the constructor only builds the two signals. -/
def constructed (m : Mem) : Fifo :=
  { mBuffer := m, mAlloc := none, mPut := 0, mGet := 0, mEnd := 0, mSize := 0,
    mInShutdown := false, mSignalToControl := Signal.new, mSignalToWorker := Signal.new }

/-! ## Callers: payload bytes, producing and consuming whole records -/

/-- Caller-side write of payload bytes through a pointer returned by reserve. -/
def writeBytes (m : Mem) (a : Int) : List Nat → Mem
  | [] => m
  | b :: bs => writeBytes (store8 m a b) (a + 1) bs

/-- Caller-side read of n payload bytes through a pointer returned by get. -/
def readBytes (m : Mem) (a : Int) : Nat → List Nat
  | 0 => []
  | n + 1 => (m a % 256) :: readBytes m (a + 1) n

/-- The producer fills the region at offset p with the given bytes. -/
def Fifo.fill (f : Fifo) (p : Int) (data : List Nat) : Fifo :=
  { f with mBuffer := writeBytes f.mBuffer p data }

/-- A record as the caller sees it: command and payload bytes. -/
structure Record where
  command : Nat
  payload : List Nat
  deriving DecidableEq, Repr

/-- The producer submits one record: reserve, fill the returned region, commit. -/
def produce (f : Fifo) (r : Record) : Outcome Unit :=
  (f.reserve r.payload.length).andThen fun f1 p =>
    Outcome.done ((f1.fill p r.payload).commit r.command r.payload.length) ()

/-- The producer submits a list of records one after the other, the consumer not running. -/
def produceAll (f : Fifo) : List Record → Outcome Unit
  | [] => Outcome.done f ()
  | r :: rs => (produce f r).andThen fun f1 _ => produceAll f1 rs

/-- The consumer takes one record: get, copy the payload out, next. -/
def consume (fuel : Nat) (f : Fifo) : Outcome Record :=
  (f.get fuel).andThen fun f1 g =>
    match g.data with
    | some p => Outcome.done f1.next { command := g.command, payload := readBytes f1.mBuffer p g.bytesData }
    | none => Outcome.done f1 { command := g.command, payload := [] }

/-- The consumer takes records until get suspends (or n records were taken). -/
def consumeAll (fuel : Nat) : Nat → Fifo → List Record
  | 0, _ => []
  | n + 1, f =>
    match consume fuel f with
    | Outcome.done f1 r => r :: consumeAll fuel n f1
    | _ => []

/-- A channel after a successful init(capacity) whose fresh block holds the bytes m. -/
def initial (m : Mem) (capacity : Nat) : Fifo :=
  ((constructed m).init capacity (some m) true true).2

/-! ## Reference definitions taken from the specification -/

/-- Free space as the specification words it: end - put if put >= get, else get - put,
negative results clamped to 0. -/
def freeSpaceSpec (f : Fifo) : Int :=
  if f.mPut ≥ f.mGet then max 0 (f.mEnd - f.mPut) else max 0 (f.mGet - f.mPut)

/-- The specification of commit_sync: commit followed by flush. -/
def commitThenFlush (fuel : Nat) (f : Fifo) (command sizeInBytes : Nat) : Outcome Unit :=
  (f.commit command sizeInBytes).flush fuel

/-- Whether an outcome is a return. -/
def Outcome.isDone {α : Type} : Outcome α → Bool
  | Outcome.done _ _ => true
  | _ => false

/-- The value a call returned, none when it did not return. -/
def Outcome.value? {α : Type} : Outcome α → Option α
  | Outcome.done _ r => some r
  | _ => none

/-! ## Arbitrary call sequences -/

/-- Any call on the channel by either thread, including the continuation of a
suspended call and a caller-side byte write into the buffer. -/
inductive Call where
  | reserve (sizeInBytes : Nat)
  | reserveResume (w : WaitPoint)
  | write (a : Int) (v : Nat)
  | commit (command sizeInBytes : Nat)
  | commitSync (fuel command sizeInBytes : Nat)
  | flush (fuel : Nat)
  | flushResume (fuel : Nat)
  | get (fuel : Nat)
  | getResume (fuel : Nat)
  | next
  | shutdown

/-- State in which a call leaves the channel (on return or on suspension); none when
the fuel given to the call did not suffice. -/
def Call.exec (f : Fifo) : Call → Option Fifo
  | Call.reserve n => (f.reserve n).fifo?
  | Call.reserveResume w => (f.reserveResume w).fifo?
  | Call.write a v => some { f with mBuffer := store8 f.mBuffer a v }
  | Call.commit c n => some (f.commit c n)
  | Call.commitSync fuel c n => (f.commitSync fuel c n).fifo?
  | Call.flush fuel => (f.flush fuel).fifo?
  | Call.flushResume fuel => (f.flushResume fuel).fifo?
  | Call.get fuel => (f.get fuel).fifo?
  | Call.getResume fuel => (f.getResume fuel).fifo?
  | Call.next => some f.next
  | Call.shutdown => some f.shutdown

/-- Run a sequence of calls. -/
def execAll (f : Fifo) : List Call → Option Fifo
  | [] => some f
  | c :: cs => (c.exec f).bind fun f1 => execAll f1 cs

/-- Whether reserve(sizeInBytes) writes the reset token and moves mPut to the start. -/
def Fifo.reserveWraps (f : Fifo) (sizeInBytes : Nat) : Bool :=
  let bytes := (sizeInBytes + 8) % 4294967296
  decide (f.getFreeSpace < bytes) && decide (f.mPut + (bytes : Int) > f.mEnd) && !f.wrapPollCond

/-- Calls considered for a drained channel: no commit, commitSync or next, no
continuation of an earlier reserve, and no reserve that wraps. -/
def Call.keepsDrained (f : Fifo) : Call → Bool
  | Call.reserve n => !f.reserveWraps n
  | Call.reserveResume _ => false
  | Call.commit _ _ => false
  | Call.commitSync _ _ _ => false
  | Call.next => false
  | _ => true

/-- Every call of the sequence is one of those considered for a drained channel. -/
def allKeepDrained (f : Fifo) : List Call → Bool
  | [] => true
  | c :: cs => c.keepsDrained f && (match c.exec f with
    | some f1 => allKeepDrained f1 cs
    | none => true)

/-! ## Producer and consumer following the protocol -/

/-- Where the producer thread is. -/
inductive ProdState where
  | idle
  /-- inside reserve(size), suspended at a polling loop of makeSpace -/
  | polling (size : Nat) (w : WaitPoint)
  /-- reserve(size) returned, commit pending -/
  | reserved (size : Nat)
  deriving DecidableEq, Repr

/-- Where the consumer thread is. -/
inductive ConsState where
  | idle
  /-- inside get, suspended in mSignalToWorker.wait() -/
  | waitingData
  /-- get returned a record, next pending -/
  | holding
  deriving DecidableEq, Repr

/-- The channel together with its two threads and counters of what was committed
and what was released. -/
structure Sys where
  fifo : Fifo
  prod : ProdState
  cons : ConsState
  committed : Nat
  released : Nat

/-- One scheduling step of one of the two threads.  A step runs a call without
interruption up to its return or to the point where it suspends. -/
inductive Action where
  /-- producer calls reserve(size) -/
  | reserve (size : Nat)
  /-- the suspended reserve evaluates its polling loop again -/
  | poll
  /-- producer writes one payload byte at the given index of the reserved region -/
  | fill (index : Nat) (byte : Nat)
  /-- producer calls commit(command, size) for the reserved size -/
  | commit (command : Nat)
  /-- consumer calls get -/
  | get (fuel : Nat)
  /-- the suspended get wakes up -/
  | wake (fuel : Nat)
  /-- consumer calls next -/
  | next
  deriving DecidableEq, Repr

/-- Effect of one action, none when the action is not possible in this state or
violates a precondition (record larger than the capacity allows, command 0 or
wider than 16 bits, commit without reserve, next without get). -/
def Sys.step (s : Sys) : Action → Option Sys
  | Action.reserve size =>
    match s.prod with
    | ProdState.idle =>
      if size < 65536 ∧ size + 8 + 1 ≤ s.fifo.mSize then
        match s.fifo.reserve size with
        | Outcome.done f _ => some { s with fifo := f, prod := ProdState.reserved size }
        | Outcome.waiting f w => some { s with fifo := f, prod := ProdState.polling size w }
        | Outcome.timeout => none
      else none
    | _ => none
  | Action.poll =>
    match s.prod with
    | ProdState.polling size w =>
      match s.fifo.reserveResume w with
      | Outcome.done f _ => some { s with fifo := f, prod := ProdState.reserved size }
      | Outcome.waiting f w1 => some { s with fifo := f, prod := ProdState.polling size w1 }
      | Outcome.timeout => none
    | _ => none
  | Action.fill index byte =>
    match s.prod with
    | ProdState.reserved size =>
      if index < size then
        some { s with fifo := { s.fifo with
          mBuffer := store8 s.fifo.mBuffer (s.fifo.mPut + 4 + (index : Int)) byte } }
      else none
    | _ => none
  | Action.commit command =>
    match s.prod with
    | ProdState.reserved size =>
      if 1 ≤ command ∧ command < 65536 then
        some { s with fifo := s.fifo.commit command size, prod := ProdState.idle,
                      committed := s.committed + 1 }
      else none
    | _ => none
  | Action.get fuel =>
    match s.cons with
    | ConsState.idle =>
      match s.fifo.get fuel with
      | Outcome.done f _ => some { s with fifo := f, cons := ConsState.holding }
      | Outcome.waiting f _ => some { s with fifo := f, cons := ConsState.waitingData }
      | Outcome.timeout => none
    | _ => none
  | Action.wake fuel =>
    match s.cons with
    | ConsState.waitingData =>
      match s.fifo.getResume fuel with
      | Outcome.done f _ => some { s with fifo := f, cons := ConsState.holding }
      | Outcome.waiting f _ => some { s with fifo := f, cons := ConsState.waitingData }
      | Outcome.timeout => none
    | _ => none
  | Action.next =>
    match s.cons with
    | ConsState.holding =>
      some { s with fifo := s.fifo.next, cons := ConsState.idle, released := s.released + 1 }
    | _ => none

/-- Whether the action makes the producer write the reset token now. -/
def Sys.writesReset (s : Sys) : Action → Bool
  | Action.reserve size => s.fifo.reserveWraps size
  | Action.poll =>
    match s.prod with
    | ProdState.polling _ (WaitPoint.wrapPoll _) => !s.fifo.wrapPollCond
    | _ => false
  | _ => false

/-- The reset token is only written while the consumer is in the same lap as the
producer and away from the start of the buffer: 0 < get <= put. -/
def Sys.resetIsSafe (s : Sys) (a : Action) : Bool :=
  !s.writesReset a || (decide (0 < s.fifo.mGet) && decide (s.fifo.mGet ≤ s.fifo.mPut))

/-- Run a schedule. -/
def Sys.run (s : Sys) : List Action → Option Sys
  | [] => some s
  | a :: as => (s.step a).bind fun s1 => s1.run as

/-- Every reset token written along the schedule is written safely. -/
def Sys.resetsAreSafe (s : Sys) : List Action → Bool
  | [] => true
  | a :: as => s.resetIsSafe a && (match s.step a with
    | some s1 => s1.resetsAreSafe as
    | none => true)

/-- The system right after a successful init(capacity). -/
def Sys.start (m : Mem) (capacity : Nat) : Sys :=
  { fifo := initial m capacity, prod := ProdState.idle, cons := ConsState.idle,
    committed := 0, released := 0 }

/-! ## Initialisation and the calls it makes -/

/-- The method Signal::init, given whether pthread_mutex_init and pthread_cond_init
succeed; the condition variable is only initialised when the mutex was. -/
def Signal.init (mutexOk condOk : Bool) : Bool :=
  if !mutexOk then false
  else if !condOk then false
  else true

/-- External calls made by LocklessCommandFifo::init. -/
inductive InitCall where
  | malloc (bytes : Nat)
  /-- mSignalToControl.init() -/
  | controlInit
  /-- mSignalToWorker.init() -/
  | workerInit
  /-- free(mBuffer) -/
  | free
  deriving DecidableEq, Repr

/-- The external calls the method init makes, in order, for the same environment
outcomes as Fifo.init: the second Signal::init is skipped when the first one failed
(short-circuit of the disjunction). -/
def Fifo.initCalls (sizeInBytes : Nat) (block : Option Mem) (controlOk workerOk : Bool) :
    List InitCall :=
  match block with
  | none => [InitCall.malloc ((sizeInBytes + 4) % 4294967296)]
  | some _ =>
    if !controlOk then
      [InitCall.malloc ((sizeInBytes + 4) % 4294967296), InitCall.controlInit, InitCall.free]
    else if !workerOk then
      [InitCall.malloc ((sizeInBytes + 4) % 4294967296), InitCall.controlInit,
       InitCall.workerInit, InitCall.free]
    else
      [InitCall.malloc ((sizeInBytes + 4) % 4294967296), InitCall.controlInit,
       InitCall.workerInit]

/-! ## Which thread makes a call -/

/-- Calls made by the producer (control) thread. -/
def Call.byProducer : Call → Bool
  | Call.reserve _ => true
  | Call.reserveResume _ => true
  | Call.commit _ _ => true
  | Call.commitSync _ _ _ => true
  | Call.flush _ => true
  | Call.flushResume _ => true
  | Call.shutdown => true
  | _ => false

/-- Calls made by the consumer (worker) thread. -/
def Call.byConsumer : Call → Bool
  | Call.get _ => true
  | Call.getResume _ => true
  | Call.next => true
  | _ => false

/-! ## States that differ in the shutdown flag and the two signals only -/

/-- The object with the shutdown flag and the two signals replaced. -/
def Fifo.withFlags (f : Fifo) (down : Bool) (control worker : Signal) : Fifo :=
  { f with mInShutdown := down, mSignalToControl := control, mSignalToWorker := worker }

/-- The same outcome with the object state transformed. -/
def Outcome.mapFifo {α : Type} (t : Fifo → Fifo) : Outcome α → Outcome α
  | Outcome.done f r => Outcome.done (t f) r
  | Outcome.waiting f w => Outcome.waiting (t f) w
  | Outcome.timeout => Outcome.timeout

/-! ## Producing and consuming lists of records, with the pointers handed out -/

/-- The producer submits the records one after the other (reserve, fill, commit), the
consumer not running; the result lists the pointers reserve returned. -/
def produceTrace (f : Fifo) : List Record → Outcome (List Int)
  | [] => Outcome.done f []
  | r :: rs =>
    (f.reserve r.payload.length).andThen fun f1 p =>
      (produceTrace ((f1.fill p r.payload).commit r.command r.payload.length) rs).andThen
        fun f2 ps => Outcome.done f2 (p :: ps)

/-- The consumer performs n get/next pairs; the result lists what each get returned
together with the payload bytes read through the returned pointer. -/
def consumeTrace (fuel : Nat) : Nat → Fifo → Outcome (List (GetResult × List Nat))
  | 0, f => Outcome.done f []
  | n + 1, f =>
    (f.get fuel).andThen fun f1 g =>
      match g.data with
      | some p =>
        (consumeTrace fuel n f1.next).andThen fun f2 xs =>
          Outcome.done f2 ((g, readBytes f1.mBuffer p g.bytesData) :: xs)
      | none => Outcome.done f1 [(g, [])]

/-- Every reservation fits before the end: starting at offset g, each record needs
payload length + 8 bytes up to the end, and the next one starts recordAdvance further. -/
def FitsBefore (e : Int) : Int → List Record → Prop
  | _, [] => True
  | g, r :: rs =>
    g + (r.payload.length : Int) + 8 ≤ e ∧
      FitsBefore e (g + (recordAdvance r.payload.length : Int)) rs

/-- What the consumer is to receive for records laid out from offset g on: command,
length and pointer g + 4 for the first one, and so on. -/
def expectedTrace : Int → List Record → List (GetResult × List Nat)
  | _, [] => []
  | g, r :: rs =>
    ({ command := r.command, bytesData := r.payload.length, data := some (g + 4) }, r.payload) ::
      expectedTrace (g + (recordAdvance r.payload.length : Int)) rs

/-- The pointers reserve is to return for records laid out from offset g on. -/
def expectedPointers : Int → List Record → List Int
  | _, [] => []
  | g, r :: rs => (g + 4) :: expectedPointers (g + (recordAdvance r.payload.length : Int)) rs

/-- Offset reached after the records laid out from offset g on. -/
def endOffset : Int → List Record → Int
  | g, [] => g
  | g, r :: rs => endOffset (g + (recordAdvance r.payload.length : Int)) rs

/-- A record within the preconditions of the channel: command in 1..65535, payload of
fewer than 65536 bytes, each a byte value. -/
def Record.Valid (r : Record) : Prop :=
  1 ≤ r.command ∧ r.command < 65536 ∧ r.payload.length < 65536 ∧ ∀ b ∈ r.payload, b < 256

/-- The records are laid out in memory from offset g on: header and payload of each. -/
def Recs (m : Mem) : Int → List Record → Prop
  | _, [] => True
  | g, r :: rs =>
    read16 m g = r.command ∧ read16 m (g + 2) = r.payload.length ∧
    readBytes m (g + 4) r.payload.length = r.payload ∧
    Recs m (g + (recordAdvance r.payload.length : Int)) rs

/-! ## Concrete scenarios -/

/-- A block of zero bytes. -/
def zeroMem : Mem := fun _ => 0

/-- A block whose bytes are all 255, to tell written bytes from untouched ones. -/
def onesMem : Mem := fun _ => 255

/-- The two cursors of a channel. -/
def Fifo.cursors (f : Fifo) : Int × Int := (f.mPut, f.mGet)

/-- Capacity 64, one record with a 48-byte payload committed, read and released:
put = get = 52. -/
def drainedAt52 : Fifo :=
  (((initial zeroMem 64).fill 4 (List.replicate 48 7)).commit 1 48).next

/-- Capacity 64 after a 48-byte record was committed, read and released and the
producer then called reserve(12), which wrapped: put = 0, get = 52. -/
def wrappedSys : Sys :=
  ((Sys.start zeroMem 64).run
    [Action.reserve 48, Action.fill 0 7, Action.commit 1, Action.get 1, Action.next,
     Action.reserve 12]).getD (Sys.start zeroMem 64)

/-- A protocol run on capacity 64 in which the producer wraps while the consumer still
holds the record at the buffer start: the consumer then releases it with the old
length and lands inside the region the producer is filling. -/
def overrunSchedule : List Action :=
  [Action.reserve 4, Action.commit 1, Action.reserve 40, Action.commit 2, Action.get 1,
   Action.reserve 12, Action.next,
   Action.fill 4 255, Action.fill 5 255, Action.fill 6 255, Action.fill 7 255,
   Action.commit 3, Action.get 1, Action.next,
   Action.reserve 40, Action.commit 4, Action.reserve 40]

/-! ## Layout of unread records -/

/-- From offset g, following n record headers with non-zero command, each advancing
by the amount next() uses, one arrives at offset p. -/
def Chain (m : Mem) : Nat → Int → Int → Prop
  | 0, g, p => g = p
  | n + 1, g, p =>
    read16 m g ≠ 0 ∧ Chain m n (g + (recordAdvance (read16 m (g + 2)) : Int)) p

/-- The consumer is in the lap of the producer: n unread records lie between get and put. -/
def SameLap (f : Fifo) (prod : ProdState) (n : Nat) : Prop :=
  f.mGet ≤ f.mPut ∧ (f.mPut ≤ f.mEnd ∨ f.mPut = 0) ∧ Chain f.mBuffer n f.mGet f.mPut ∧
  ∀ size, prod = ProdState.reserved size → f.mPut + (size : Int) + 8 ≤ f.mEnd

/-- The producer has wrapped and the consumer has not: n1 unread records lie between
get and the reset token at w, n2 between the start of the buffer and put. -/
def LapAhead (f : Fifo) (prod : ProdState) (n1 n2 : Nat) : Prop :=
  f.mPut < f.mGet ∧ ∃ w : Int, f.mGet ≤ w ∧ w ≤ f.mEnd ∧ Chain f.mBuffer n1 f.mGet w ∧
    read16 f.mBuffer w = 0 ∧ Chain f.mBuffer n2 0 f.mPut ∧
    ∀ size, prod = ProdState.reserved size → f.mPut + (size : Int) + 8 ≤ f.mGet

/-- Sizes remembered by the producer respect the precondition of reserve. -/
def ProdState.Valid (mSize : Nat) : ProdState → Prop
  | ProdState.idle => True
  | ProdState.polling size w =>
    size < 65536 ∧ size + 8 + 1 ≤ mSize ∧
    (w = WaitPoint.wrapPoll (size + 8) ∨ w = WaitPoint.spacePoll (size + 8))
  | ProdState.reserved size => size < 65536 ∧ size + 8 + 1 ≤ mSize

/-- Layout invariant of the channel with n unread records; ready says that a
record is known to sit at get. -/
def Layout (f : Fifo) (prod : ProdState) (n : Nat) (ready : Prop) : Prop :=
  f.mInShutdown = false ∧ f.mEnd = (f.mSize : Int) - 1 ∧ f.mSize < 4294967296 ∧
  0 ≤ f.mGet ∧ prod.Valid f.mSize ∧
  ((SameLap f prod n ∧ (ready → 0 < n)) ∨
   ∃ n1 n2, n1 + n2 = n ∧ LapAhead f prod n1 n2 ∧ (ready → 0 < n1))

/-- Invariant of the system. -/
def Sys.Inv (s : Sys) : Prop :=
  ∃ n, s.released + n = s.committed ∧
    Layout s.fifo s.prod n (s.cons = ConsState.holding)


/-! ## Basic facts: machine integers and memory -/

theorem store8_same (m : Mem) (a : Int) (v : Nat) : store8 m a v a = v % 256 := by
  simp [store8]

theorem store8_other (m : Mem) (a x : Int) (v : Nat) (h : x ≠ a) : store8 m a v x = m x := by
  simp [store8, h]

theorem store16_other (m : Mem) (a x : Int) (v : Nat) (h : x < a ∨ a + 2 ≤ x) :
    store16 m a v x = m x := by
  unfold store16
  rw [store8_other _ _ _ _ (by omega), store8_other _ _ _ _ (by omega)]

theorem read16_store16 (m : Mem) (a : Int) (v : Nat) : read16 (store16 m a v) a = v % 65536 := by
  unfold read16 store16
  rw [store8_same, store8_other _ _ _ _ (by omega), store8_same]
  omega

theorem read16_congr (m1 m2 : Mem) (a : Int) (h0 : m1 a = m2 a) (h1 : m1 (a + 1) = m2 (a + 1)) :
    read16 m1 a = read16 m2 a := by
  unfold read16; rw [h0, h1]

theorem read16_store16_other (m : Mem) (a b : Int) (v : Nat) (h : b + 2 ≤ a ∨ a + 2 ≤ b) :
    read16 (store16 m a v) b = read16 m b := by
  apply read16_congr <;> apply store16_other <;> omega

theorem read16_lt (m : Mem) (a : Int) : read16 m a < 65536 := by
  unfold read16; omega

/-- Both header fields written by commit or makeSpace read back, truncated to 16 bits. -/
theorem header_readback (m : Mem) (a : Int) (c n : Nat) :
    read16 (store16 (store16 m a c) (a + 2) n) a = c % 65536 ∧
    read16 (store16 (store16 m a c) (a + 2) n) (a + 2) = n % 65536 := by
  constructor
  · rw [read16_store16_other _ _ _ _ (by omega), read16_store16]
  · rw [read16_store16]

theorem header_frame (m : Mem) (a x : Int) (c n : Nat) (h : x < a ∨ a + 4 ≤ x) :
    store16 (store16 m a c) (a + 2) n x = m x := by
  rw [store16_other _ _ _ _ (by omega), store16_other _ _ _ _ (by omega)]
theorem land_mask (x : Nat) (h : x < 4294967296) : x &&& 4294967292 = x / 4 * 4 := by
  apply Nat.eq_of_testBit_eq
  intro i
  have e1 : (4294967292 : Nat) = 2 ^ 2 * (2 ^ 30 - 1) := by norm_num
  have e2 : x / 4 * 4 = 2 ^ 2 * (x >>> 2) := by
    rw [Nat.shiftRight_eq_div_pow]; ring
  rw [Nat.testBit_land, e1, e2, Nat.testBit_mul_pow_two, Nat.testBit_mul_pow_two,
    Nat.testBit_two_pow_sub_one, Nat.testBit_shiftRight]
  by_cases h2 : 2 ≤ i
  · have e3 : 2 + (i - 2) = i := by omega
    simp only [h2, decide_True, Bool.true_and, e3]
    by_cases h30 : i - 2 < 30
    · simp [h30]
    · have : x < 2 ^ i := by
        have : (2:Nat) ^ 32 ≤ 2 ^ i := Nat.pow_le_pow_right (by norm_num) (by omega)
        omega
      simp [h30, Nat.testBit_lt_two_pow this]
  · simp [h2]

theorem recordAdvance_eq (n : Nat) (h : n < 4294967289) :
    recordAdvance n = (n + 3) / 4 * 4 + 4 := by
  unfold recordAdvance
  rw [Nat.mod_eq_of_lt (by omega : n < 4294967296), Nat.mod_eq_of_lt (by omega : n + 3 < 4294967296),
    land_mask _ (by omega)]
  apply Nat.mod_eq_of_lt
  omega

theorem recordAdvance_bounds (n : Nat) (h : n < 4294967289) :
    n + 4 ≤ recordAdvance n ∧ recordAdvance n ≤ n + 7 := by
  rw [recordAdvance_eq n h]; omega

theorem toInt32_of_range (x : Int) (h1 : -2147483648 ≤ x) (h2 : x < 2147483648) :
    toInt32 x = x := by
  unfold toInt32; omega

/-- The clamped int32 value never exceeds the true difference (when that is below 2^32). -/
theorem clamp_le (x : Int) (h1 : -2147483648 ≤ x) (h2 : x < 4294967296) :
    (toUint32 (if toInt32 x < 0 then 0 else toInt32 x) : Int) ≤ max x 0 := by
  unfold toUint32 toInt32
  split <;> omega

theorem clamp_of_range (x : Int) (h1 : -2147483648 ≤ x) (h2 : x < 2147483648) :
    (toUint32 (if toInt32 x < 0 then 0 else toInt32 x) : Int) = max 0 x := by
  unfold toUint32 toInt32
  split <;> omega

/-! ## C4: getFreeSpace against the reference definition -/

/-- C4 (as stated) fails: right after init(2147483649) the difference end - put is 2^31,
which does not fit the int32_t freeSpace; getFreeSpace returns 0 where the reference
definition, and the claim, give capacity - 1. -/
theorem getFreeSpace_int32_counterexample :
    (initial (fun _ => 0) 2147483649).getFreeSpace = 0 ∧
    freeSpaceSpec (initial (fun _ => 0) 2147483649) = 2147483648 ∧
    ((initial (fun _ => 0) 2147483649).getFreeSpace : Int) ≠
      freeSpaceSpec (initial (fun _ => 0) 2147483649) := by
  decide

/-- C4 (amended): whenever the cursor difference that getFreeSpace uses (end - put if
put >= get, else get - put) fits in int32_t, getFreeSpace equals the reference
definition: max(0, end - put) when put >= get and max(0, get - put) when put < get;
right after init(0) it returns 0 and right after init(C) with 1 <= C <= 2^31 it
returns C - 1. -/
theorem getFreeSpace_eq_spec (f : Fifo)
    (h : if f.mPut ≥ f.mGet
         then -2147483648 ≤ f.mEnd - f.mPut ∧ f.mEnd - f.mPut < 2147483648
         else -2147483648 ≤ f.mGet - f.mPut ∧ f.mGet - f.mPut < 2147483648) :
    (f.getFreeSpace : Int) = freeSpaceSpec f ∧
    (f.mPut ≥ f.mGet → (f.getFreeSpace : Int) = max 0 (f.mEnd - f.mPut)) ∧
    (f.mPut < f.mGet → (f.getFreeSpace : Int) = max 0 (f.mGet - f.mPut)) ∧
    (∀ m, (initial m 0).getFreeSpace = 0) ∧
    (∀ m C, 1 ≤ C → C ≤ 2147483648 → (initial m C).getFreeSpace = C - 1) := by
  have key : (f.getFreeSpace : Int) = freeSpaceSpec f := by
    unfold Fifo.getFreeSpace freeSpaceSpec
    by_cases hc : f.mPut ≥ f.mGet
    · simp only [hc, if_true] at h ⊢
      exact clamp_of_range _ h.1 h.2
    · simp only [hc, if_false] at h ⊢
      exact clamp_of_range _ h.1 h.2
  refine ⟨key, ?_, ?_, ?_, ?_⟩
  · intro hc; rw [key]; unfold freeSpaceSpec; simp [hc]
  · intro hc; rw [key]; unfold freeSpaceSpec; simp [not_le.mpr hc]
  · intro m; rfl
  · intro m C h1 h2
    have : ((initial m C).getFreeSpace : Int) = ((C - 1 : Nat) : Int) := by
      have := clamp_of_range ((C : Int) - 1 - 0) (by omega) (by omega)
      simp only [initial, Fifo.init, constructed, Fifo.getFreeSpace]
      simp only [Bool.not_true, Bool.or_self, Bool.false_eq_true, if_false, ge_iff_le, le_refl, if_true]
      rw [this]; omega
    exact_mod_cast this

/-- Witness for C4 (amended) at the state right after init(64). -/
theorem getFreeSpace_eq_spec_witness :
    ((initial (fun _ => 0) 64).getFreeSpace : Int) = freeSpaceSpec (initial (fun _ => 0) 64) :=
  (getFreeSpace_eq_spec (initial (fun _ => 0) 64) (by decide)).1


/-! ## C5, C6: commit -/

/-- C5: in Active state commit(command, size) with command, size < 65536 writes the
command at offset put and the size at offset put + 2, advances put by exactly
((size + 3) & ~3) + 4, leaves the data-available event signalled, and changes neither
get nor any buffer byte outside the four header bytes. -/
theorem commit_post (f : Fifo) (command size : Nat)
    (hactive : f.mInShutdown = false) (hc : command < 65536) (hs : size < 65536) :
    read16 (f.commit command size).mBuffer f.mPut = command ∧
    read16 (f.commit command size).mBuffer (f.mPut + 2) = size ∧
    (f.commit command size).mPut = f.mPut + ((((size + 3) &&& 4294967292) + 4 : Nat) : Int) ∧
    (f.commit command size).mPut = f.mPut + (((size + 3) / 4 * 4 + 4 : Nat) : Int) ∧
    (f.commit command size).mSignalToWorker.mSet = true ∧
    (f.commit command size).mGet = f.mGet ∧
    (∀ a : Int, a < f.mPut ∨ f.mPut + 4 ≤ a →
      (f.commit command size).mBuffer a = f.mBuffer a) := by
  have hadv := recordAdvance_eq size (by omega)
  have hmask := land_mask (size + 3) (by omega)
  have hb := header_readback f.mBuffer f.mPut command size
  simp only [Fifo.commit, hactive, Bool.false_eq_true, if_false, Signal.set]
  refine ⟨?_, ?_, ?_, ?_, trivial, trivial, ?_⟩
  · rw [hb.1]; omega
  · rw [hb.2]; omega
  · rw [hadv, hmask]
  · rw [hadv]
  · intro a ha
    exact header_frame _ _ _ _ _ ha

/-- Witness for C5: commit(7, 10) on a fresh channel of capacity 64. -/
theorem commit_post_witness :
    read16 ((initial (fun _ => 0) 64).commit 7 10).mBuffer (initial (fun _ => 0) 64).mPut = 7 :=
  (commit_post (initial (fun _ => 0) 64) 7 10 rfl (by decide) (by decide)).1

/-- C6: with the shutdown flag set, commit(command, size) leaves the whole object
unchanged for every command and size, and a later get returns the terminal result
(0, 0, null) from the unchanged state, so no record committed after shutdown is seen. -/
theorem commit_after_shutdown (f : Fifo) (command size fuel : Nat)
    (hdown : f.mInShutdown = true) :
    f.commit command size = f ∧
    (f.commit command size).get (fuel + 1) =
      Outcome.done f { command := 0, bytesData := 0, data := none } := by
  have h : f.commit command size = f := by simp [Fifo.commit, hdown]
  refine ⟨h, ?_⟩
  rw [h]
  simp [Fifo.get, hdown]

/-- Witness for C6: commit(5, 8) after shutdown of a fresh channel. -/
theorem commit_after_shutdown_witness :
    (initial (fun _ => 0) 64).shutdown.commit 5 8 = (initial (fun _ => 0) 64).shutdown :=
  (commit_after_shutdown (initial (fun _ => 0) 64).shutdown 5 8 0 rfl).1


/-! ## C7, C8: flush and commitSync -/

theorem flushLoop_drained (fuel : Nat) (f : Fifo) (h : f.mPut = f.mGet) :
    Fifo.flushLoop (fuel + 1) f = Outcome.done f () := by
  simp [Fifo.flushLoop, h]

theorem flushLoop_done (fuel : Nat) : ∀ (f f1 : Fifo) (r : Unit),
    Fifo.flushLoop fuel f = Outcome.done f1 r → f1.mPut = f1.mGet := by
  induction fuel with
  | zero => intro f f1 r h; simp [Fifo.flushLoop] at h
  | succ k ih =>
    intro f f1 r h
    unfold Fifo.flushLoop at h
    by_cases hne : f.mPut ≠ f.mGet
    · rw [if_pos hne] at h
      cases hw : f.mSignalToControl.wait with
      | none => simp [hw] at h
      | some sig =>
        simp only [hw] at h
        exact ih _ _ _ h
    · rw [if_neg hne] at h
      have heq : f.mPut = f.mGet := not_not.mp hne
      injection h with h1 h2
      subst h1
      exact heq

/-- With put != get and nobody else running, flush consumes the idle event if it is
signalled and then suspends in mSignalToControl.wait(). -/
theorem flushLoop_undrained (fuel : Nat) (f : Fifo) (h : f.mPut ≠ f.mGet) :
    Fifo.flushLoop (fuel + 2) f =
      Outcome.waiting { f with mSignalToControl := { mSet := false } } WaitPoint.idleWait := by
  cases hs : f.mSignalToControl.mSet with
  | true =>
    simp [Fifo.flushLoop, h, Signal.wait, hs]
  | false =>
    have : f.mSignalToControl = { mSet := false } := by
      cases hh : f.mSignalToControl; simp_all
    simp [Fifo.flushLoop, h, Signal.wait, hs, ← this]

/-- C8: whenever flush returns, directly or after having been suspended, put == get
holds in the state it returns in; called with put == get it returns at once, leaving
the whole object (the idle event included) unchanged; and called with put != get it
does not return but suspends on the idle event. -/
theorem flush_post (fuel : Nat) (f : Fifo) :
    (∀ f1 r, f.flush fuel = Outcome.done f1 r → f1.mPut = f1.mGet) ∧
    (∀ f1 r, f.flushResume fuel = Outcome.done f1 r → f1.mPut = f1.mGet) ∧
    (f.mPut = f.mGet → f.flush (fuel + 1) = Outcome.done f ()) ∧
    (f.mPut ≠ f.mGet → ∃ f1, f.flush (fuel + 2) = Outcome.waiting f1 WaitPoint.idleWait) := by
  refine ⟨?_, ?_, ?_, ?_⟩
  · intro f1 r h
    exact flushLoop_done fuel f f1 r h
  · intro f1 r h
    unfold Fifo.flushResume at h
    cases hw : f.mSignalToControl.wait with
    | none => simp [hw] at h
    | some sig =>
      simp only [hw] at h
      exact flushLoop_done fuel _ f1 r h
  · intro h
    exact flushLoop_drained fuel f h
  · intro h
    exact ⟨_, flushLoop_undrained fuel f h⟩

/-- Witness for C8: flush on a fresh (drained) channel returns at once, unchanged. -/
theorem flush_post_witness :
    (initial (fun _ => 0) 64).flush 1 = Outcome.done (initial (fun _ => 0) 64) () :=
  (flush_post 0 (initial (fun _ => 0) 64)).2.2.1 rfl

/-- C7 (as stated) fails in ShuttingDown state with unread data: commitSync returns at
once, whereas commit followed by flush suspends on the idle event. -/
theorem commitSync_shutdown_counterexample :
    (((initial (fun _ => 0) 64).commit 1 4).shutdown.commitSync 3 2 4).isDone = true ∧
    (commitThenFlush 3 ((initial (fun _ => 0) 64).commit 1 4).shutdown 2 4).isDone = false ∧
    ((initial (fun _ => 0) 64).commit 1 4).shutdown.commitSync 3 2 4 ≠
      commitThenFlush 3 ((initial (fun _ => 0) 64).commit 1 4).shutdown 2 4 := by
  have h1 : (((initial (fun _ => 0) 64).commit 1 4).shutdown.commitSync 3 2 4).isDone = true := by
    decide
  have h2 : (commitThenFlush 3 ((initial (fun _ => 0) 64).commit 1 4).shutdown 2 4).isDone
      = false := by decide
  refine ⟨h1, h2, ?_⟩
  intro h
  rw [h, h2] at h1
  exact Bool.false_ne_true h1

/-- C7 (amended): in Active state, and in any state with put == get, commitSync(command,
size) has the same outcome (same resulting object, same return or suspension) as
commit(command, size) followed by flush(); in ShuttingDown state with put != get
commitSync returns at once without changing anything, while commit followed by flush
consumes the idle event and suspends on it. -/
theorem commitSync_eq_commit_flush (fuel : Nat) (f : Fifo) (command size : Nat) :
    (f.mInShutdown = false ∨ f.mPut = f.mGet →
      f.commitSync (fuel + 1) command size = commitThenFlush (fuel + 1) f command size) ∧
    (f.mInShutdown = true → f.mPut ≠ f.mGet →
      f.commitSync (fuel + 2) command size = Outcome.done f () ∧
      commitThenFlush (fuel + 2) f command size =
        Outcome.waiting { f with mSignalToControl := { mSet := false } } WaitPoint.idleWait) := by
  constructor
  · intro h
    cases hd : f.mInShutdown with
    | false => simp [Fifo.commitSync, commitThenFlush, hd]
    | true =>
      have he : f.mPut = f.mGet := by
        rcases h with h | h
        · rw [hd] at h; exact absurd h (by decide)
        · exact h
      have hc : f.commit command size = f := by simp [Fifo.commit, hd]
      simp only [Fifo.commitSync, commitThenFlush, hd, if_true, hc, Fifo.flush]
      exact (flushLoop_drained fuel f he).symm
  · intro hd hne
    have hc : f.commit command size = f := by simp [Fifo.commit, hd]
    refine ⟨by simp [Fifo.commitSync, hd], ?_⟩
    simp only [commitThenFlush, hc, Fifo.flush]
    exact flushLoop_undrained fuel f hne

/-- Witness for C7 (amended): commitSync(1, 4) on a fresh Active channel. -/
theorem commitSync_eq_commit_flush_witness :
    (initial (fun _ => 0) 64).commitSync 1 1 4 = commitThenFlush 1 (initial (fun _ => 0) 64) 1 4 :=
  (commitSync_eq_commit_flush 0 (initial (fun _ => 0) 64) 1 4).1 (Or.inl rfl)


/-! ## C10: shutdown is terminal -/

theorem reserve_flag (f : Fifo) (n : Nat) (f1 : Fifo) (h : (f.reserve n).fifo? = some f1) :
    f1.mInShutdown = f.mInShutdown := by
  simp only [Fifo.reserve, Fifo.makeSpace, Fifo.makeSpaceReset, Fifo.makeSpacePoll] at h
  split_ifs at h <;> simp only [Outcome.andThen, Outcome.fifo?, Option.some.injEq] at h <;>
    subst h <;> rfl

theorem reserveResume_flag (f : Fifo) (w : WaitPoint) (f1 : Fifo)
    (h : (f.reserveResume w).fifo? = some f1) : f1.mInShutdown = f.mInShutdown := by
  cases w <;>
    simp only [Fifo.reserveResume, Fifo.makeSpaceReset, Fifo.makeSpacePoll] at h
  all_goals
    first
    | (split_ifs at h <;> simp only [Outcome.andThen, Outcome.fifo?, Option.some.injEq] at h <;>
        subst h <;> rfl)
    | (simp only [Outcome.andThen, Outcome.fifo?, Option.some.injEq] at h; subst h; rfl)

theorem flushLoop_flag (fuel : Nat) : ∀ (f f1 : Fifo),
    (Fifo.flushLoop fuel f).fifo? = some f1 →
    f1.mInShutdown = f.mInShutdown ∧ f1.mPut = f.mPut ∧ f1.mGet = f.mGet := by
  induction fuel with
  | zero => intro f f1 h; simp [Fifo.flushLoop, Outcome.fifo?] at h
  | succ k ih =>
    intro f f1 h
    unfold Fifo.flushLoop at h
    by_cases hne : f.mPut ≠ f.mGet
    · rw [if_pos hne] at h
      cases hw : f.mSignalToControl.wait with
      | none =>
        simp only [hw, Outcome.fifo?, Option.some.injEq] at h
        subst h; exact ⟨rfl, rfl, rfl⟩
      | some sig =>
        simp only [hw] at h
        have h2 := ih _ _ h
        exact h2
    · rw [if_neg hne] at h
      simp only [Outcome.fifo?, Option.some.injEq] at h
      subst h; exact ⟨rfl, rfl, rfl⟩

theorem flushResume_flag (fuel : Nat) (f f1 : Fifo)
    (h : (f.flushResume fuel).fifo? = some f1) :
    f1.mInShutdown = f.mInShutdown ∧ f1.mPut = f.mPut ∧ f1.mGet = f.mGet := by
  unfold Fifo.flushResume at h
  cases hw : f.mSignalToControl.wait with
  | none =>
    simp only [hw, Outcome.fifo?, Option.some.injEq] at h
    subst h; exact ⟨rfl, rfl, rfl⟩
  | some sig =>
    simp only [hw] at h
    have h2 := flushLoop_flag fuel _ _ h
    exact h2

/-- In ShuttingDown state get returns the terminal result at once, changing nothing. -/
theorem get_shutdown (fuel : Nat) (f : Fifo) (hd : f.mInShutdown = true) :
    f.get (fuel + 1) = Outcome.done f { command := 0, bytesData := 0, data := none } := by
  simp [Fifo.get, hd]

theorem exec_flag (c : Call) (f f1 : Fifo) (hd : f.mInShutdown = true)
    (h : c.exec f = some f1) : f1.mInShutdown = true := by
  cases c with
  | reserve n => rw [reserve_flag f n f1 h]; exact hd
  | reserveResume w => rw [reserveResume_flag f w f1 h]; exact hd
  | write a v =>
    simp only [Call.exec, Option.some.injEq] at h; subst h; exact hd
  | commit c n =>
    simp only [Call.exec, Fifo.commit, hd, if_true, Option.some.injEq] at h; subst h; exact hd
  | commitSync fuel c n =>
    simp only [Call.exec, Fifo.commitSync, hd, if_true, Outcome.fifo?, Option.some.injEq] at h
    subst h; exact hd
  | flush fuel => rw [(flushLoop_flag fuel f f1 h).1]; exact hd
  | flushResume fuel => rw [(flushResume_flag fuel f f1 h).1]; exact hd
  | get fuel =>
    cases fuel with
    | zero => simp [Call.exec, Fifo.get, Outcome.fifo?] at h
    | succ k =>
      simp only [Call.exec, get_shutdown k f hd, Outcome.fifo?, Option.some.injEq] at h
      subst h; exact hd
  | getResume fuel =>
    simp only [Call.exec, Fifo.getResume] at h
    cases hw : f.mSignalToWorker.wait with
    | none =>
      simp only [hw, Outcome.fifo?, Option.some.injEq] at h
      subst h; exact hd
    | some sig =>
      simp only [hw] at h
      cases fuel with
      | zero => simp [Fifo.get, Outcome.fifo?] at h
      | succ k =>
        rw [get_shutdown k _ (by exact hd)] at h
        simp only [Outcome.fifo?, Option.some.injEq] at h
        subst h; exact hd
  | next =>
    simp only [Call.exec, Fifo.next, Option.some.injEq] at h
    subst h
    split_ifs <;> exact hd
  | shutdown =>
    simp only [Call.exec, Option.some.injEq] at h; subst h; rfl

theorem execAll_flag (calls : List Call) : ∀ (f f1 : Fifo), f.mInShutdown = true →
    execAll f calls = some f1 → f1.mInShutdown = true := by
  induction calls with
  | nil =>
    intro f f1 hd h
    simp only [execAll, Option.some.injEq] at h
    subst h; exact hd
  | cons c cs ih =>
    intro f f1 hd h
    simp only [execAll] at h
    cases hc : c.exec f with
    | none => simp [hc] at h
    | some f2 =>
      simp only [hc, Option.bind_some] at h
      exact ih f2 f1 (exec_flag c f f2 hd hc) h

/-- C10: once shutdown() has been called, after any further sequence of reserve, commit,
commitSync, flush, get, next and shutdown calls (and continuations of suspended calls,
and buffer writes by the callers) the shutdown flag is still set and get() returns
(command 0, length 0, null pointer) at once, without waiting on an event and leaving
the object (the get cursor included) unchanged; no such call clears the flag. -/
theorem shutdown_terminal (f : Fifo) (calls : List Call) (f1 : Fifo) (fuel : Nat)
    (h : execAll f.shutdown calls = some f1) :
    f1.mInShutdown = true ∧
    f1.get (fuel + 1) = Outcome.done f1 { command := 0, bytesData := 0, data := none } ∧
    (∀ (c : Call) (f2 : Fifo), c.exec f1 = some f2 → f2.mInShutdown = true) := by
  have hd : f1.mInShutdown = true := execAll_flag calls f.shutdown f1 rfl h
  exact ⟨hd, get_shutdown fuel f1 hd, fun c f2 hc => exec_flag c f1 f2 hd hc⟩

/-- Witness for C10: shutdown of a channel holding a record, then commit, next and get. -/
theorem shutdown_terminal_witness :
    (((initial (fun _ => 0) 64).commit 1 4).shutdown.commit 2 4).next.mInShutdown = true :=
  (shutdown_terminal ((initial (fun _ => 0) 64).commit 1 4)
    [Call.commit 2 4, Call.next, Call.get 1]
    (((initial (fun _ => 0) 64).commit 1 4).shutdown.commit 2 4).next 0 rfl).1


/-! ## C9: persistence of the drained state -/

/-- C9 (as stated) fails: capacity 64, put = get = 52 after a record was committed, read
and released; flush returns at once; reserve(12) (12 + 8 <= 63) then writes the reset
token and moves put to 0 while get stays at 52. -/
theorem drained_reserve_counterexample :
    (execAll (initial zeroMem 64)
        [Call.reserve 48, Call.commit 1 48, Call.get 1, Call.next, Call.flush 1]).map
      Fifo.cursors = some (52, 52) ∧
    (execAll (initial zeroMem 64)
        [Call.reserve 48, Call.commit 1 48, Call.get 1, Call.next, Call.flush 1,
         Call.reserve 12]).map Fifo.cursors = some (0, 52) ∧
    (drainedAt52.flush 1).isDone = true ∧
    drainedAt52.cursors = (52, 52) ∧
    (drainedAt52.reserve 12).isDone = true ∧
    (drainedAt52.reserve 12).fifo?.map Fifo.cursors = some (0, 52) := by
  decide

theorem get_drained (fuel : Nat) : ∀ (f f1 : Fifo), f.mPut = f.mGet →
    (f.get fuel).fifo? = some f1 → f1.mPut = f.mPut ∧ f1.mGet = f.mGet := by
  induction fuel with
  | zero => intro f f1 _ h; simp [Fifo.get, Outcome.fifo?] at h
  | succ k ih =>
    intro f f1 he h
    unfold Fifo.get at h
    cases hd : f.mInShutdown with
    | true =>
      simp only [hd, Bool.not_true, Bool.and_false, Bool.false_eq_true, if_false, if_true,
        Outcome.fifo?, Option.some.injEq] at h
      subst h; exact ⟨rfl, rfl⟩
    | false =>
      have hemp : f.isEmpty = true := by simp [Fifo.isEmpty, he]
      simp only [hd, hemp, Bool.not_false, Bool.and_self, if_true] at h
      cases hw : f.mSignalToWorker.wait with
      | none =>
        simp only [hw, Outcome.fifo?, Option.some.injEq] at h
        subst h; exact ⟨rfl, rfl⟩
      | some sig =>
        simp only [hw] at h
        have h2 := ih _ f1 (by exact he) h
        exact h2

theorem exec_drained (c : Call) (f f1 : Fifo) (he : f.mPut = f.mGet)
    (hk : c.keepsDrained f = true) (h : c.exec f = some f1) : f1.mPut = f1.mGet := by
  cases c with
  | reserve n =>
    simp only [Call.keepsDrained, Fifo.reserveWraps, Bool.not_eq_true', Bool.and_eq_false_imp,
      Bool.and_eq_true, decide_eq_true_eq, Bool.not_eq_false', and_imp] at hk
    simp only [Call.exec, Fifo.reserve, Fifo.makeSpace, Fifo.makeSpaceReset,
      Fifo.makeSpacePoll] at h
    split_ifs at h with h1 h2 h3 <;>
      simp only [Outcome.andThen, Outcome.fifo?, Option.some.injEq] at h <;>
      subst h <;> first | exact he | (exact absurd (hk h1 h2) (by simp [h3]))
  | reserveResume w => simp [Call.keepsDrained] at hk
  | write a v =>
    simp only [Call.exec, Option.some.injEq] at h; subst h; exact he
  | commit c n => simp [Call.keepsDrained] at hk
  | commitSync fuel c n => simp [Call.keepsDrained] at hk
  | flush fuel =>
    have h2 := flushLoop_flag fuel f f1 h
    rw [h2.2.1, h2.2.2]; exact he
  | flushResume fuel =>
    have h2 := flushResume_flag fuel f f1 h
    rw [h2.2.1, h2.2.2]; exact he
  | get fuel =>
    have h2 := get_drained fuel f f1 he h
    rw [h2.1, h2.2]; exact he
  | getResume fuel =>
    simp only [Call.exec, Fifo.getResume] at h
    cases hw : f.mSignalToWorker.wait with
    | none =>
      simp only [hw, Outcome.fifo?, Option.some.injEq] at h
      subst h; exact he
    | some sig =>
      simp only [hw] at h
      have h2 := get_drained fuel _ f1 (by exact he) h
      rw [h2.1, h2.2]; exact he
  | next => simp [Call.keepsDrained] at hk
  | shutdown =>
    simp only [Call.exec, Option.some.injEq] at h; subst h; exact he

theorem execAll_drained (calls : List Call) : ∀ (f f1 : Fifo), f.mPut = f.mGet →
    allKeepDrained f calls = true → execAll f calls = some f1 → f1.mPut = f1.mGet := by
  induction calls with
  | nil =>
    intro f f1 he _ h
    simp only [execAll, Option.some.injEq] at h
    subst h; exact he
  | cons c cs ih =>
    intro f f1 he hk h
    simp only [execAll] at h
    simp only [allKeepDrained, Bool.and_eq_true] at hk
    cases hc : c.exec f with
    | none => simp [hc] at h
    | some f2 =>
      simp only [hc, Option.bind_some] at h
      have hk2 := hk.2
      simp only [hc] at hk2
      exact ih f2 f1 (exec_drained c f f2 he hk.1 hc) hk2 h

/-- C9 (amended): starting from a state with put == get (as flush leaves it), put == get
still holds after any sequence of get, flush and shutdown calls, continuations of
suspended get and flush calls, caller-side buffer writes, and reserve calls that do
not take the wraparound step; a reserve(size) that does take it writes the reset token
and sets put to 0 while get is unchanged, so that afterwards put == get only if get
is the buffer start. -/
theorem drained_persists (f : Fifo) (calls : List Call) (f1 : Fifo)
    (hdrained : f.mPut = f.mGet)
    (hcalls : allKeepDrained f calls = true)
    (hrun : execAll f calls = some f1) :
    f1.mPut = f1.mGet ∧
    (∀ size f2, f1.reserveWraps size = true → (f1.reserve size).fifo? = some f2 →
      f2.mPut = 0 ∧ f2.mGet = f1.mGet ∧ read16 f2.mBuffer f1.mPut = 0 ∧
      (f2.mPut = f2.mGet ↔ f1.mGet = 0)) := by
  have he := execAll_drained calls f f1 hdrained hcalls hrun
  refine ⟨he, ?_⟩
  intro size f2 hw h
  simp only [Fifo.reserveWraps, Bool.and_eq_true, decide_eq_true_eq, Bool.not_eq_true'] at hw
  obtain ⟨⟨hw1, hw2⟩, hw3⟩ := hw
  have hb := (header_readback f1.mBuffer f1.mPut 0 0).1
  simp only [Fifo.reserve, Fifo.makeSpace, Fifo.makeSpaceReset, Fifo.makeSpacePoll, hw1, hw2,
    hw3, if_true, Bool.false_eq_true, if_false] at h
  split_ifs at h <;>
    simp only [Outcome.andThen, Outcome.fifo?, Option.some.injEq] at h <;>
    subst h <;>
    exact ⟨rfl, rfl, by simpa using hb, by constructor <;> intro h <;> simp_all⟩

/-- Witness for C9 (amended): on the drained channel at put = get = 52, a flush,
a reserve(3) (which fits without wrapping) and a shutdown keep put == get. -/
theorem drained_persists_witness :
    drainedAt52.shutdown.mPut = drainedAt52.shutdown.mGet :=
  (drained_persists drainedAt52 [Call.flush 1, Call.reserve 3, Call.shutdown]
    drainedAt52.shutdown rfl (by decide) rfl).1


/-! ## Symbolic execution of single calls -/

theorem writeBytes_outside (data : List Nat) : ∀ (m : Mem) (a x : Int),
    x < a ∨ a + (data.length : Int) ≤ x → writeBytes m a data x = m x := by
  induction data with
  | nil => intro m a x _; rfl
  | cons b bs ih =>
    intro m a x h
    simp only [List.length_cons, Nat.cast_add, Nat.cast_one] at h
    simp only [writeBytes]
    rw [ih _ _ _ (by omega), store8_other _ _ _ _ (by omega)]

theorem readBytes_congr (n : Nat) : ∀ (m1 m2 : Mem) (a : Int),
    (∀ x, a ≤ x → x < a + (n : Int) → m1 x = m2 x) → readBytes m1 a n = readBytes m2 a n := by
  induction n with
  | zero => intro m1 m2 a _; rfl
  | succ k ih =>
    intro m1 m2 a h
    simp only [readBytes]
    rw [h a (le_refl a) (by push_cast; omega),
      ih m1 m2 (a + 1) (fun x h1 h2 => h x (by omega) (by push_cast; omega))]

theorem readBytes_writeBytes (data : List Nat) : ∀ (m : Mem) (a : Int),
    readBytes (writeBytes m a data) a data.length = data.map (fun b => b % 256) := by
  induction data with
  | nil => intro m a; rfl
  | cons b bs ih =>
    intro m a
    simp only [writeBytes, List.length_cons, readBytes, List.map_cons]
    rw [ih, writeBytes_outside _ _ _ _ (by omega), store8_same]
    simp

theorem map_mod_of_bytes (data : List Nat) (h : ∀ b ∈ data, b < 256) :
    data.map (fun b => b % 256) = data := by
  induction data with
  | nil => rfl
  | cons b bs ih =>
    simp only [List.map_cons]
    rw [Nat.mod_eq_of_lt (h b (List.mem_cons_self b bs)),
      ih (fun x hx => h x (List.mem_cons_of_mem b hx))]

/-- reserve returns at once, changing nothing, when the free space suffices. -/
theorem reserve_fits (f : Fifo) (n : Nat) (h : (n + 8) % 4294967296 ≤ f.getFreeSpace) :
    f.reserve n = Outcome.done f (f.mPut + 4) := by
  simp [Fifo.reserve, not_lt.mpr h]

/-- get on a non-empty Active channel whose header at get has a non-zero command. -/
theorem get_record (fuel : Nat) (f : Fifo) (ha : f.mInShutdown = false)
    (hne : f.mPut ≠ f.mGet) (hc : read16 f.mBuffer f.mGet ≠ 0) :
    f.get (fuel + 1) = Outcome.done f
      { command := read16 f.mBuffer f.mGet, bytesData := read16 f.mBuffer (f.mGet + 2),
        data := some (f.mGet + 4) } := by
  simp [Fifo.get, Fifo.isEmpty, ha, hne, hc]

/-- get on a non-empty Active channel whose header at get is the reset token. -/
theorem get_reset (fuel : Nat) (f : Fifo) (ha : f.mInShutdown = false)
    (hne : f.mPut ≠ f.mGet) (hc : read16 f.mBuffer f.mGet = 0) :
    f.get (fuel + 1) = Fifo.get fuel { f with mGet := 0 } := by
  simp [Fifo.get, Fifo.isEmpty, ha, hne, hc]

/-- get on an empty Active channel signals the idle event and waits for data. -/
theorem get_empty (fuel : Nat) (f : Fifo) (ha : f.mInShutdown = false)
    (he : f.mPut = f.mGet) :
    f.get (fuel + 1) =
      Fifo.getResume fuel { f with mSignalToControl := f.mSignalToControl.set } := by
  simp only [Fifo.get, Fifo.isEmpty, ha, he, decide_True, Bool.not_false, Bool.and_self, if_true,
    Fifo.getResume]


/-! ## C1, C2: the wraparound scenario on capacity 64 -/

/-- C2 (as stated) fails: capacity 64, first record with a 52-byte payload (needing 60
bytes), second with a 12-byte payload (needing 20), both committed before the consumer
reads.  The first commit leaves put at 56, so the reset token is written at offset 56,
not 60 (the bytes at 60 keep their initial value); and as get is still at the buffer
start the second record overwrites the first: reading back yields the second record
only.  The read-back is the same for a first payload of 55 bytes, whose commit leaves
put at 60. -/
theorem wraparound_readback_counterexample :
    (produce (initial onesMem 64) { command := 1, payload := List.replicate 52 7 }).fifo?.map
      Fifo.cursors = some (56, 0) ∧
    (produceAll (initial onesMem 64)
      [{ command := 1, payload := List.replicate 52 7 },
       { command := 2, payload := List.replicate 12 9 }]).isDone = true ∧
    (produceAll (initial onesMem 64)
      [{ command := 1, payload := List.replicate 52 7 },
       { command := 2, payload := List.replicate 12 9 }]).fifo?.map
        (fun f => (f.cursors, read16 f.mBuffer 56, read16 f.mBuffer 60)) =
      some ((16, 0), 0, 65535) ∧
    (produceAll (initial onesMem 64)
      [{ command := 1, payload := List.replicate 52 7 },
       { command := 2, payload := List.replicate 12 9 }]).fifo?.map (consumeAll 3 5) =
      some [{ command := 2, payload := List.replicate 12 9 }] ∧
    (produce (initial onesMem 64) { command := 1, payload := List.replicate 55 7 }).fifo?.map
      Fifo.cursors = some (60, 0) ∧
    (produceAll (initial onesMem 64)
      [{ command := 1, payload := List.replicate 55 7 },
       { command := 2, payload := List.replicate 12 9 }]).fifo?.map (consumeAll 3 5) =
      some [{ command := 2, payload := List.replicate 12 9 }] := by
  decide

/-- C1 fails on the code: capacity 64, the producer submits (command 1, 48 bytes) and
(command 2, 12 bytes) before the consumer runs; both reserves return (the second one
wraps while get is still at the buffer start, where the free space is then reported
as 63), and the consumer receives the second record only. -/
theorem fifo_order_lost :
    (produceAll (initial zeroMem 64)
      [{ command := 1, payload := List.replicate 48 7 },
       { command := 2, payload := List.replicate 12 9 }]).isDone = true ∧
    (produceAll (initial zeroMem 64)
      [{ command := 1, payload := List.replicate 48 7 },
       { command := 2, payload := List.replicate 12 9 }]).fifo?.map (consumeAll 3 5) =
      some [{ command := 2, payload := List.replicate 12 9 }] := by
  decide

/-- reserve on the wraparound path: the reset token is written at put, put moves to the
buffer start, and reserve returns offset 4 once the free space there suffices. -/
theorem reserve_reset (f : Fifo) (n : Nat) (hw : f.reserveWraps n = true)
    (hfree : (n + 8) % 4294967296 ≤
      ({ f with mBuffer := store16 (store16 f.mBuffer f.mPut 0) (f.mPut + 2) 0,
                mPut := 0 } : Fifo).getFreeSpace) :
    f.reserve n = Outcome.done
      { f with mBuffer := store16 (store16 f.mBuffer f.mPut 0) (f.mPut + 2) 0, mPut := 0 } 4 := by
  simp only [Fifo.reserveWraps, Bool.and_eq_true, decide_eq_true_eq, Bool.not_eq_true'] at hw
  obtain ⟨⟨hw1, hw2⟩, hw3⟩ := hw
  simp only [Fifo.reserve, Fifo.makeSpace, Fifo.makeSpaceReset, Fifo.makeSpacePoll, hw1, hw2, hw3,
    if_true, Bool.false_eq_true, if_false, not_lt.mpr hfree, Outcome.andThen, zero_add]

/-- Right after init(64) the free space is 63. -/
theorem initial_getFreeSpace_64 (m : Mem) : (initial m 64).getFreeSpace = 63 := rfl

/-- The wraparound scenario on capacity 64 for a first record whose commit leaves put at
p (44 <= p <= 60, so that a second record needing 20 bytes does not fit behind it),
the consumer having released the first record before the second reserve. -/
theorem wraparound_steps (m : Mem) (c1 c2 : Nat) (p1 p2 : List Nat) (p : Int)
    (hc1 : 1 ≤ c1 ∧ c1 < 65536) (hc2 : 1 ≤ c2 ∧ c2 < 65536)
    (hl1 : p1.length + 8 ≤ 63) (hp : (recordAdvance p1.length : Int) = p)
    (hp1 : 44 ≤ p) (hp2 : p ≤ 60) (hl2 : p2.length = 12)
    (hb1 : ∀ b ∈ p1, b < 256) (hb2 : ∀ b ∈ p2, b < 256) :
    ∃ f1 f2 f3 f4 f5 : Fifo,
      produce (initial m 64) { command := c1, payload := p1 } = Outcome.done f1 () ∧
      f1.mPut = p ∧
      consume 1 f1 = Outcome.done f2 { command := c1, payload := p1 } ∧
      f2.reserve 12 = Outcome.done f3 4 ∧
      f3.mPut = 0 ∧ read16 f3.mBuffer p = 0 ∧ read16 f3.mBuffer (p + 2) = 0 ∧
      produce f2 { command := c2, payload := p2 } = Outcome.done f4 () ∧
      read16 f4.mBuffer 0 = c2 ∧ read16 f4.mBuffer 2 = 12 ∧ f4.mPut = 16 ∧
      consume 2 f4 = Outcome.done f5 { command := c2, payload := p2 } ∧
      f5.mPut = f5.mGet := by
  have hadv := recordAdvance_bounds p1.length (by omega)
  -- first record
  have e1 : produce (initial m 64) { command := c1, payload := p1 } =
      Outcome.done (((initial m 64).fill 4 p1).commit c1 p1.length) () := by
    simp only [produce]
    rw [reserve_fits _ _ (by rw [initial_getFreeSpace_64]; omega)]
    rfl
  generalize hf1 : ((initial m 64).fill 4 p1).commit c1 p1.length = f1 at e1
  have hput1 : f1.mPut = p := by
    rw [← hf1, ← hp]
    show (0 : Int) + _ = _
    rw [zero_add]
  have hget1 : f1.mGet = 0 := by rw [← hf1]; rfl
  have hend1 : f1.mEnd = 63 := by rw [← hf1]; rfl
  have hact1 : f1.mInShutdown = false := by rw [← hf1]; rfl
  have hbuf1 : f1.mBuffer = store16 (store16 (writeBytes m 4 p1) 0 c1) (0 + 2) p1.length := by
    rw [← hf1]; rfl
  have hh1 := header_readback (writeBytes m 4 p1) 0 c1 p1.length
  rw [← hbuf1, zero_add] at hh1
  have hcmd1 : read16 f1.mBuffer 0 = c1 := by rw [hh1.1]; omega
  have hlen1 : read16 f1.mBuffer 2 = p1.length := by rw [hh1.2]; omega
  have hpay1 : readBytes f1.mBuffer 4 p1.length = p1 := by
    rw [readBytes_congr p1.length f1.mBuffer (writeBytes m 4 p1) 4
      (fun x h1 _ => by rw [hbuf1]; exact header_frame _ _ _ _ _ (by omega))]
    rw [readBytes_writeBytes, map_mod_of_bytes p1 hb1]
  have e2 : consume 1 f1 = Outcome.done f1.next { command := c1, payload := p1 } := by
    simp only [consume]
    rw [get_record 0 f1 hact1 (by rw [hput1, hget1]; omega) (by rw [hget1, hcmd1]; omega)]
    simp only [Outcome.andThen, hget1, zero_add, hcmd1, hlen1, hpay1]
  -- the consumer has released it: put = get = p
  generalize hf2 : f1.next = f2 at e2
  have hput2 : f2.mPut = p := by
    rw [← hf2]; simp only [Fifo.next]; split_ifs <;> exact hput1
  have hget2 : f2.mGet = p := by
    rw [← hf2, ← hp]; simp only [Fifo.next, hget1, zero_add, hlen1]; split_ifs <;> rfl
  have hend2 : f2.mEnd = 63 := by
    rw [← hf2]; simp only [Fifo.next]; split_ifs <;> exact hend1
  have hact2 : f2.mInShutdown = false := by
    rw [← hf2]; simp only [Fifo.next]; split_ifs <;> exact hact1
  have hfree2 : f2.getFreeSpace < 20 := by
    simp only [Fifo.getFreeSpace, hput2, hget2, hend2, ge_iff_le, le_refl, if_true]
    unfold toInt32 toUint32
    split <;> omega
  -- second record: wraparound
  have e3 : f2.reserve 12 = Outcome.done
      { f2 with mBuffer := store16 (store16 f2.mBuffer f2.mPut 0) (f2.mPut + 2) 0, mPut := 0 } 4 := by
    apply reserve_reset
    · simp only [Fifo.reserveWraps, Fifo.wrapPollCond, hput2, hget2, hend2, Bool.and_eq_true,
        decide_eq_true_eq, Bool.not_eq_true', Bool.and_eq_false_imp]
      refine ⟨⟨hfree2, by omega⟩, fun h => absurd h (by omega)⟩
    · simp only [Fifo.getFreeSpace, hget2, hend2]
      have hlt : ¬ ((0 : Int) ≥ p) := by omega
      simp only [hlt, if_false]
      unfold toInt32 toUint32
      split <;> omega
  generalize hf3 : ({ f2 with mBuffer := store16 (store16 f2.mBuffer f2.mPut 0) (f2.mPut + 2) 0,
                              mPut := 0 } : Fifo) = f3 at e3
  have hput3 : f3.mPut = 0 := by rw [← hf3]
  have hget3 : f3.mGet = p := by rw [← hf3]; exact hget2
  have hact3 : f3.mInShutdown = false := by rw [← hf3]; exact hact2
  have hbuf3 : f3.mBuffer = store16 (store16 f2.mBuffer p 0) (p + 2) 0 := by
    rw [← hf3]; simp only [hput2]
  have hh3 := header_readback f2.mBuffer p 0 0
  rw [← hbuf3] at hh3
  have htok3 : read16 f3.mBuffer p = 0 := hh3.1
  have htok3b : read16 f3.mBuffer (p + 2) = 0 := hh3.2
  have e4 : produce f2 { command := c2, payload := p2 } =
      Outcome.done ((f3.fill 4 p2).commit c2 12) () := by
    simp only [produce, hl2, e3, Outcome.andThen]
  generalize hf4 : (f3.fill 4 p2).commit c2 12 = f4 at e4
  have hcommit4 : f4 = { f3 with
      mBuffer := store16 (store16 (writeBytes f3.mBuffer 4 p2) 0 c2) (0 + 2) 12,
      mPut := 16, mSignalToWorker := f3.mSignalToWorker.set } := by
    rw [← hf4]
    simp only [Fifo.commit, Fifo.fill, hact3, hput3, Bool.false_eq_true, if_false]
    rfl
  have hput4 : f4.mPut = 16 := by rw [hcommit4]
  have hget4 : f4.mGet = p := by rw [hcommit4]; exact hget3
  have hact4 : f4.mInShutdown = false := by rw [hcommit4]; exact hact3
  have hbuf4 : f4.mBuffer = store16 (store16 (writeBytes f3.mBuffer 4 p2) 0 c2) (0 + 2) 12 := by
    rw [hcommit4]
  have hh4 := header_readback (writeBytes f3.mBuffer 4 p2) 0 c2 12
  rw [← hbuf4, zero_add] at hh4
  have hcmd4 : read16 f4.mBuffer 0 = c2 := by rw [hh4.1]; omega
  have hlen4 : read16 f4.mBuffer 2 = 12 := by rw [hh4.2]
  have hpay4 : readBytes f4.mBuffer 4 12 = p2 := by
    rw [readBytes_congr 12 f4.mBuffer (writeBytes f3.mBuffer 4 p2) 4
      (fun x h1 _ => by rw [hbuf4]; exact header_frame _ _ _ _ _ (by omega))]
    rw [← hl2, readBytes_writeBytes, map_mod_of_bytes p2 hb2]
  have htok4 : read16 f4.mBuffer p = 0 := by
    rw [← htok3]
    apply read16_congr <;>
    · rw [hbuf4, header_frame _ _ _ _ _ (by omega), writeBytes_outside _ _ _ _ (by omega)]
  have e5 : consume 2 f4 = Outcome.done ({ f4 with mGet := 0 } : Fifo).next
      { command := c2, payload := p2 } := by
    simp only [consume]
    rw [get_reset 1 f4 hact4 (by rw [hput4, hget4]; omega) (by rw [hget4, htok4])]
    rw [get_record 0 _ (by exact hact4) (by show f4.mPut ≠ 0; rw [hput4]; decide)
      (by show read16 f4.mBuffer 0 ≠ 0; rw [hcmd4]; omega)]
    simp only [Outcome.andThen, zero_add, hcmd4, hlen4, hpay4]
  refine ⟨f1, f2, f3, f4, _, e1, hput1, e2, e3, hput3, htok3, htok3b, e4, hcmd4, hlen4, hput4, e5, ?_⟩
  simp only [Fifo.next, zero_add, hlen4]
  split_ifs <;> simp only [hput4] <;> rfl

/-- C2 (amended): on a channel initialised with capacity 64, committing a first record
that needs 60 bytes of reservation (52-byte payload) succeeds and leaves put at 56
(at 60 for a payload of 53 to 55 bytes); once the consumer has read it (payload
intact) and released it with get/next, reserving a second record needing 20 bytes
(12-byte payload) writes the reset token (command 0, length 0) at the offset where put
stands, resets put to 0 and returns offset 4, so that the second record is placed at
offset 0 and put ends at 16; get then follows the reset token and yields the second
record with its payload intact, after which the channel is drained. -/
theorem wraparound_scenario (m : Mem) (c1 c2 : Nat) (p1 p2 : List Nat)
    (hc1 : 1 ≤ c1 ∧ c1 < 65536) (hc2 : 1 ≤ c2 ∧ c2 < 65536)
    (hl1 : 52 ≤ p1.length ∧ p1.length ≤ 55) (hl2 : p2.length = 12)
    (hb1 : ∀ b ∈ p1, b < 256) (hb2 : ∀ b ∈ p2, b < 256) :
    ∃ f1 f2 f3 f4 f5 : Fifo,
      produce (initial m 64) { command := c1, payload := p1 } = Outcome.done f1 () ∧
      f1.mPut = (if p1.length = 52 then 56 else 60) ∧
      consume 1 f1 = Outcome.done f2 { command := c1, payload := p1 } ∧
      f2.reserve 12 = Outcome.done f3 4 ∧
      f3.mPut = 0 ∧ read16 f3.mBuffer f1.mPut = 0 ∧ read16 f3.mBuffer (f1.mPut + 2) = 0 ∧
      produce f2 { command := c2, payload := p2 } = Outcome.done f4 () ∧
      read16 f4.mBuffer 0 = c2 ∧ read16 f4.mBuffer 2 = 12 ∧ f4.mPut = 16 ∧
      consume 2 f4 = Outcome.done f5 { command := c2, payload := p2 } ∧
      f5.mPut = f5.mGet := by
  have hadv := recordAdvance_eq p1.length (by omega)
  have hp : (recordAdvance p1.length : Int) = (if p1.length = 52 then 56 else 60) := by
    rw [hadv]
    split <;> omega
  obtain ⟨f1, f2, f3, f4, f5, h1, h2, h3, h4, h5, h6, h7, h8, h9, h10, h11, h12, h13⟩ :=
    wraparound_steps m c1 c2 p1 p2 _ hc1 hc2 (by omega) hp (by split <;> omega)
      (by split <;> omega) hl2 hb1 hb2
  exact ⟨f1, f2, f3, f4, f5, h1, h2, h3, h4, h5, by rw [h2]; exact h6, by rw [h2]; exact h7,
    h8, h9, h10, h11, h12, h13⟩

/-- Witness for C2 (amended): memory of 255s, records (1, 52 bytes of 7) and (2, 12 bytes
of 9). -/
theorem wraparound_scenario_witness :
    ∃ f1 f2 f3 f4 f5 : Fifo,
      produce (initial onesMem 64) { command := 1, payload := List.replicate 52 7 } =
        Outcome.done f1 () ∧
      f1.mPut = (if (List.replicate 52 7).length = 52 then 56 else 60) ∧
      consume 1 f1 = Outcome.done f2 { command := 1, payload := List.replicate 52 7 } ∧
      f2.reserve 12 = Outcome.done f3 4 ∧
      f3.mPut = 0 ∧ read16 f3.mBuffer f1.mPut = 0 ∧ read16 f3.mBuffer (f1.mPut + 2) = 0 ∧
      produce f2 { command := 2, payload := List.replicate 12 9 } = Outcome.done f4 () ∧
      read16 f4.mBuffer 0 = 2 ∧ read16 f4.mBuffer 2 = 12 ∧ f4.mPut = 16 ∧
      consume 2 f4 = Outcome.done f5 { command := 2, payload := List.replicate 12 9 } ∧
      f5.mPut = f5.mGet :=
  wraparound_scenario onesMem 1 2 (List.replicate 52 7) (List.replicate 12 9)
    (by decide) (by decide) (by decide) (by decide) (by decide) (by decide)

/-! ## C3: layout invariant of the protocol runs -/

theorem recordAdvance_read16 (m : Mem) (a : Int) :
    4 ≤ recordAdvance (read16 m a) ∧ recordAdvance (read16 m a) ≤ 65542 := by
  have h := read16_lt m a
  have h2 := recordAdvance_bounds (read16 m a) (by omega)
  omega

theorem chain_le (m : Mem) (n : Nat) : ∀ g p : Int, Chain m n g p → g ≤ p := by
  induction n with
  | zero => intro g p h; simp only [Chain] at h; omega
  | succ k ih =>
    intro g p h
    simp only [Chain] at h
    have := ih _ _ h.2
    omega

theorem chain_succ_lt (m : Mem) (n : Nat) (g p : Int) (h : Chain m (n + 1) g p) :
    g + 4 ≤ p := by
  simp only [Chain] at h
  have h1 := chain_le m n _ _ h.2
  have h2 := recordAdvance_read16 m (g + 2)
  omega

theorem chain_same (m : Mem) (n : Nat) (g : Int) (h : Chain m n g g) : n = 0 := by
  cases n with
  | zero => rfl
  | succ k =>
    have := chain_succ_lt m k g g h
    omega

theorem chain_frame (m1 m2 : Mem) (n : Nat) : ∀ g p : Int,
    (∀ x, g ≤ x → x < p → m2 x = m1 x) → Chain m1 n g p → Chain m2 n g p := by
  induction n with
  | zero => intro g p _ h; exact h
  | succ k ih =>
    intro g p hm h
    have hlt := chain_succ_lt m1 k g p h
    simp only [Chain] at h ⊢
    have e0 : read16 m2 g = read16 m1 g :=
      read16_congr _ _ _ (hm _ (by omega) (by omega)) (hm _ (by omega) (by omega))
    have e2 : read16 m2 (g + 2) = read16 m1 (g + 2) :=
      read16_congr _ _ _ (hm _ (by omega) (by omega)) (hm _ (by omega) (by omega))
    rw [e0, e2]
    refine ⟨h.1, ih _ _ (fun x h1 h2 => hm x ?_ h2) h.2⟩
    have := recordAdvance_read16 m1 (g + 2)
    omega

theorem chain_snoc (m : Mem) (n : Nat) : ∀ g p : Int, Chain m n g p → read16 m p ≠ 0 →
    Chain m (n + 1) g (p + (recordAdvance (read16 m (p + 2)) : Int)) := by
  induction n with
  | zero =>
    intro g p h hc
    simp only [Chain] at h
    subst h
    exact ⟨hc, rfl⟩
  | succ k ih =>
    intro g p h hc
    exact ⟨h.1, ih _ _ h.2 hc⟩

/-- What a sufficient getFreeSpace guarantees about the cursors. -/
theorem free_bound (f : Fifo) (bytes : Nat) (hb : 1 ≤ bytes) (h : bytes ≤ f.getFreeSpace)
    (hsame : f.mGet ≤ f.mPut → -2147483648 ≤ f.mEnd - f.mPut ∧ f.mEnd - f.mPut < 4294967296)
    (hahead : f.mPut < f.mGet → f.mGet - f.mPut < 4294967296) :
    (f.mGet ≤ f.mPut → f.mPut + (bytes : Int) ≤ f.mEnd) ∧
    (f.mPut < f.mGet → f.mPut + (bytes : Int) ≤ f.mGet) := by
  unfold Fifo.getFreeSpace at h
  constructor
  · intro hc
    have hc2 : f.mPut ≥ f.mGet := hc
    simp only [hc2, if_true] at h
    have := clamp_le (f.mEnd - f.mPut) (hsame hc).1 (hsame hc).2
    omega
  · intro hc
    have hc2 : ¬ (f.mPut ≥ f.mGet) := by omega
    simp only [hc2, if_false] at h
    have := clamp_le (f.mGet - f.mPut) (by omega) (hahead hc)
    omega


theorem layout_free (f : Fifo) (prod : ProdState) (n : Nat) (r : Prop) (bytes : Nat)
    (hl : Layout f prod n r) (hb : 1 ≤ bytes) (h : bytes ≤ f.getFreeSpace) :
    (f.mGet ≤ f.mPut → f.mPut + (bytes : Int) ≤ f.mEnd) ∧
    (f.mPut < f.mGet → f.mPut + (bytes : Int) ≤ f.mGet) := by
  obtain ⟨_, hend, hsz, hget, _, hlap⟩ := hl
  apply free_bound f bytes hb h
  · intro hc
    rcases hlap with ⟨⟨_, hpe, _, _⟩, _⟩ | ⟨n1, n2, _, ⟨hlt, _⟩, _⟩
    · omega
    · omega
  · intro hc
    rcases hlap with ⟨⟨hle, _, _, _⟩, _⟩ | ⟨n1, n2, _, ⟨_, w, hw1, hw2, _, _, hc2, _⟩, _⟩
    · omega
    · have := chain_le _ _ _ _ hc2
      omega

/-- The producer state can be replaced when the new one carries its obligations. -/
theorem layout_set_prod (f : Fifo) (p p1 : ProdState) (n : Nat) (r : Prop)
    (hl : Layout f p n r) (hv : p1.Valid f.mSize)
    (hres : ∀ size, p1 = ProdState.reserved size →
      (f.mGet ≤ f.mPut → f.mPut + (size : Int) + 8 ≤ f.mEnd) ∧
      (f.mPut < f.mGet → f.mPut + (size : Int) + 8 ≤ f.mGet)) :
    Layout f p1 n r := by
  obtain ⟨h1, h2, h3, h4, _, hlap⟩ := hl
  refine ⟨h1, h2, h3, h4, hv, ?_⟩
  rcases hlap with ⟨⟨a1, a2, a3, _⟩, hr⟩ | ⟨n1, n2, hn, ⟨b1, w, b2, b3, b4, b5, b6, _⟩, hr⟩
  · exact Or.inl ⟨⟨a1, a2, a3, fun size hs => (hres size hs).1 a1⟩, hr⟩
  · exact Or.inr ⟨n1, n2, hn, ⟨b1, w, b2, b3, b4, b5, b6, fun size hs => (hres size hs).2 b1⟩, hr⟩

theorem layout_reserved (f : Fifo) (p : ProdState) (n : Nat) (r : Prop) (size : Nat)
    (hl : Layout f p n r) (hs : size < 65536) (hcap : size + 8 + 1 ≤ f.mSize)
    (hfree : size + 8 ≤ f.getFreeSpace) :
    Layout f (ProdState.reserved size) n r := by
  apply layout_set_prod f p (ProdState.reserved size) n r hl ⟨hs, hcap⟩
  intro size1 h1
  injection h1 with h1
  subst h1
  have := layout_free f p n r (size + 8) hl (by omega) hfree
  push_cast at this
  constructor
  · intro hc; have := this.1 hc; omega
  · intro hc; have := this.2 hc; omega

/-- Only the buffer, the cursors, the end, the size and the flag matter for the layout. -/
theorem layout_congr (f f1 : Fifo) (p : ProdState) (n : Nat) (r : Prop)
    (hl : Layout f p n r) (e1 : f1.mBuffer = f.mBuffer) (e2 : f1.mPut = f.mPut)
    (e3 : f1.mGet = f.mGet) (e4 : f1.mEnd = f.mEnd) (e5 : f1.mSize = f.mSize)
    (e6 : f1.mInShutdown = f.mInShutdown) : Layout f1 p n r := by
  unfold Layout SameLap LapAhead at *
  rw [e1, e2, e3, e4, e5, e6]
  exact hl

theorem layout_ready (f : Fifo) (p : ProdState) (n : Nat) (r r1 : Prop)
    (hl : Layout f p n r) (hr : r1 → r) : Layout f p n r1 := by
  obtain ⟨h1, h2, h3, h4, h5, hlap⟩ := hl
  refine ⟨h1, h2, h3, h4, h5, ?_⟩
  rcases hlap with ⟨a, b⟩ | ⟨n1, n2, hn, a, b⟩
  · exact Or.inl ⟨a, fun h => b (hr h)⟩
  · exact Or.inr ⟨n1, n2, hn, a, fun h => b (hr h)⟩

/-- Writing the reset token while 0 < get <= put turns the same-lap layout into the
lap-ahead layout. -/
theorem layout_reset (f : Fifo) (p p1 : ProdState) (n : Nat) (r : Prop)
    (hl : Layout f p n r) (hg : 0 < f.mGet) (hgp : f.mGet ≤ f.mPut)
    (hv : p1.Valid f.mSize) (hnr : ∀ size, p1 ≠ ProdState.reserved size) :
    Layout { f with mBuffer := store16 (store16 f.mBuffer f.mPut 0) (f.mPut + 2) 0, mPut := 0 }
      p1 n r := by
  obtain ⟨h1, h2, h3, h4, _, hlap⟩ := hl
  refine ⟨h1, h2, h3, h4, hv, ?_⟩
  rcases hlap with ⟨⟨a1, a2, a3, _⟩, hr⟩ | ⟨n1, n2, hn, ⟨b1, _⟩, hr⟩
  · refine Or.inr ⟨n, 0, rfl, ⟨hg, f.mPut, hgp, (by show f.mPut ≤ f.mEnd; omega), ?_, ?_, rfl, ?_⟩, hr⟩
    · exact chain_frame _ _ n _ _ (fun x _ hx => header_frame _ _ _ _ _ (Or.inl hx)) a3
    · exact (header_readback f.mBuffer f.mPut 0 0).1
    · intro size hs; exact absurd hs (hnr size)
  · omega


theorem poll_layout (f : Fifo) (p : ProdState) (n : Nat) (r : Prop) (size : Nat)
    (hl : Layout f p n r) (hs : size < 65536) (hcap : size + 8 + 1 ≤ f.mSize) :
    (∀ f1 u, f.makeSpacePoll (size + 8) = Outcome.done f1 u →
      Layout f1 (ProdState.reserved size) n r) ∧
    (∀ f1 w, f.makeSpacePoll (size + 8) = Outcome.waiting f1 w →
      Layout f1 (ProdState.polling size w) n r) := by
  unfold Fifo.makeSpacePoll
  by_cases hfree : f.getFreeSpace < size + 8
  · rw [if_pos hfree]
    constructor
    · intro f1 u h; cases h
    · intro f1 w h
      injection h with h1 h2
      subst h1; subst h2
      exact layout_set_prod f p _ n r hl ⟨hs, hcap, Or.inr rfl⟩ (fun size1 h => by cases h)
  · rw [if_neg hfree]
    constructor
    · intro f1 u h
      injection h with h1 h2
      subst h1
      exact layout_reserved f p n r size hl hs hcap (by omega)
    · intro f1 w h; cases h

theorem reset_layout (f : Fifo) (p : ProdState) (n : Nat) (r : Prop) (size : Nat)
    (hl : Layout f p n r) (hs : size < 65536) (hcap : size + 8 + 1 ≤ f.mSize)
    (hg : 0 < f.mGet) (hgp : f.mGet ≤ f.mPut) :
    (∀ f1 u, f.makeSpaceReset (size + 8) = Outcome.done f1 u →
      Layout f1 (ProdState.reserved size) n r) ∧
    (∀ f1 w, f.makeSpaceReset (size + 8) = Outcome.waiting f1 w →
      Layout f1 (ProdState.polling size w) n r) := by
  unfold Fifo.makeSpaceReset
  exact poll_layout _ ProdState.idle n r size
    (layout_reset f p ProdState.idle n r hl hg hgp trivial (fun size1 h => by cases h)) hs hcap

theorem andThen_done {α β : Type} (o : Outcome α) (k : Fifo → α → β) (f1 : Fifo) (b : β)
    (h : (o.andThen fun f a => Outcome.done f (k f a)) = Outcome.done f1 b) :
    ∃ a, o = Outcome.done f1 a := by
  cases o with
  | done f a =>
    simp only [Outcome.andThen] at h
    injection h with h1 h2
    subst h1
    exact ⟨a, rfl⟩
  | waiting f w => simp [Outcome.andThen] at h
  | timeout => simp [Outcome.andThen] at h

theorem andThen_waiting {α β : Type} (o : Outcome α) (k : Fifo → α → β) (f1 : Fifo)
    (w : WaitPoint)
    (h : (o.andThen fun f a => Outcome.done f (k f a)) = Outcome.waiting f1 w) :
    o = Outcome.waiting f1 w := by
  cases o with
  | done f a => simp [Outcome.andThen] at h
  | waiting f w1 =>
    simp only [Outcome.andThen] at h
    injection h with h1 h2
    subst h1; subst h2
    rfl
  | timeout => simp [Outcome.andThen] at h

/-- reserve keeps the layout, provided a reset token is only written while
0 < get <= put. -/
theorem reserve_layout (f : Fifo) (p : ProdState) (n : Nat) (r : Prop) (size : Nat)
    (hl : Layout f p n r) (hs : size < 65536) (hcap : size + 8 + 1 ≤ f.mSize)
    (hsafe : f.reserveWraps size = true → 0 < f.mGet ∧ f.mGet ≤ f.mPut) :
    (∀ f1 a, f.reserve size = Outcome.done f1 a → Layout f1 (ProdState.reserved size) n r) ∧
    (∀ f1 w, f.reserve size = Outcome.waiting f1 w →
      Layout f1 (ProdState.polling size w) n r) := by
  have hmod : (size + 8) % 4294967296 = size + 8 := Nat.mod_eq_of_lt (by omega)
  simp only [Fifo.reserveWraps, hmod, Bool.and_eq_true, decide_eq_true_eq,
    Bool.not_eq_true'] at hsafe
  simp only [Fifo.reserve, hmod]
  by_cases hfree : f.getFreeSpace < size + 8
  · rw [if_pos hfree]
    have key : (∀ f1 u, f.makeSpace (size + 8) = Outcome.done f1 u →
          Layout f1 (ProdState.reserved size) n r) ∧
        (∀ f1 w, f.makeSpace (size + 8) = Outcome.waiting f1 w →
          Layout f1 (ProdState.polling size w) n r) := by
      unfold Fifo.makeSpace
      by_cases hwrap : f.mPut + ((size + 8 : Nat) : Int) > f.mEnd
      · rw [if_pos hwrap]
        cases hpoll : f.wrapPollCond with
        | true =>
          simp only [if_true]
          constructor
          · intro f1 u h; cases h
          · intro f1 w h
            injection h with h1 h2
            subst h1; subst h2
            exact layout_set_prod f p _ n r hl ⟨hs, hcap, Or.inl rfl⟩
              (fun size1 h => by cases h)
        | false =>
          simp only [Bool.false_eq_true, if_false]
          have hg := hsafe ⟨⟨hfree, hwrap⟩, hpoll⟩
          exact reset_layout f p n r size hl hs hcap hg.1 hg.2
      · rw [if_neg hwrap]
        exact poll_layout f p n r size hl hs hcap
    constructor
    · intro f1 a h
      obtain ⟨u, hu⟩ := andThen_done _ _ f1 a h
      exact key.1 f1 u hu
    · intro f1 w h
      exact key.2 f1 w (andThen_waiting _ _ f1 w h)
  · rw [if_neg hfree]
    constructor
    · intro f1 a h
      injection h with h1 h2
      subst h1
      exact layout_reserved f p n r size hl hs hcap (by omega)
    · intro f1 w h; cases h

/-- The continuation of a suspended reserve keeps the layout under the same proviso. -/
theorem reserveResume_layout (f : Fifo) (n : Nat) (r : Prop) (size : Nat) (w : WaitPoint)
    (hl : Layout f (ProdState.polling size w) n r)
    (hsafe : (∃ b, w = WaitPoint.wrapPoll b) → f.wrapPollCond = false →
      0 < f.mGet ∧ f.mGet ≤ f.mPut) :
    (∀ f1 a, f.reserveResume w = Outcome.done f1 a →
      Layout f1 (ProdState.reserved size) n r) ∧
    (∀ f1 w1, f.reserveResume w = Outcome.waiting f1 w1 →
      Layout f1 (ProdState.polling size w1) n r) := by
  have hv : size < 65536 ∧ size + 8 + 1 ≤ f.mSize ∧
      (w = WaitPoint.wrapPoll (size + 8) ∨ w = WaitPoint.spacePoll (size + 8)) := hl.2.2.2.2.1
  obtain ⟨hs, hcap, hw⟩ := hv
  have key : (∀ f1 u, (match w with
        | WaitPoint.wrapPoll bytes =>
          if f.wrapPollCond then Outcome.waiting f (WaitPoint.wrapPoll bytes)
          else f.makeSpaceReset bytes
        | WaitPoint.spacePoll bytes => f.makeSpacePoll bytes
        | w1 => Outcome.waiting f w1) = Outcome.done f1 u →
        Layout f1 (ProdState.reserved size) n r) ∧
      (∀ f1 w1, (match w with
        | WaitPoint.wrapPoll bytes =>
          if f.wrapPollCond then Outcome.waiting f (WaitPoint.wrapPoll bytes)
          else f.makeSpaceReset bytes
        | WaitPoint.spacePoll bytes => f.makeSpacePoll bytes
        | w1 => Outcome.waiting f w1) = Outcome.waiting f1 w1 →
        Layout f1 (ProdState.polling size w1) n r) := by
    rcases hw with hw | hw
    · subst hw
      cases hpoll : f.wrapPollCond with
      | true =>
        simp only [if_true]
        constructor
        · intro f1 u h; cases h
        · intro f1 w1 h
          injection h with h1 h2
          subst h1; subst h2
          exact hl
      | false =>
        simp only [Bool.false_eq_true, if_false]
        have hg := hsafe ⟨_, rfl⟩ hpoll
        exact reset_layout f _ n r size hl hs hcap hg.1 hg.2
    · subst hw
      exact poll_layout f _ n r size hl hs hcap
  rcases hw with hw | hw
  · subst hw
    simp only [Fifo.reserveResume]
    constructor
    · intro f1 a h
      obtain ⟨u, hu⟩ := andThen_done _ _ f1 a h
      exact key.1 f1 u hu
    · intro f1 w1 h
      exact key.2 f1 w1 (andThen_waiting _ _ f1 w1 h)
  · subst hw
    simp only [Fifo.reserveResume]
    constructor
    · intro f1 a h
      obtain ⟨u, hu⟩ := andThen_done _ _ f1 a h
      exact key.1 f1 u hu
    · intro f1 w1 h
      exact key.2 f1 w1 (andThen_waiting _ _ f1 w1 h)


/-- A payload byte written into the reserved region keeps the layout. -/
theorem fill_layout (f : Fifo) (n : Nat) (r : Prop) (size index byte : Nat)
    (hl : Layout f (ProdState.reserved size) n r) (hi : index < size) :
    Layout { f with mBuffer := store8 f.mBuffer (f.mPut + 4 + (index : Int)) byte }
      (ProdState.reserved size) n r := by
  obtain ⟨h1, h2, h3, h4, h5, hlap⟩ := hl
  refine ⟨h1, h2, h3, h4, h5, ?_⟩
  rcases hlap with ⟨⟨a1, a2, a3, a4⟩, hr⟩ | ⟨n1, n2, hn, ⟨b1, w, b2, b3, b4, b5, b6, b7⟩, hr⟩
  · refine Or.inl ⟨⟨a1, a2, ?_, a4⟩, hr⟩
    exact chain_frame _ _ n f.mGet f.mPut (fun x _ hx => store8_other _ _ _ _ (by omega)) a3
  · have hb := b7 size rfl
    have hp := chain_le _ _ _ _ b6
    refine Or.inr ⟨n1, n2, hn, ⟨b1, w, b2, b3, ?_, ?_, ?_, b7⟩, hr⟩
    · exact chain_frame _ _ n1 f.mGet w (fun x hx _ => store8_other _ _ _ _ (by omega)) b4
    · rw [← b5]
      exact read16_congr _ _ _ (store8_other _ _ _ _ (by omega))
        (store8_other _ _ _ _ (by omega))
    · exact chain_frame _ _ n2 0 f.mPut (fun x _ hx => store8_other _ _ _ _ (by omega)) b6

/-- commit of the reserved record adds one unread record and keeps the layout. -/
theorem commit_layout (f : Fifo) (n : Nat) (r : Prop) (size command : Nat)
    (hl : Layout f (ProdState.reserved size) n r)
    (hc : 1 ≤ command ∧ command < 65536) :
    Layout (f.commit command size) ProdState.idle (n + 1) r := by
  obtain ⟨h1, h2, h3, h4, h5, hlap⟩ := hl
  have hs : size < 65536 := h5.1
  have hadv := recordAdvance_bounds size (by omega)
  have hh := header_readback f.mBuffer f.mPut command size
  rw [Nat.mod_eq_of_lt hc.2, Nat.mod_eq_of_lt hs] at hh
  have hsnoc : ∀ g k, Chain f.mBuffer k g f.mPut →
      Chain (store16 (store16 f.mBuffer f.mPut command) (f.mPut + 2) size) (k + 1) g
        (f.mPut + (recordAdvance size : Int)) := by
    intro g k hch
    have h := chain_snoc _ k g f.mPut
      (chain_frame _ _ k _ _ (fun x _ hx => header_frame _ _ _ command size (Or.inl hx)) hch)
      (by rw [hh.1]; omega)
    rw [hh.2] at h
    exact h
  simp only [Fifo.commit, h1, Bool.false_eq_true, if_false]
  refine ⟨rfl, h2, h3, h4, trivial, ?_⟩
  rcases hlap with ⟨⟨a1, a2, a3, a4⟩, hr⟩ | ⟨n1, n2, hn, ⟨b1, w, b2, b3, b4, b5, b6, b7⟩, hr⟩
  · have hb := a4 size rfl
    refine Or.inl ⟨⟨?_, Or.inl ?_, hsnoc _ _ a3, fun size1 h => by cases h⟩, fun _ => by omega⟩
    · show f.mGet ≤ f.mPut + (recordAdvance size : Int); omega
    · show f.mPut + (recordAdvance size : Int) ≤ f.mEnd; omega
  · have hb := b7 size rfl
    have hp := chain_le _ _ _ _ b6
    refine Or.inr ⟨n1, n2 + 1, by omega,
      ⟨?_, w, b2, b3, ?_, ?_, hsnoc _ _ b6, fun size1 h => by cases h⟩, hr⟩
    · show f.mPut + (recordAdvance size : Int) < f.mGet; omega
    · exact chain_frame _ _ n1 f.mGet w
        (fun x hx _ => header_frame _ _ _ command size (Or.inr (by omega))) b4
    · show read16 (store16 (store16 f.mBuffer f.mPut command) (f.mPut + 2) size) w = 0
      rw [← b5]
      exact read16_congr _ _ _ (header_frame _ _ _ _ _ (Or.inr (by omega)))
        (header_frame _ _ _ _ _ (Or.inr (by omega)))

/-- next releases the record at get and keeps the layout. -/
theorem next_layout (f : Fifo) (p : ProdState) (n : Nat)
    (hl : Layout f p n True) :
    ∃ k, n = k + 1 ∧ Layout f.next p k False := by
  obtain ⟨h1, h2, h3, h4, h5, hlap⟩ := hl
  have hadv := recordAdvance_read16 f.mBuffer (f.mGet + 2)
  have key : ∃ k, n = k + 1 ∧
      Layout { f with mGet := f.mGet + (recordAdvance (read16 f.mBuffer (f.mGet + 2)) : Int) }
        p k False := by
    rcases hlap with ⟨⟨a1, a2, a3, a4⟩, hr⟩ | ⟨n1, n2, hn, ⟨b1, w, b2, b3, b4, b5, b6, b7⟩, hr⟩
    · have hpos := hr trivial
      obtain ⟨k, hk⟩ : ∃ k, n = k + 1 := ⟨n - 1, by omega⟩
      subst hk
      have hc := a3.2
      have hle := chain_le _ _ _ _ hc
      exact ⟨k, rfl, h1, h2, h3, (by show 0 ≤ f.mGet + _; omega), h5,
        Or.inl ⟨⟨hle, a2, hc, a4⟩, fun h => h.elim⟩⟩
    · have hpos := hr trivial
      obtain ⟨k, hk⟩ : ∃ k, n1 = k + 1 := ⟨n1 - 1, by omega⟩
      subst hk
      have hc := b4.2
      have hle := chain_le _ _ _ _ hc
      refine ⟨k + n2, by omega, h1, h2, h3, (by show 0 ≤ f.mGet + _; omega), h5,
        Or.inr ⟨k, n2, rfl, ⟨?_, w, hle, b3, hc, b5, b6, ?_⟩, fun h => h.elim⟩⟩
      · show f.mPut < f.mGet + _; omega
      · intro size hs
        have := b7 size hs
        show f.mPut + (size : Int) + 8 ≤ f.mGet + _
        omega
  obtain ⟨k, hk, hlay⟩ := key
  refine ⟨k, hk, ?_⟩
  unfold Fifo.next
  simp only
  split_ifs
  · exact layout_congr _ _ p k False hlay rfl rfl rfl rfl rfl rfl
  · exact hlay


/-- get keeps the layout; when it returns, an unread record sits at get. -/
theorem get_layout (fuel : Nat) : ∀ (f : Fifo) (p : ProdState) (n : Nat) (r : Prop),
    Layout f p n r →
    (∀ f1 g, f.get fuel = Outcome.done f1 g → Layout f1 p n True) ∧
    (∀ f1 w, f.get fuel = Outcome.waiting f1 w → Layout f1 p n False) := by
  induction fuel with
  | zero =>
    intro f p n r _
    constructor
    · intro f1 g h; simp [Fifo.get] at h
    · intro f1 w h; simp [Fifo.get] at h
  | succ k ih =>
    intro f p n r hl
    have hact : f.mInShutdown = false := hl.1
    by_cases he : f.mPut = f.mGet
    · -- empty: signal idle, wait for data
      rw [get_empty k f hact he]
      unfold Fifo.getResume
      have hl1 : Layout { f with mSignalToControl := f.mSignalToControl.set } p n False :=
        layout_congr f _ p n False (layout_ready f p n r False hl (fun h => h.elim))
          rfl rfl rfl rfl rfl rfl
      cases hw : (f.mSignalToWorker).wait with
      | none =>
        simp only [hw]
        constructor
        · intro f1 g h; cases h
        · intro f1 w h
          injection h with h1 h2
          subst h1
          exact hl1
      | some sig =>
        simp only [hw]
        exact ih _ p n False (layout_congr _ _ p n False hl1 rfl rfl rfl rfl rfl rfl)
    · by_cases hc : read16 f.mBuffer f.mGet ≠ 0
      · -- a record
        rw [get_record k f hact he hc]
        constructor
        · intro f1 g h
          injection h with h1 h2
          subst h1
          obtain ⟨h1, h2, h3, h4, h5, hlap⟩ := hl
          refine ⟨h1, h2, h3, h4, h5, ?_⟩
          rcases hlap with ⟨⟨a1, a2, a3, a4⟩, _⟩ | ⟨n1, n2, hn, ⟨b1, w, b2, b3, b4, b5, b6, b7⟩, _⟩
          · refine Or.inl ⟨⟨a1, a2, a3, a4⟩, fun _ => ?_⟩
            cases n with
            | zero => simp only [Chain] at a3; exact absurd a3.symm he
            | succ j => omega
          · refine Or.inr ⟨n1, n2, hn, ⟨b1, w, b2, b3, b4, b5, b6, b7⟩, fun _ => ?_⟩
            cases n1 with
            | zero =>
              simp only [Chain] at b4
              rw [← b4] at b5
              exact absurd b5 hc
            | succ j => omega
        · intro f1 w h; cases h
      · -- the reset token
        have hc0 : read16 f.mBuffer f.mGet = 0 := not_not.mp hc
        rw [get_reset k f hact he hc0]
        obtain ⟨h1, h2, h3, h4, h5, hlap⟩ := hl
        rcases hlap with ⟨⟨a1, a2, a3, a4⟩, _⟩ | ⟨n1, n2, hn, ⟨b1, w, b2, b3, b4, b5, b6, b7⟩, _⟩
        · cases n with
          | zero => simp only [Chain] at a3; exact absurd a3.symm he
          | succ j => exact absurd hc0 a3.1
        · cases n1 with
          | succ j => exact absurd hc0 b4.1
          | zero =>
            simp only [Chain] at b4
            have hp := chain_le _ _ _ _ b6
            have hn2 : n2 = n := by omega
            subst hn2
            apply ih { f with mGet := 0 } p n2 False
            refine ⟨h1, h2, h3, le_refl 0, h5, Or.inl ⟨⟨hp, Or.inl ?_, b6, ?_⟩, fun h => h.elim⟩⟩
            · show f.mPut ≤ f.mEnd; omega
            · intro size hs
              have := b7 size hs
              show f.mPut + (size : Int) + 8 ≤ f.mEnd
              omega

/-- The continuation of a suspended get keeps the layout. -/
theorem getResume_layout (fuel : Nat) (f : Fifo) (p : ProdState) (n : Nat) (r : Prop)
    (hl : Layout f p n r) :
    (∀ f1 g, f.getResume fuel = Outcome.done f1 g → Layout f1 p n True) ∧
    (∀ f1 w, f.getResume fuel = Outcome.waiting f1 w → Layout f1 p n False) := by
  unfold Fifo.getResume
  cases hw : (f.mSignalToWorker).wait with
  | none =>
    simp only [hw]
    constructor
    · intro f1 g h; cases h
    · intro f1 w h
      injection h with h1 h2
      subst h1
      exact layout_ready f p n r False hl (fun h => h.elim)
  | some sig =>
    simp only [hw]
    exact get_layout fuel _ p n r (layout_congr f _ p n r hl rfl rfl rfl rfl rfl rfl)


/-- Every step of a protocol run keeps the invariant, provided it does not write a reset
token outside 0 < get <= put. -/
theorem step_inv (s s1 : Sys) (a : Action) (hinv : s.Inv)
    (hsafe : s.resetIsSafe a = true) (hstep : s.step a = some s1) : s1.Inv := by
  obtain ⟨n, hcount, hl⟩ := hinv
  cases a with
  | reserve size =>
    simp only [Sys.resetIsSafe, Sys.writesReset, Bool.or_eq_true, Bool.not_eq_true',
      Bool.and_eq_true, decide_eq_true_eq] at hsafe
    have hsafe2 : s.fifo.reserveWraps size = true → 0 < s.fifo.mGet ∧ s.fifo.mGet ≤ s.fifo.mPut := by
      intro hw
      rcases hsafe with h | h
      · rw [hw] at h; cases h
      · exact h
    simp only [Sys.step] at hstep
    cases hp : s.prod with
    | idle =>
      simp only [hp] at hstep
      by_cases hpre : size < 65536 ∧ size + 8 + 1 ≤ s.fifo.mSize
      · rw [if_pos hpre] at hstep
        have key := reserve_layout s.fifo s.prod n _ size hl hpre.1 hpre.2 hsafe2
        cases hres : s.fifo.reserve size with
        | done f1 r =>
          simp only [hres, Option.some.injEq] at hstep
          subst hstep
          exact ⟨n, hcount, key.1 f1 r hres⟩
        | waiting f1 w =>
          simp only [hres, Option.some.injEq] at hstep
          subst hstep
          exact ⟨n, hcount, key.2 f1 w hres⟩
        | timeout => simp [hres] at hstep
      · rw [if_neg hpre] at hstep; cases hstep
    | polling sz w => simp [hp] at hstep
    | reserved sz => simp [hp] at hstep
  | poll =>
    simp only [Sys.step] at hstep
    cases hp : s.prod with
    | idle => simp [hp] at hstep
    | reserved sz => simp [hp] at hstep
    | polling size w =>
      simp only [hp] at hstep
      rw [hp] at hl
      have hsafe2 : (∃ b, w = WaitPoint.wrapPoll b) → s.fifo.wrapPollCond = false →
          0 < s.fifo.mGet ∧ s.fifo.mGet ≤ s.fifo.mPut := by
        rintro ⟨b, hb⟩ hcond
        subst hb
        simp only [Sys.resetIsSafe, Sys.writesReset, hp, hcond, Bool.not_false, Bool.not_true,
          Bool.false_or, Bool.and_eq_true, decide_eq_true_eq] at hsafe
        exact hsafe
      have key := reserveResume_layout s.fifo n _ size w hl hsafe2
      cases hres : s.fifo.reserveResume w with
      | done f1 r =>
        simp only [hres, Option.some.injEq] at hstep
        subst hstep
        exact ⟨n, hcount, key.1 f1 r hres⟩
      | waiting f1 w1 =>
        simp only [hres, Option.some.injEq] at hstep
        subst hstep
        exact ⟨n, hcount, key.2 f1 w1 hres⟩
      | timeout => simp [hres] at hstep
  | fill index byte =>
    simp only [Sys.step] at hstep
    cases hp : s.prod with
    | idle => simp [hp] at hstep
    | polling sz w => simp [hp] at hstep
    | reserved size =>
      simp only [hp] at hstep
      rw [hp] at hl
      by_cases hi : index < size
      · rw [if_pos hi] at hstep
        simp only [Option.some.injEq] at hstep
        subst hstep
        exact ⟨n, hcount, fill_layout s.fifo n _ size index byte hl hi⟩
      · rw [if_neg hi] at hstep; cases hstep
  | commit command =>
    simp only [Sys.step] at hstep
    cases hp : s.prod with
    | idle => simp [hp] at hstep
    | polling sz w => simp [hp] at hstep
    | reserved size =>
      simp only [hp] at hstep
      rw [hp] at hl
      by_cases hc : 1 ≤ command ∧ command < 65536
      · rw [if_pos hc] at hstep
        simp only [Option.some.injEq] at hstep
        subst hstep
        exact ⟨n + 1, by show s.released + (n + 1) = s.committed + 1; omega,
          commit_layout s.fifo n _ size command hl hc⟩
      · rw [if_neg hc] at hstep; cases hstep
  | get fuel =>
    simp only [Sys.step] at hstep
    cases hc : s.cons with
    | waitingData => simp [hc] at hstep
    | holding => simp [hc] at hstep
    | idle =>
      simp only [hc] at hstep
      have key := get_layout fuel s.fifo s.prod n _ hl
      cases hres : s.fifo.get fuel with
      | done f1 g =>
        simp only [hres, Option.some.injEq] at hstep
        subst hstep
        exact ⟨n, hcount, layout_ready _ _ _ _ _ (key.1 f1 g hres) (fun _ => trivial)⟩
      | waiting f1 w =>
        simp only [hres, Option.some.injEq] at hstep
        subst hstep
        exact ⟨n, hcount, layout_ready _ _ _ _ _ (key.2 f1 w hres) (fun h => by cases h)⟩
      | timeout => simp [hres] at hstep
  | wake fuel =>
    simp only [Sys.step] at hstep
    cases hc : s.cons with
    | idle => simp [hc] at hstep
    | holding => simp [hc] at hstep
    | waitingData =>
      simp only [hc] at hstep
      have key := getResume_layout fuel s.fifo s.prod n _ hl
      cases hres : s.fifo.getResume fuel with
      | done f1 g =>
        simp only [hres, Option.some.injEq] at hstep
        subst hstep
        exact ⟨n, hcount, layout_ready _ _ _ _ _ (key.1 f1 g hres) (fun _ => trivial)⟩
      | waiting f1 w =>
        simp only [hres, Option.some.injEq] at hstep
        subst hstep
        exact ⟨n, hcount, layout_ready _ _ _ _ _ (key.2 f1 w hres) (fun h => by cases h)⟩
      | timeout => simp [hres] at hstep
  | next =>
    simp only [Sys.step] at hstep
    cases hc : s.cons with
    | idle => simp [hc] at hstep
    | waitingData => simp [hc] at hstep
    | holding =>
      simp only [hc, Option.some.injEq] at hstep
      subst hstep
      obtain ⟨k, hk, hlay⟩ := next_layout s.fifo s.prod n
        (layout_ready _ _ _ _ _ hl (fun _ => hc))
      exact ⟨k, by show s.released + 1 + k = s.committed; omega,
        layout_ready _ _ _ _ _ hlay (fun h => by cases h)⟩

theorem run_inv (acts : List Action) : ∀ (s s1 : Sys), s.Inv →
    s.resetsAreSafe acts = true → s.run acts = some s1 → s1.Inv := by
  induction acts with
  | nil =>
    intro s s1 hinv _ h
    simp only [Sys.run, Option.some.injEq] at h
    subst h; exact hinv
  | cons a as ih =>
    intro s s1 hinv hsafe h
    simp only [Sys.run] at h
    simp only [Sys.resetsAreSafe, Bool.and_eq_true] at hsafe
    cases hst : s.step a with
    | none => simp [hst] at h
    | some s2 =>
      simp only [hst, Option.bind_some] at h
      have hs2 := hsafe.2
      simp only [hst] at hs2
      exact ih s2 s1 (step_inv s s2 a hinv hsafe.1 hst) hs2 h

theorem start_inv (m : Mem) (capacity : Nat) (hcap : capacity < 4294967296) :
    (Sys.start m capacity).Inv := by
  refine ⟨0, rfl, rfl, rfl, hcap, le_refl 0, trivial, Or.inl ⟨⟨le_refl 0, Or.inr rfl, rfl, ?_⟩, ?_⟩⟩
  · intro size h; cases h
  · intro h; cases h

/-- C3 (as stated) fails in both directions on capacity 64.  After one 48-byte record
was committed, read and released, reserve(12) writes the reset token at 52 and moves
put to 0: put != get although nothing is unread.  And when the same reserve(12) runs
before the consumer has read, put is reset onto get = 0: put == get although one
committed record is unread. -/
theorem emptiness_counterexample :
    ((Sys.start zeroMem 64).run
        [Action.reserve 48, Action.commit 1, Action.get 1, Action.next, Action.reserve 12]).map
      (fun s => (s.fifo.cursors, s.committed, s.released)) = some ((0, 52), 1, 1) ∧
    ((Sys.start zeroMem 64).run
        [Action.reserve 48, Action.commit 1, Action.reserve 12]).map
      (fun s => (s.fifo.cursors, s.committed, s.released)) = some ((0, 0), 1, 0) := by
  decide

/-- C3 (amended): in every state reachable from a successful init by reserve, payload
writes, commit, get and next used within their preconditions, along a run in which
each reset token is written while 0 < get <= put, put == get implies that every
committed record has been released, and when every committed record has been released
either put == get or the producer has wrapped and its reset token is still unread
(put = 0 < get and the header at get has command 0). -/
theorem emptiness_invariant (m : Mem) (capacity : Nat) (acts : List Action) (s : Sys)
    (hcap : capacity < 4294967296)
    (hsafe : (Sys.start m capacity).resetsAreSafe acts = true)
    (hrun : (Sys.start m capacity).run acts = some s) :
    (s.fifo.mPut = s.fifo.mGet → s.committed = s.released) ∧
    (s.committed = s.released →
      s.fifo.mPut = s.fifo.mGet ∨
      (s.fifo.mPut = 0 ∧ 0 < s.fifo.mGet ∧ read16 s.fifo.mBuffer s.fifo.mGet = 0)) := by
  obtain ⟨n, hcount, hl⟩ := run_inv acts _ s (start_inv m capacity hcap) hsafe hrun
  obtain ⟨_, _, _, _, _, hlap⟩ := hl
  rcases hlap with ⟨⟨a1, a2, a3, a4⟩, _⟩ | ⟨n1, n2, hn, ⟨b1, w, b2, b3, b4, b5, b6, b7⟩, _⟩
  · constructor
    · intro he
      rw [he] at a3
      have := chain_same _ _ _ a3
      omega
    · intro hc
      have hn0 : n = 0 := by omega
      subst hn0
      simp only [Chain] at a3
      exact Or.inl a3.symm
  · constructor
    · intro he; omega
    · intro hc
      have hn1 : n1 = 0 := by omega
      have hn2 : n2 = 0 := by omega
      subst hn1; subst hn2
      simp only [Chain] at b4 b6
      refine Or.inr ⟨b6.symm, by omega, ?_⟩
      rw [b4]; exact b5

/-- Witness for C3 (amended): capacity 64, a 48-byte record committed, read and released,
then reserve(12), which wraps while get = put = 52. -/
theorem emptiness_invariant_witness :
    (wrappedSys.fifo.mPut = wrappedSys.fifo.mGet → wrappedSys.committed = wrappedSys.released) ∧
    (wrappedSys.committed = wrappedSys.released →
      wrappedSys.fifo.mPut = wrappedSys.fifo.mGet ∨
      (wrappedSys.fifo.mPut = 0 ∧ 0 < wrappedSys.fifo.mGet ∧
        read16 wrappedSys.fifo.mBuffer wrappedSys.fifo.mGet = 0)) :=
  emptiness_invariant zeroMem 64
    [Action.reserve 48, Action.fill 0 7, Action.commit 1, Action.get 1, Action.next,
     Action.reserve 12]
    wrappedSys (by decide) (by decide) rfl


/-! ## C11, C12: next and shutdown -/

/-- C11: for a record committed with size < 65536 in Active state, commit advances put
by ((size + 3) & ~3) + 4, and next, in any state whose header at get holds that length,
advances get by exactly the same amount, ((length + 3) & ~3) + 4 with the length read
from the header at get; so next after such a commit on a drained channel brings get
up to put.  After next the idle event is signalled if the new get equals put and is
otherwise as before; put, the buffer and the data-available event are unchanged. -/
theorem next_mirrors_commit (f g : Fifo) (command size : Nat)
    (hactive : f.mInShutdown = false) (hs : size < 65536)
    (hlen : read16 g.mBuffer (g.mGet + 2) = size) :
    (f.commit command size).mPut - f.mPut = ((((size + 3) &&& 4294967292) + 4 : Nat) : Int) ∧
    g.next.mGet - g.mGet = (f.commit command size).mPut - f.mPut ∧
    g.next.mGet = g.mGet +
      ((((read16 g.mBuffer (g.mGet + 2) + 3) &&& 4294967292) + 4 : Nat) : Int) ∧
    (f.mGet = f.mPut → (f.commit command size).next.mGet = (f.commit command size).mPut) ∧
    (g.next.mGet = g.next.mPut → g.next.mSignalToControl.mSet = true) ∧
    (g.next.mGet ≠ g.next.mPut → g.next.mSignalToControl = g.mSignalToControl) ∧
    g.next.mPut = g.mPut ∧ g.next.mBuffer = g.mBuffer ∧
    g.next.mSignalToWorker = g.mSignalToWorker := by
  have hadv := recordAdvance_eq size (by omega)
  have hmask := land_mask (size + 3) (by omega)
  have hcp : (f.commit command size).mPut = f.mPut + (recordAdvance size : Int) := by
    simp [Fifo.commit, hactive]
  have hng : g.next.mGet = g.mGet + (recordAdvance size : Int) := by
    simp only [Fifo.next, hlen]; split_ifs <;> rfl
  have hnp : g.next.mPut = g.mPut := by
    simp only [Fifo.next]; split_ifs <;> rfl
  refine ⟨?_, ?_, ?_, ?_, ?_, ?_, hnp, ?_, ?_⟩
  · rw [hcp, hadv, hmask]; omega
  · rw [hcp, hng]; omega
  · rw [hng, hlen, hadv, hmask]
  · intro he
    have hh := header_readback f.mBuffer f.mPut command size
    have hl2 : read16 (f.commit command size).mBuffer ((f.commit command size).mGet + 2) = size := by
      simp only [Fifo.commit, hactive, Bool.false_eq_true, if_false, he]
      rw [hh.2]; omega
    have : (f.commit command size).next.mGet =
        (f.commit command size).mGet + (recordAdvance size : Int) := by
      simp only [Fifo.next, hl2]; split_ifs <;> rfl
    rw [this, hcp]
    simp [Fifo.commit, hactive, he]
  · intro he
    rw [hnp] at he
    simp only [Fifo.next, Fifo.isEmpty]
    split_ifs with h1
    · rfl
    · exfalso
      apply h1
      simp only [decide_eq_true_eq]
      simp only [Fifo.next] at he
      split_ifs at he <;> exact he.symm
  · intro hne
    rw [hnp] at hne
    simp only [Fifo.next, Fifo.isEmpty]
    split_ifs with h1
    · exfalso
      apply hne
      simp only [decide_eq_true_eq] at h1
      simp only [Fifo.next]
      split_ifs <;> exact h1.symm
    · rfl
  · simp only [Fifo.next]; split_ifs <;> rfl
  · simp only [Fifo.next]; split_ifs <;> rfl

/-- Witness for C11: commit(7, 10) on a fresh channel of capacity 64, then next. -/
theorem next_mirrors_commit_witness :
    ((initial zeroMem 64).commit 7 10).next.mGet - ((initial zeroMem 64).commit 7 10).mGet =
      ((initial zeroMem 64).commit 7 10).mPut - (initial zeroMem 64).mPut :=
  (next_mirrors_commit (initial zeroMem 64) ((initial zeroMem 64).commit 7 10) 7 10 rfl
    (by decide) (by decide)).2.1

/-- C12: in every state shutdown() sets the shutdown flag and leaves the data-available
event signalled, leaving put, get, end, every buffer byte and the idle event (and
the size and the allocation) unchanged; calling it twice gives exactly the state of
calling it once. -/
theorem shutdown_post (f : Fifo) :
    f.shutdown.mInShutdown = true ∧
    f.shutdown.mSignalToWorker.mSet = true ∧
    f.shutdown.mPut = f.mPut ∧ f.shutdown.mGet = f.mGet ∧ f.shutdown.mEnd = f.mEnd ∧
    f.shutdown.mBuffer = f.mBuffer ∧
    f.shutdown.mSignalToControl = f.mSignalToControl ∧
    f.shutdown.mSize = f.mSize ∧ f.shutdown.mAlloc = f.mAlloc ∧
    f.shutdown.shutdown = f.shutdown :=
  ⟨rfl, rfl, rfl, rfl, rfl, rfl, rfl, rfl, rfl, rfl⟩


/-! ## C13, C14: init -/

/-- C13 (as stated) fails for large capacities: init(4294967295) asks malloc for
(4294967295 + 4) mod 2^32 = 3 bytes, not capacity + 4, and right after it
getFreeSpace returns 0, not capacity - 1 (the difference end - put does not fit
int32_t); the latter already happens for init(2147483649). -/
theorem init_post_counterexample :
    ((constructed zeroMem).init 4294967295 (some zeroMem) true true).1 = true ∧
    (initial zeroMem 4294967295).mAlloc = some 3 ∧
    (initial zeroMem 4294967295).getFreeSpace = 0 ∧
    (initial zeroMem 2147483649).mAlloc = some 2147483653 ∧
    (initial zeroMem 2147483649).getFreeSpace = 0 := by
  decide

/-- C13 (amended): when init(capacity) succeeds, put = get = 0 (buffer start),
end = capacity - 1, the size is capacity, the shutdown flag is false and isEmpty() is
true; the buffer obtained from malloc has length (capacity + 4) mod 2^32, which is
capacity + 4 for capacity <= 2^32 - 5; and for 1 <= capacity <= 2^31
getFreeSpace() = capacity - 1. -/
theorem init_post (f : Fifo) (capacity : Nat) (m : Mem) :
    (f.init capacity (some m) true true).1 = true ∧
    (f.init capacity (some m) true true).2.mBuffer = m ∧
    (f.init capacity (some m) true true).2.mPut = 0 ∧
    (f.init capacity (some m) true true).2.mGet = 0 ∧
    (f.init capacity (some m) true true).2.mEnd = (capacity : Int) - 1 ∧
    (f.init capacity (some m) true true).2.mSize = capacity ∧
    (f.init capacity (some m) true true).2.mInShutdown = false ∧
    (f.init capacity (some m) true true).2.isEmpty = true ∧
    (f.init capacity (some m) true true).2.mAlloc = some ((capacity + 4) % 4294967296) ∧
    (capacity ≤ 4294967291 →
      (f.init capacity (some m) true true).2.mAlloc = some (capacity + 4)) ∧
    (1 ≤ capacity → capacity ≤ 2147483648 →
      (f.init capacity (some m) true true).2.getFreeSpace = capacity - 1) := by
  refine ⟨rfl, rfl, rfl, rfl, rfl, rfl, rfl, rfl, rfl, ?_, ?_⟩
  · intro h
    show some ((capacity + 4) % 4294967296) = some (capacity + 4)
    rw [Nat.mod_eq_of_lt (by omega)]
  · intro h1 h2
    have h3 : ((f.init capacity (some m) true true).2.getFreeSpace : Int) =
        ((capacity - 1 : Nat) : Int) := by
      have := clamp_of_range ((capacity : Int) - 1 - 0) (by omega) (by omega)
      simp only [Fifo.init, Fifo.getFreeSpace]
      simp only [Bool.not_true, Bool.or_self, Bool.false_eq_true, if_false, ge_iff_le, le_refl,
        if_true]
      rw [this]; omega
    exact_mod_cast h3

/-- Witness for C13 (amended): init(64) gives a 68-byte buffer and 63 free bytes. -/
theorem init_post_witness :
    (initial zeroMem 64).mAlloc = some (64 + 4) ∧ (initial zeroMem 64).getFreeSpace = 64 - 1 :=
  ⟨(init_post (constructed zeroMem) 64 zeroMem).2.2.2.2.2.2.2.2.2.1 (by decide),
   (init_post (constructed zeroMem) 64 zeroMem).2.2.2.2.2.2.2.2.2.2 (by decide) (by decide)⟩

/-- C14: with the allocation and the two Signal::init calls as outcomes that may fail,
init returns success exactly when the allocation succeeds and both signals initialise
(a signal initialises exactly when its mutex and its condition variable do); when the
allocation fails no Signal::init is attempted; when a Signal::init fails the buffer is
freed as the last call before returning; and on every failure put, get, end, size
and the shutdown flag keep the values they had. -/
theorem init_failure (f : Fifo) (capacity : Nat) (block : Option Mem)
    (controlOk workerOk : Bool) :
    ((f.init capacity block controlOk workerOk).1 = true ↔
      (block.isSome = true ∧ controlOk = true ∧ workerOk = true)) ∧
    (∀ mutexOk condOk, Signal.init mutexOk condOk = true ↔ (mutexOk = true ∧ condOk = true)) ∧
    (block = none →
      Fifo.initCalls capacity block controlOk workerOk =
        [InitCall.malloc ((capacity + 4) % 4294967296)]) ∧
    (block.isSome = true → (controlOk = false ∨ workerOk = false) →
      (Fifo.initCalls capacity block controlOk workerOk).getLast? = some InitCall.free ∧
      (f.init capacity block controlOk workerOk).2.mAlloc = none) ∧
    (block.isSome = true → controlOk = true → workerOk = true →
      InitCall.free ∉ Fifo.initCalls capacity block controlOk workerOk) ∧
    ((f.init capacity block controlOk workerOk).1 = false →
      (f.init capacity block controlOk workerOk).2.mPut = f.mPut ∧
      (f.init capacity block controlOk workerOk).2.mGet = f.mGet ∧
      (f.init capacity block controlOk workerOk).2.mEnd = f.mEnd ∧
      (f.init capacity block controlOk workerOk).2.mSize = f.mSize ∧
      (f.init capacity block controlOk workerOk).2.mInShutdown = f.mInShutdown) := by
  refine ⟨?_, ?_, ?_, ?_, ?_, ?_⟩
  · cases block <;> cases controlOk <;> cases workerOk <;> simp [Fifo.init]
  · intro a b; cases a <;> cases b <;> simp [Signal.init]
  · intro h; subst h; rfl
  · intro hb hf
    cases block with
    | none => simp at hb
    | some m =>
      cases controlOk <;> cases workerOk <;> simp [Fifo.initCalls, Fifo.init] at hf ⊢
  · intro hb hc hw
    cases block with
    | none => simp at hb
    | some m =>
      subst hc; subst hw
      simp [Fifo.initCalls]
  · intro hfail
    cases block with
    | none => exact ⟨rfl, rfl, rfl, rfl, rfl⟩
    | some m =>
      cases controlOk <;> cases workerOk <;> simp [Fifo.init] at hfail ⊢

/-- Witness for C14: the allocation succeeds and the second Signal::init fails. -/
theorem init_failure_witness :
    ((constructed zeroMem).init 64 (some zeroMem) true false).1 = false ∧
    (Fifo.initCalls 64 (some zeroMem) true false).getLast? = some InitCall.free ∧
    ((constructed zeroMem).init 64 (some zeroMem) true false).2.mAlloc = none :=
  ⟨by decide,
   ((init_failure (constructed zeroMem) 64 (some zeroMem) true false).2.2.2.1 rfl
      (Or.inr rfl)).1,
   ((init_failure (constructed zeroMem) 64 (some zeroMem) true false).2.2.2.1 rfl
      (Or.inr rfl)).2⟩

/-! ## C15: Signal -/

theorem set_iterate (n : Nat) (s : Signal) (h : 1 ≤ n) :
    Nat.iterate Signal.set n s = { mSet := true } := by
  induction n with
  | zero => omega
  | succ k ih =>
    rw [Function.iterate_succ_apply']
    rfl

/-- C15: a freshly constructed Signal is signalled; set() leaves it signalled and two
set() calls equal one; wait() on a signalled Signal returns at once and leaves it
unsignalled; wait() on an unsignalled Signal blocks; and signals do not accumulate:
after any n >= 1 set() calls one wait() returns and a second wait() blocks. -/
theorem signal_auto_reset (s : Signal) (n : Nat) (hn : 1 ≤ n) :
    Signal.new.mSet = true ∧
    s.set.mSet = true ∧ s.set.set = s.set ∧
    (s.mSet = true → s.wait = some { mSet := false }) ∧
    (s.mSet = false → s.wait = none) ∧
    (Nat.iterate Signal.set n s).wait = some { mSet := false } ∧
    ((Nat.iterate Signal.set n s).wait.bind Signal.wait) = none := by
  refine ⟨rfl, rfl, rfl, ?_, ?_, ?_, ?_⟩
  · intro h; simp [Signal.wait, h]
  · intro h; simp [Signal.wait, h]
  · rw [set_iterate n s hn]; rfl
  · rw [set_iterate n s hn]; rfl

/-- Witness for C15: three set() calls on an unsignalled Signal. -/
theorem signal_auto_reset_witness :
    (Nat.iterate Signal.set 3 { mSet := false }).wait = some { mSet := false } ∧
    ((Nat.iterate Signal.set 3 { mSet := false }).wait.bind Signal.wait) = none :=
  ⟨(signal_auto_reset { mSet := false } 3 (by decide)).2.2.2.2.2.1,
   (signal_auto_reset { mSet := false } 3 (by decide)).2.2.2.2.2.2⟩


/-! ## C16: capacity boundary -/

/-- getFreeSpace comes from a non-negative int32_t. -/
theorem getFreeSpace_lt (f : Fifo) : f.getFreeSpace < 2147483648 := by
  simp only [Fifo.getFreeSpace]
  unfold toUint32 toInt32
  split_ifs <;> omega

/-- C16: for every state and every size with size + 8 <= getFreeSpace(), equality
included, reserve(size) returns offset put + 4 at once and leaves the whole object
unchanged (put, get, every buffer byte: no reset token is written, makeSpace is not
entered); for size + 8 == getFreeSpace() + 1 reserve enters makeSpace, the
wraparound / space-wait path. -/
theorem reserve_boundary (f : Fifo) (size : Nat) :
    (size + 8 ≤ f.getFreeSpace → f.reserve size = Outcome.done f (f.mPut + 4)) ∧
    (size + 8 = f.getFreeSpace + 1 →
      f.reserve size =
        (f.makeSpace (size + 8)).andThen fun f1 _ => Outcome.done f1 (f1.mPut + 4)) := by
  have hlt := getFreeSpace_lt f
  constructor
  · intro h
    exact reserve_fits f size (by rw [Nat.mod_eq_of_lt (by omega)]; exact h)
  · intro h
    have hmod : (size + 8) % 4294967296 = size + 8 := Nat.mod_eq_of_lt (by omega)
    simp only [Fifo.reserve, hmod]
    rw [if_pos (by omega)]

/-- Witness for C16: on a fresh channel of capacity 64 (63 bytes free), reserve(55)
fits exactly and reserve(56) enters makeSpace. -/
theorem reserve_boundary_witness :
    (initial zeroMem 64).reserve 55 =
      Outcome.done (initial zeroMem 64) ((initial zeroMem 64).mPut + 4) ∧
    (initial zeroMem 64).reserve 56 =
      ((initial zeroMem 64).makeSpace (56 + 8)).andThen
        fun f1 _ => Outcome.done f1 (f1.mPut + 4) :=
  ⟨(reserve_boundary (initial zeroMem 64) 55).1 (by decide),
   (reserve_boundary (initial zeroMem 64) 56).2 (by decide)⟩

/-! ## C17: single-writer frame -/

theorem reserve_get (f : Fifo) (n : Nat) (f1 : Fifo) (h : (f.reserve n).fifo? = some f1) :
    f1.mGet = f.mGet := by
  simp only [Fifo.reserve, Fifo.makeSpace, Fifo.makeSpaceReset, Fifo.makeSpacePoll] at h
  split_ifs at h <;> simp only [Outcome.andThen, Outcome.fifo?, Option.some.injEq] at h <;>
    subst h <;> rfl

theorem reserveResume_get (f : Fifo) (w : WaitPoint) (f1 : Fifo)
    (h : (f.reserveResume w).fifo? = some f1) : f1.mGet = f.mGet := by
  cases w <;>
    simp only [Fifo.reserveResume, Fifo.makeSpaceReset, Fifo.makeSpacePoll] at h
  all_goals
    first
    | (split_ifs at h <;> simp only [Outcome.andThen, Outcome.fifo?, Option.some.injEq] at h <;>
        subst h <;> rfl)
    | (simp only [Outcome.andThen, Outcome.fifo?, Option.some.injEq] at h; subst h; rfl)

/-- get changes neither put nor the buffer, the flag, the end or the size. -/
theorem get_frame (fuel : Nat) : ∀ (f f1 : Fifo), (f.get fuel).fifo? = some f1 →
    f1.mPut = f.mPut ∧ f1.mBuffer = f.mBuffer ∧ f1.mInShutdown = f.mInShutdown ∧
    f1.mEnd = f.mEnd ∧ f1.mSize = f.mSize := by
  induction fuel with
  | zero => intro f f1 h; simp [Fifo.get, Outcome.fifo?] at h
  | succ k ih =>
    intro f f1 h
    rcases Bool.eq_false_or_eq_true f.mInShutdown with hd | hd
    · rw [get_shutdown k f hd] at h
      simp only [Outcome.fifo?, Option.some.injEq] at h
      subst h; exact ⟨rfl, rfl, rfl, rfl, rfl⟩
    · by_cases he : f.mPut = f.mGet
      · rw [get_empty k f hd he] at h
        unfold Fifo.getResume at h
        cases hw : (f.mSignalToWorker).wait with
        | none =>
          simp only [hw, Outcome.fifo?, Option.some.injEq] at h
          subst h; exact ⟨rfl, rfl, rfl, rfl, rfl⟩
        | some sig =>
          simp only [hw] at h
          have h2 := ih _ f1 h
          exact h2
      · by_cases hc : read16 f.mBuffer f.mGet ≠ 0
        · rw [get_record k f hd he hc] at h
          simp only [Outcome.fifo?, Option.some.injEq] at h
          subst h; exact ⟨rfl, rfl, rfl, rfl, rfl⟩
        · rw [get_reset k f hd he (not_not.mp hc)] at h
          have h2 := ih _ f1 h
          exact h2

theorem getResume_frame (fuel : Nat) (f f1 : Fifo) (h : (f.getResume fuel).fifo? = some f1) :
    f1.mPut = f.mPut ∧ f1.mBuffer = f.mBuffer ∧ f1.mInShutdown = f.mInShutdown ∧
    f1.mEnd = f.mEnd ∧ f1.mSize = f.mSize := by
  unfold Fifo.getResume at h
  cases hw : f.mSignalToWorker.wait with
  | none =>
    simp only [hw, Outcome.fifo?, Option.some.injEq] at h
    subst h; exact ⟨rfl, rfl, rfl, rfl, rfl⟩
  | some sig =>
    simp only [hw] at h
    have h2 := get_frame fuel _ f1 h
    exact h2

/-- C17: the producer calls reserve, commit, commitSync, flush and shutdown (and the
continuations of a suspended reserve or flush) never change the get cursor; the consumer
calls get and next (and the continuation of a suspended get) never change the put
cursor nor any byte of the buffer. -/
theorem single_writer_frame (c : Call) (f f1 : Fifo) (h : c.exec f = some f1) :
    (c.byProducer = true → f1.mGet = f.mGet) ∧
    (c.byConsumer = true → f1.mPut = f.mPut ∧ f1.mBuffer = f.mBuffer) := by
  cases c with
  | reserve n => exact ⟨fun _ => reserve_get f n f1 h, fun hc => (by cases hc)⟩
  | reserveResume w => exact ⟨fun _ => reserveResume_get f w f1 h, fun hc => (by cases hc)⟩
  | write a v => exact ⟨fun hc => (by cases hc), fun hc => (by cases hc)⟩
  | commit c n =>
    refine ⟨fun _ => ?_, fun hc => (by cases hc)⟩
    simp only [Call.exec, Fifo.commit, Option.some.injEq] at h
    subst h
    split_ifs <;> rfl
  | commitSync fuel c n =>
    refine ⟨fun _ => ?_, fun hc => (by cases hc)⟩
    simp only [Call.exec, Fifo.commitSync] at h
    split_ifs at h with hd
    · simp only [Outcome.fifo?, Option.some.injEq] at h
      subst h; rfl
    · have h2 := flushLoop_flag fuel _ f1 h
      rw [h2.2.2]
      simp only [Fifo.commit, hd, if_false]
      rfl
  | flush fuel =>
    exact ⟨fun _ => (flushLoop_flag fuel f f1 h).2.2, fun hc => (by cases hc)⟩
  | flushResume fuel =>
    exact ⟨fun _ => (flushResume_flag fuel f f1 h).2.2, fun hc => (by cases hc)⟩
  | get fuel =>
    have h2 := get_frame fuel f f1 h
    exact ⟨fun hc => (by cases hc), fun _ => ⟨h2.1, h2.2.1⟩⟩
  | getResume fuel =>
    have h2 := getResume_frame fuel f f1 h
    exact ⟨fun hc => (by cases hc), fun _ => ⟨h2.1, h2.2.1⟩⟩
  | next =>
    refine ⟨fun hc => (by cases hc), fun _ => ?_⟩
    simp only [Call.exec, Fifo.next, Option.some.injEq] at h
    subst h
    split_ifs <;> exact ⟨rfl, rfl⟩
  | shutdown =>
    refine ⟨fun _ => ?_, fun hc => (by cases hc)⟩
    simp only [Call.exec, Option.some.injEq] at h
    subst h; rfl

/-- Witness for C17: next on the drained channel at 52 leaves put and the buffer alone,
shutdown leaves get alone. -/
theorem single_writer_frame_witness :
    (drainedAt52.next.mPut = drainedAt52.mPut ∧ drainedAt52.next.mBuffer = drainedAt52.mBuffer) ∧
    drainedAt52.shutdown.mGet = drainedAt52.mGet :=
  ⟨(single_writer_frame Call.next drainedAt52 drainedAt52.next rfl).2 rfl,
   (single_writer_frame Call.shutdown drainedAt52 drainedAt52.shutdown rfl).1 rfl⟩


/-! ## C18, C19: get at a reset token and at a record -/

/-- C18 (as stated) fails when put == get: capacity 64, a 48-byte record with command 1
was committed at offset 0, read and released, so put = get = 52 (put != 0), and the
untouched bytes at 52 read as command 0; get() then finds the channel empty and waits
for data instead of moving get to 0 and returning the record at offset 0 again. -/
theorem get_token_counterexample :
    drainedAt52.mInShutdown = false ∧
    read16 drainedAt52.mBuffer drainedAt52.mGet = 0 ∧
    read16 drainedAt52.mBuffer 0 = 1 ∧
    drainedAt52.mPut ≠ 0 ∧
    (drainedAt52.get 5).isDone = false ∧
    (drainedAt52.get 5).fifo?.map Fifo.cursors = some (52, 52) := by
  decide

/-- In Active state get only returns through the branch for a non-zero command. -/
theorem get_active_done (fuel : Nat) : ∀ (f f1 : Fifo) (r : GetResult),
    f.mInShutdown = false → f.get fuel = Outcome.done f1 r →
    r.command ≠ 0 ∧ r.command = read16 f1.mBuffer f1.mGet ∧
    r.bytesData = read16 f1.mBuffer (f1.mGet + 2) ∧ r.data = some (f1.mGet + 4) := by
  induction fuel with
  | zero => intro f f1 r _ h; simp [Fifo.get] at h
  | succ k ih =>
    intro f f1 r hd h
    by_cases he : f.mPut = f.mGet
    · rw [get_empty k f hd he] at h
      unfold Fifo.getResume at h
      cases hw : (f.mSignalToWorker).wait with
      | none => simp [hw] at h
      | some sig =>
        simp only [hw] at h
        exact ih _ f1 r (by exact hd) h
    · by_cases hc : read16 f.mBuffer f.mGet ≠ 0
      · rw [get_record k f hd he hc] at h
        injection h with h1 h2
        subst h1; subst h2
        exact ⟨hc, rfl, rfl, rfl⟩
      · rw [get_reset k f hd he (not_not.mp hc)] at h
        exact ih _ f1 r (by exact hd) h

/-- C18 (amended): in Active state, when the channel is not empty (put != get), the
header at get has command 0 and a record with non-zero command has been committed at
offset 0 (put != 0), get() sets the get cursor to 0, changes nothing else, and returns
that record's command, length and payload offset 4; and whenever get() called in
Active state returns, the command is non-zero and the pointer is get + 4 (in any
state the returned pointer is non-null exactly when the returned command is
non-zero). -/
theorem get_token_transparent (fuel : Nat) (f : Fifo) :
    (f.mInShutdown = false → f.mPut ≠ f.mGet → read16 f.mBuffer f.mGet = 0 →
      f.mPut ≠ 0 → read16 f.mBuffer 0 ≠ 0 →
      f.get (fuel + 2) = Outcome.done { f with mGet := 0 }
        { command := read16 f.mBuffer 0, bytesData := read16 f.mBuffer 2, data := some 4 }) ∧
    (∀ f1 r, f.mInShutdown = false → f.get fuel = Outcome.done f1 r →
      r.command ≠ 0 ∧ r.data = some (f1.mGet + 4)) ∧
    (∀ f1 r, f.get fuel = Outcome.done f1 r → (r.data ≠ none ↔ r.command ≠ 0)) := by
  refine ⟨?_, ?_, ?_⟩
  · intro hd hne htok hp hrec
    rw [get_reset (fuel + 1) f hd hne htok,
      get_record fuel { f with mGet := 0 } hd hp hrec]
    simp only [zero_add]
  · intro f1 r hd h
    have := get_active_done fuel f f1 r hd h
    exact ⟨this.1, this.2.2.2⟩
  · intro f1 r h
    rcases Bool.eq_false_or_eq_true f.mInShutdown with hd | hd
    · cases fuel with
      | zero => simp [Fifo.get] at h
      | succ k =>
        rw [get_shutdown k f hd] at h
        injection h with h1 h2
        subst h2
        simp
    · have := get_active_done fuel f f1 r hd h
      rw [this.2.2.2]
      simp [this.1]

/-- Witness for C18 (amended): after the wraparound scenario of capacity 64 (first
record released, second record committed at offset 0) get follows the token at 52. -/
theorem get_token_transparent_witness :
    (wrappedSys.fifo.commit 2 12).get 2 =
      Outcome.done { wrappedSys.fifo.commit 2 12 with mGet := 0 }
        { command := read16 (wrappedSys.fifo.commit 2 12).mBuffer 0,
          bytesData := read16 (wrappedSys.fifo.commit 2 12).mBuffer 2, data := some 4 } :=
  (get_token_transparent 0 (wrappedSys.fifo.commit 2 12)).1 (by decide) (by decide) (by decide)
    (by decide) (by decide)

/-- C19: in Active state with an unread record at get (put != get, non-zero command in
the header at get), get() returns (command, length, get + 4) read from the header at
get and leaves the whole object, the get cursor included, unchanged; hence a second
get() with no next() in between returns the same record and the same pointer. -/
theorem get_does_not_consume (fuel fuel2 : Nat) (f : Fifo)
    (hactive : f.mInShutdown = false) (hunread : f.mPut ≠ f.mGet)
    (hcmd : read16 f.mBuffer f.mGet ≠ 0) :
    f.get (fuel + 1) = Outcome.done f
      { command := read16 f.mBuffer f.mGet, bytesData := read16 f.mBuffer (f.mGet + 2),
        data := some (f.mGet + 4) } ∧
    ((f.get (fuel + 1)).andThen fun f1 _ => f1.get (fuel2 + 1)) = f.get (fuel + 1) := by
  have h1 := get_record fuel f hactive hunread hcmd
  have h2 := get_record fuel2 f hactive hunread hcmd
  refine ⟨h1, ?_⟩
  rw [h1]
  simp only [Outcome.andThen]
  exact h2

/-- Witness for C19: get on a channel of capacity 64 holding the record (7, 10 bytes). -/
theorem get_does_not_consume_witness :
    ((initial zeroMem 64).commit 7 10).get 1 = Outcome.done ((initial zeroMem 64).commit 7 10)
      { command := read16 ((initial zeroMem 64).commit 7 10).mBuffer
          ((initial zeroMem 64).commit 7 10).mGet,
        bytesData := read16 ((initial zeroMem 64).commit 7 10).mBuffer
          (((initial zeroMem 64).commit 7 10).mGet + 2),
        data := some (((initial zeroMem 64).commit 7 10).mGet + 4) } :=
  (get_does_not_consume 0 0 ((initial zeroMem 64).commit 7 10) rfl (by decide) (by decide)).1


/-! ## C20: the wraparound step of reserve -/

/-- C20 (as stated) fails when size + 8 wraps in uint32_t: capacity 64, put = 8 after
commit(1, 4); reserve(4294967295) has put + size + 8 > end, but compares the free
space 55 with (size + 8) mod 2^32 = 7 and returns offset 12 at once: put stays 8 and
no reset token is written (the bytes at 8 keep their value 255). -/
theorem wraparound_step_counterexample :
    ((initial onesMem 64).commit 1 4).mPut + ((4294967295 : Nat) : Int) + 8 >
      ((initial onesMem 64).commit 1 4).mEnd ∧
    (((initial onesMem 64).commit 1 4).reserve 4294967295).value? = some 12 ∧
    (((initial onesMem 64).commit 1 4).reserve 4294967295).fifo?.map
      (fun f => (f.mPut, read16 f.mBuffer 8)) = some (8, 65535) := by
  decide

/-- What the reset step of makeSpace leaves behind, whether or not the space poll then
suspends. -/
theorem reset_effect (f : Fifo) (bytes : Nat) (f1 : Fifo)
    (h : (f.makeSpaceReset bytes).fifo? = some f1) :
    f1.mPut = 0 ∧ read16 f1.mBuffer f.mPut = 0 ∧ read16 f1.mBuffer (f.mPut + 2) = 0 ∧
    (∀ a : Int, a < f.mPut ∨ f.mPut + 4 ≤ a → f1.mBuffer a = f.mBuffer a) := by
  have hh := header_readback f.mBuffer f.mPut 0 0
  simp only [Fifo.makeSpaceReset, Fifo.makeSpacePoll] at h
  split_ifs at h <;> simp only [Outcome.fifo?, Option.some.injEq] at h <;> subst h <;>
    exact ⟨rfl, hh.1, hh.2, fun a ha => header_frame _ _ _ _ _ ha⟩

theorem fifo?_done {α : Type} (o : Outcome α) (f1 : Fifo) (r : α)
    (h : o = Outcome.done f1 r) : o.fifo? = some f1 := by
  subst h; rfl

theorem fifo?_waiting {α : Type} (o : Outcome α) (f1 : Fifo) (w : WaitPoint)
    (h : o = Outcome.waiting f1 w) : o.fifo? = some f1 := by
  subst h; rfl

/-- With put + size + 8 > end and cursors not beyond the end, the free space is below
size + 8. -/
theorem free_lt_of_wrap (f : Fifo) (size : Nat)
    (hsize : size + 8 < 4294967296)
    (hput : f.mPut ≤ f.mEnd + 2147483648) (hget : f.mPut < f.mGet → f.mGet ≤ f.mEnd)
    (hwrap : f.mPut + (size : Int) + 8 > f.mEnd) : f.getFreeSpace < size + 8 := by
  have key : (f.getFreeSpace : Int) < (size : Int) + 8 := by
    unfold Fifo.getFreeSpace
    by_cases hc : f.mPut ≥ f.mGet
    · simp only [hc, if_true]
      have := clamp_le (f.mEnd - f.mPut) (by omega) (by omega)
      omega
    · simp only [hc, if_false]
      have hg := hget (by omega)
      have := clamp_le (f.mGet - f.mPut) (by omega) (by omega)
      omega
  omega

/-- C20 (amended): for size + 8 < 2^32 and cursors that are not beyond the end of the
buffer (get <= end whenever get > put, and put <= end + 2^31), whenever reserve(size) is called with
put + size + 8 > end and returns, the header at the old put position holds command 0
and length 0, put equals 0 (buffer start), the returned offset is 4, and no buffer
byte other than the 4 header bytes at the old put position has been modified.  This
holds for a direct return and, through the continuations, for a reserve that was
suspended in a polling loop: before the first loop is left nothing is written, the
reset is as described, and the second loop changes nothing. -/
theorem wraparound_step (f : Fifo) (size : Nat)
    (hsize : size + 8 < 4294967296)
    (hput : f.mPut ≤ f.mEnd + 2147483648) (hget : f.mPut < f.mGet → f.mGet ≤ f.mEnd)
    (hwrap : f.mPut + (size : Int) + 8 > f.mEnd) :
    (∀ f1 r, f.reserve size = Outcome.done f1 r →
      r = 4 ∧ f1.mPut = 0 ∧ read16 f1.mBuffer f.mPut = 0 ∧ read16 f1.mBuffer (f.mPut + 2) = 0 ∧
      (∀ a : Int, a < f.mPut ∨ f.mPut + 4 ≤ a → f1.mBuffer a = f.mBuffer a)) ∧
    (∀ f1 w, f.reserve size = Outcome.waiting f1 w →
      (w = WaitPoint.wrapPoll (size + 8) ∧ f1 = f) ∨
      (w = WaitPoint.spacePoll (size + 8) ∧ f1.mPut = 0 ∧ read16 f1.mBuffer f.mPut = 0 ∧
        read16 f1.mBuffer (f.mPut + 2) = 0 ∧
        (∀ a : Int, a < f.mPut ∨ f.mPut + 4 ≤ a → f1.mBuffer a = f.mBuffer a))) ∧
    (∀ (g g1 : Fifo) (bytes : Nat) (r : Int),
      g.reserveResume (WaitPoint.wrapPoll bytes) = Outcome.done g1 r →
      r = 4 ∧ g1.mPut = 0 ∧ read16 g1.mBuffer g.mPut = 0 ∧ read16 g1.mBuffer (g.mPut + 2) = 0 ∧
      (∀ a : Int, a < g.mPut ∨ g.mPut + 4 ≤ a → g1.mBuffer a = g.mBuffer a)) ∧
    (∀ (g g1 : Fifo) (bytes : Nat) (w : WaitPoint),
      g.reserveResume (WaitPoint.wrapPoll bytes) = Outcome.waiting g1 w →
      (w = WaitPoint.wrapPoll bytes ∧ g1 = g) ∨
      (w = WaitPoint.spacePoll bytes ∧ g1.mPut = 0 ∧ read16 g1.mBuffer g.mPut = 0 ∧
        read16 g1.mBuffer (g.mPut + 2) = 0 ∧
        (∀ a : Int, a < g.mPut ∨ g.mPut + 4 ≤ a → g1.mBuffer a = g.mBuffer a))) ∧
    (∀ (g g1 : Fifo) (bytes : Nat) (r : Int),
      g.reserveResume (WaitPoint.spacePoll bytes) = Outcome.done g1 r →
      g1 = g ∧ r = g.mPut + 4) ∧
    (∀ (g g1 : Fifo) (bytes : Nat) (w : WaitPoint),
      g.reserveResume (WaitPoint.spacePoll bytes) = Outcome.waiting g1 w →
      g1 = g ∧ w = WaitPoint.spacePoll bytes) := by
  have hfree := free_lt_of_wrap f size hsize hput hget hwrap
  have hmod : (size + 8) % 4294967296 = size + 8 := Nat.mod_eq_of_lt hsize
  have hwrap2 : f.mPut + ((size + 8 : Nat) : Int) > f.mEnd := by push_cast; omega
  have hres : f.reserve size =
      (if f.wrapPollCond then Outcome.waiting f (WaitPoint.wrapPoll (size + 8))
        else f.makeSpaceReset (size + 8)).andThen
        fun f1 _ => Outcome.done f1 (f1.mPut + 4) := by
    simp only [Fifo.reserve, hmod, Fifo.makeSpace]
    rw [if_pos hfree, if_pos hwrap2]
  -- the two cases of the first polling loop, for any state
  have hdone : ∀ (g g1 : Fifo) (bytes : Nat) (r : Int),
      ((if g.wrapPollCond then Outcome.waiting g (WaitPoint.wrapPoll bytes)
        else g.makeSpaceReset bytes).andThen
        fun f1 _ => Outcome.done f1 (f1.mPut + 4)) = Outcome.done g1 r →
      r = 4 ∧ g1.mPut = 0 ∧ read16 g1.mBuffer g.mPut = 0 ∧
      read16 g1.mBuffer (g.mPut + 2) = 0 ∧
      (∀ a : Int, a < g.mPut ∨ g.mPut + 4 ≤ a → g1.mBuffer a = g.mBuffer a) := by
    intro g g1 bytes r h
    cases hc : g.wrapPollCond with
    | true => simp [hc, Outcome.andThen] at h
    | false =>
      simp only [hc, Bool.false_eq_true, if_false] at h
      cases hm : g.makeSpaceReset bytes with
      | done f2 u =>
        simp only [hm, Outcome.andThen] at h
        injection h with h1 h2
        subst h1
        have he := reset_effect g bytes f2 (fifo?_done _ _ _ hm)
        refine ⟨?_, he⟩
        rw [← h2, he.1]; rfl
      | waiting f2 w => simp [hm, Outcome.andThen] at h
      | timeout => simp [hm, Outcome.andThen] at h
  have hwait : ∀ (g g1 : Fifo) (bytes : Nat) (w : WaitPoint),
      ((if g.wrapPollCond then Outcome.waiting g (WaitPoint.wrapPoll bytes)
        else g.makeSpaceReset bytes).andThen
        fun f1 _ => (Outcome.done f1 (f1.mPut + 4) : Outcome Int)) = Outcome.waiting g1 w →
      (w = WaitPoint.wrapPoll bytes ∧ g1 = g) ∨
      (w = WaitPoint.spacePoll bytes ∧ g1.mPut = 0 ∧ read16 g1.mBuffer g.mPut = 0 ∧
        read16 g1.mBuffer (g.mPut + 2) = 0 ∧
        (∀ a : Int, a < g.mPut ∨ g.mPut + 4 ≤ a → g1.mBuffer a = g.mBuffer a)) := by
    intro g g1 bytes w h
    cases hc : g.wrapPollCond with
    | true =>
      simp only [hc, if_true, Outcome.andThen] at h
      injection h with h1 h2
      exact Or.inl ⟨h2.symm, h1.symm⟩
    | false =>
      simp only [hc, Bool.false_eq_true, if_false] at h
      cases hm : g.makeSpaceReset bytes with
      | done f2 u => simp [hm, Outcome.andThen] at h
      | waiting f2 w2 =>
        simp only [hm, Outcome.andThen] at h
        injection h with h1 h2
        subst h1; subst h2
        have he := reset_effect g bytes f2 (fifo?_waiting _ _ _ hm)
        refine Or.inr ⟨?_, he⟩
        simp only [Fifo.makeSpaceReset, Fifo.makeSpacePoll] at hm
        split_ifs at hm
        injection hm with h3 h4
        exact h4.symm
      | timeout => simp [hm, Outcome.andThen] at h
  refine ⟨?_, ?_, ?_, ?_, ?_, ?_⟩
  · intro f1 r h
    rw [hres] at h
    exact hdone f f1 (size + 8) r h
  · intro f1 w h
    rw [hres] at h
    exact hwait f f1 (size + 8) w h
  · intro g g1 bytes r h
    exact hdone g g1 bytes r h
  · intro g g1 bytes w h
    exact hwait g g1 bytes w h
  · intro g g1 bytes r h
    simp only [Fifo.reserveResume, Fifo.makeSpacePoll] at h
    split_ifs at h
    · simp [Outcome.andThen] at h
    · simp only [Outcome.andThen] at h
      injection h with h1 h2
      subst h1
      exact ⟨rfl, h2.symm⟩
  · intro g g1 bytes w h
    simp only [Fifo.reserveResume, Fifo.makeSpacePoll] at h
    split_ifs at h
    · simp only [Outcome.andThen] at h
      injection h with h1 h2
      exact ⟨h1.symm, h2.symm⟩
    · simp [Outcome.andThen] at h

/-- Witness for C20 (amended): capacity 64, put = get = 52, reserve(12). -/
theorem wraparound_step_witness :
    ((drainedAt52.reserve 12).fifo?.getD drainedAt52).mPut = 0 ∧
    read16 ((drainedAt52.reserve 12).fifo?.getD drainedAt52).mBuffer drainedAt52.mPut = 0 :=
  ⟨((wraparound_step drainedAt52 12 (by decide) (by decide) (by decide) (by decide)).1
      ((drainedAt52.reserve 12).fifo?.getD drainedAt52) 4 rfl).2.1,
   ((wraparound_step drainedAt52 12 (by decide) (by decide) (by decide) (by decide)).1
      ((drainedAt52.reserve 12).fifo?.getD drainedAt52) 4 rfl).2.2.1⟩


/-! ## C21, C30: the first polling loop of makeSpace -/

/-- C21 (as stated) fails at get == buffer start + 4: with put = 0 and get = 4 the loop
condition `(mGet > mPut) && (mBuffer+4 >= mGet)` holds, and makeSpace(64) on capacity
64 suspends in the first polling loop. -/
theorem guard_region_counterexample :
    ({ initial zeroMem 64 with mGet := 4 } : Fifo).wrapPollCond = true ∧
    (({ initial zeroMem 64 with mGet := 4 } : Fifo).makeSpace 64).fifo?.map Fifo.cursors =
      some (0, 4) ∧
    (({ initial zeroMem 64 with mGet := 4 } : Fifo).makeSpace 64).isDone = false ∧
    (({ initial zeroMem 64 with mGet := 4 } : Fifo).reserve 56).isDone = false := by
  decide

/-- C21 (amended): for every pair of cursor values the first wait loop of the wraparound
continues exactly when get > put and get <= buffer start + 4, the closed region
[buffer start, buffer start + 4] for put at or after the buffer start; in particular
it does wait when get == buffer start + 4 and put is lower.  On the wraparound
branch makeSpace suspends in this loop exactly in that case. -/
theorem guard_region_condition (f : Fifo) (bytes : Nat) :
    (f.wrapPollCond = true ↔ (f.mGet > f.mPut ∧ f.mGet ≤ 4)) ∧
    (0 ≤ f.mPut → f.wrapPollCond = true → 0 < f.mGet ∧ f.mGet ≤ 4) ∧
    (f.mGet = 4 → f.mPut < 4 → f.wrapPollCond = true) ∧
    (f.mPut + (bytes : Int) > f.mEnd →
      (f.makeSpace bytes = Outcome.waiting f (WaitPoint.wrapPoll bytes) ↔
        f.wrapPollCond = true)) := by
  have h1 : f.wrapPollCond = true ↔ (f.mGet > f.mPut ∧ f.mGet ≤ 4) := by
    simp only [Fifo.wrapPollCond, Bool.and_eq_true, decide_eq_true_eq, zero_add, ge_iff_le]
  refine ⟨h1, ?_, ?_, ?_⟩
  · intro hp hc
    have := h1.mp hc
    omega
  · intro hg hp
    exact h1.mpr (by omega)
  · intro hw
    unfold Fifo.makeSpace
    rw [if_pos hw]
    cases hc : f.wrapPollCond with
    | true => simp
    | false =>
      simp only [Bool.false_eq_true, if_false, iff_false]
      intro h
      simp only [Fifo.makeSpaceReset, Fifo.makeSpacePoll] at h
      split_ifs at h
      injection h with h2 h3
      cases h3

/-- Witness for C21 (amended): put = 0, get = 4 on capacity 64. -/
theorem guard_region_condition_witness :
    ({ initial zeroMem 64 with mGet := 4 } : Fifo).wrapPollCond = true :=
  (guard_region_condition ({ initial zeroMem 64 with mGet := 4 } : Fifo) 64).2.2.1 rfl
    (by decide)

/-- C30: for cursors put and get that are multiples of 4 and not below the buffer start,
with end = capacity - 1, the wraparound branch condition put + bytes > end and the
guard wait condition (get > put and get <= 4) can only hold together when put = 0,
get = 4 and bytes > capacity - 1; so for every requested total bytes = size + 8 <=
capacity - 1 they are never true together, and makeSpace never suspends in its first
polling loop. -/
theorem guard_wait_unreachable (f : Fifo) (capacity bytes : Nat)
    (hend : f.mEnd = (capacity : Int) - 1)
    (hput : 0 ≤ f.mPut) (hget : 0 ≤ f.mGet)
    (hput4 : (4 : Int) ∣ f.mPut) (hget4 : (4 : Int) ∣ f.mGet) :
    (f.mPut + (bytes : Int) > f.mEnd → f.wrapPollCond = true →
      f.mPut = 0 ∧ f.mGet = 4 ∧ (bytes : Int) > (capacity : Int) - 1) ∧
    ((bytes : Int) ≤ (capacity : Int) - 1 →
      ¬ (f.mPut + (bytes : Int) > f.mEnd ∧ f.wrapPollCond = true)) ∧
    ((bytes : Int) ≤ (capacity : Int) - 1 →
      ∀ f1 b, f.makeSpace bytes ≠ Outcome.waiting f1 (WaitPoint.wrapPoll b)) := by
  have hc : f.wrapPollCond = true → f.mGet > f.mPut ∧ f.mGet ≤ 4 := by
    intro h
    simpa only [Fifo.wrapPollCond, Bool.and_eq_true, decide_eq_true_eq, zero_add, ge_iff_le]
      using h
  have key : f.mPut + (bytes : Int) > f.mEnd → f.wrapPollCond = true →
      f.mPut = 0 ∧ f.mGet = 4 ∧ (bytes : Int) > (capacity : Int) - 1 := by
    intro hw hg
    have := hc hg
    obtain ⟨a, ha⟩ := hput4
    obtain ⟨b, hb⟩ := hget4
    omega
  refine ⟨key, ?_, ?_⟩
  · intro hb h
    have := key h.1 h.2
    omega
  · intro hb f1 b h
    unfold Fifo.makeSpace at h
    by_cases hw : f.mPut + (bytes : Int) > f.mEnd
    · rw [if_pos hw] at h
      cases hg : f.wrapPollCond with
      | true =>
        have := key hw hg
        omega
      | false =>
        simp only [hg, Bool.false_eq_true, if_false, Fifo.makeSpaceReset, Fifo.makeSpacePoll] at h
        split_ifs at h
        injection h with h2 h3
        cases h3
    · rw [if_neg hw] at h
      simp only [Fifo.makeSpacePoll] at h
      split_ifs at h
      injection h with h2 h3
      cases h3

/-- Witness for C30: capacity 64, put = 52, get = 0, bytes = 20. -/
theorem guard_wait_unreachable_witness :
    ¬ (((initial zeroMem 64).commit 1 48).mPut + ((20 : Nat) : Int) >
        ((initial zeroMem 64).commit 1 48).mEnd ∧
      ((initial zeroMem 64).commit 1 48).wrapPollCond = true) :=
  (guard_wait_unreachable ((initial zeroMem 64).commit 1 48) 64 20 rfl (by decide) (by decide)
    (by decide) (by decide)).2.1 (by decide)


/-! ## C23: record alignment -/

theorem recordAdvance_dvd (n : Nat) : 4 ∣ recordAdvance n := by
  unfold recordAdvance
  rw [land_mask _ (Nat.mod_lt _ (by norm_num))]
  omega

theorem get_aligned (fuel : Nat) : ∀ (f f1 : Fifo), (4 : Int) ∣ f.mGet →
    (f.get fuel).fifo? = some f1 → (4 : Int) ∣ f1.mGet := by
  induction fuel with
  | zero => intro f f1 _ h; simp [Fifo.get, Outcome.fifo?] at h
  | succ k ih =>
    intro f f1 hg h
    rcases Bool.eq_false_or_eq_true f.mInShutdown with hd | hd
    · rw [get_shutdown k f hd] at h
      simp only [Outcome.fifo?, Option.some.injEq] at h
      subst h; exact hg
    · by_cases he : f.mPut = f.mGet
      · rw [get_empty k f hd he] at h
        unfold Fifo.getResume at h
        cases hw : (f.mSignalToWorker).wait with
        | none =>
          simp only [hw, Outcome.fifo?, Option.some.injEq] at h
          subst h; exact hg
        | some sig =>
          simp only [hw] at h
          exact ih _ f1 (by exact hg) h
      · by_cases hc : read16 f.mBuffer f.mGet ≠ 0
        · rw [get_record k f hd he hc] at h
          simp only [Outcome.fifo?, Option.some.injEq] at h
          subst h; exact hg
        · rw [get_reset k f hd he (not_not.mp hc)] at h
          exact ih _ f1 (by exact dvd_zero 4) h

theorem reserve_put (f : Fifo) (n : Nat) (f1 : Fifo) (h : (f.reserve n).fifo? = some f1) :
    f1.mPut = f.mPut ∨ f1.mPut = 0 := by
  simp only [Fifo.reserve, Fifo.makeSpace, Fifo.makeSpaceReset, Fifo.makeSpacePoll] at h
  split_ifs at h <;> simp only [Outcome.andThen, Outcome.fifo?, Option.some.injEq] at h <;>
    subst h <;> first | exact Or.inl rfl | exact Or.inr rfl

theorem reserveResume_put (f : Fifo) (w : WaitPoint) (f1 : Fifo)
    (h : (f.reserveResume w).fifo? = some f1) : f1.mPut = f.mPut ∨ f1.mPut = 0 := by
  cases w <;>
    simp only [Fifo.reserveResume, Fifo.makeSpaceReset, Fifo.makeSpacePoll] at h
  all_goals
    first
    | (split_ifs at h <;> simp only [Outcome.andThen, Outcome.fifo?, Option.some.injEq] at h <;>
        subst h <;> first | exact Or.inl rfl | exact Or.inr rfl)
    | (simp only [Outcome.andThen, Outcome.fifo?, Option.some.injEq] at h; subst h;
       exact Or.inl rfl)

theorem commit_aligned (f : Fifo) (c n : Nat) (h : (4 : Int) ∣ f.mPut) :
    (4 : Int) ∣ (f.commit c n).mPut := by
  have hd : (4 : Int) ∣ (recordAdvance n : Int) := by exact_mod_cast recordAdvance_dvd n
  simp only [Fifo.commit]
  split_ifs
  · exact h
  · exact dvd_add h hd

theorem exec_aligned (c : Call) (f f1 : Fifo)
    (hp : (4 : Int) ∣ f.mPut) (hg : (4 : Int) ∣ f.mGet) (h : c.exec f = some f1) :
    (4 : Int) ∣ f1.mPut ∧ (4 : Int) ∣ f1.mGet := by
  cases c with
  | reserve n =>
    refine ⟨?_, by rw [reserve_get f n f1 h]; exact hg⟩
    rcases reserve_put f n f1 h with h1 | h1 <;> rw [h1]
    · exact hp
    · exact dvd_zero 4
  | reserveResume w =>
    refine ⟨?_, by rw [reserveResume_get f w f1 h]; exact hg⟩
    rcases reserveResume_put f w f1 h with h1 | h1 <;> rw [h1]
    · exact hp
    · exact dvd_zero 4
  | write a v =>
    simp only [Call.exec, Option.some.injEq] at h; subst h; exact ⟨hp, hg⟩
  | commit c n =>
    simp only [Call.exec, Option.some.injEq] at h; subst h
    refine ⟨commit_aligned f c n hp, ?_⟩
    simp only [Fifo.commit]; split_ifs <;> exact hg
  | commitSync fuel c n =>
    simp only [Call.exec, Fifo.commitSync] at h
    split_ifs at h with hd
    · simp only [Outcome.fifo?, Option.some.injEq] at h
      subst h; exact ⟨hp, hg⟩
    · have h2 := flushLoop_flag fuel _ f1 h
      rw [h2.2.1, h2.2.2]
      refine ⟨commit_aligned f c n hp, ?_⟩
      simp only [Fifo.commit]; split_ifs; exact hg
  | flush fuel =>
    have h2 := flushLoop_flag fuel f f1 h
    rw [h2.2.1, h2.2.2]; exact ⟨hp, hg⟩
  | flushResume fuel =>
    have h2 := flushResume_flag fuel f f1 h
    rw [h2.2.1, h2.2.2]; exact ⟨hp, hg⟩
  | get fuel =>
    exact ⟨by rw [(get_frame fuel f f1 h).1]; exact hp, get_aligned fuel f f1 hg h⟩
  | getResume fuel =>
    refine ⟨by rw [(getResume_frame fuel f f1 h).1]; exact hp, ?_⟩
    simp only [Call.exec, Fifo.getResume] at h
    cases hw : f.mSignalToWorker.wait with
    | none =>
      simp only [hw, Outcome.fifo?, Option.some.injEq] at h
      subst h; exact hg
    | some sig =>
      simp only [hw] at h
      exact get_aligned fuel _ f1 (by exact hg) h
  | next =>
    simp only [Call.exec, Option.some.injEq] at h; subst h
    have hd : (4 : Int) ∣ (recordAdvance (read16 f.mBuffer (f.mGet + 2)) : Int) := by
      exact_mod_cast recordAdvance_dvd _
    simp only [Fifo.next]
    split_ifs <;> exact ⟨hp, dvd_add hg hd⟩
  | shutdown =>
    simp only [Call.exec, Option.some.injEq] at h; subst h; exact ⟨hp, hg⟩

theorem execAll_aligned (calls : List Call) : ∀ (f f1 : Fifo),
    (4 : Int) ∣ f.mPut → (4 : Int) ∣ f.mGet → execAll f calls = some f1 →
    (4 : Int) ∣ f1.mPut ∧ (4 : Int) ∣ f1.mGet := by
  induction calls with
  | nil =>
    intro f f1 hp hg h
    simp only [execAll, Option.some.injEq] at h
    subst h; exact ⟨hp, hg⟩
  | cons c cs ih =>
    intro f f1 hp hg h
    simp only [execAll] at h
    cases hc : c.exec f with
    | none => simp [hc] at h
    | some f2 =>
      simp only [hc, Option.bind_some] at h
      have h2 := exec_aligned c f f2 hp hg hc
      exact ih f2 f1 h2.1 h2.2 h

/-- C23 (as stated) fails for lengths from 2^32 - 7 to 2^32 - 4: there
((length + 3) & ~3) + 4 wraps to 0 in uint32_t, which is below length + 4. -/
theorem advance_bound_counterexample :
    recordAdvance 4294967292 = 0 ∧ ¬ (4294967292 + 4 ≤ recordAdvance 4294967292) ∧
    recordAdvance 4294967289 = 0 := by
  decide

/-- C23 (amended): for every length the per-record advance ((length + 3) & ~3) + 4,
computed in uint32_t, is a multiple of 4, and it satisfies length + 4 <= advance <=
length + 7 for length <= 2^32 - 8; in every state reached from a successful init by
any sequence of calls both cursor offsets put and get are multiples of 4, so every
record and every reset token starts at a 4-byte-aligned offset. -/
theorem record_alignment (length : Nat) (m : Mem) (capacity : Nat) (calls : List Call)
    (f : Fifo) (hrun : execAll (initial m capacity) calls = some f) :
    4 ∣ recordAdvance length ∧
    (length ≤ 4294967288 →
      length + 4 ≤ recordAdvance length ∧ recordAdvance length ≤ length + 7) ∧
    (4 : Int) ∣ f.mPut ∧ (4 : Int) ∣ f.mGet := by
  refine ⟨recordAdvance_dvd length, fun h => recordAdvance_bounds length (by omega), ?_⟩
  exact execAll_aligned calls (initial m capacity) f (dvd_zero 4) (dvd_zero 4) hrun

/-- Witness for C23 (amended): capacity 64, a record of 5 bytes committed and released. -/
theorem record_alignment_witness :
    (4 : Int) ∣ ((initial zeroMem 64).commit 1 5).next.mPut ∧
    (4 : Int) ∣ ((initial zeroMem 64).commit 1 5).next.mGet :=
  (record_alignment 5 zeroMem 64 [Call.reserve 5, Call.commit 1 5, Call.get 1, Call.next]
    ((initial zeroMem 64).commit 1 5).next rfl).2.2


/-! ## C24: reserve does not read the shutdown flag -/

theorem getFreeSpace_withFlags (f : Fifo) (down : Bool) (control worker : Signal) :
    (f.withFlags down control worker).getFreeSpace = f.getFreeSpace := rfl

theorem makeSpacePoll_withFlags (f : Fifo) (bytes : Nat) (down : Bool)
    (control worker : Signal) :
    (f.withFlags down control worker).makeSpacePoll bytes =
      (f.makeSpacePoll bytes).mapFifo (fun x => x.withFlags down control worker) := by
  simp only [Fifo.makeSpacePoll, getFreeSpace_withFlags]
  split_ifs <;> rfl

theorem makeSpaceReset_withFlags (f : Fifo) (bytes : Nat) (down : Bool)
    (control worker : Signal) :
    (f.withFlags down control worker).makeSpaceReset bytes =
      (f.makeSpaceReset bytes).mapFifo (fun x => x.withFlags down control worker) := by
  unfold Fifo.makeSpaceReset
  exact makeSpacePoll_withFlags
    { f with mBuffer := store16 (store16 f.mBuffer f.mPut 0) (f.mPut + 2) 0, mPut := 0 }
    bytes down control worker

theorem makeSpace_withFlags (f : Fifo) (bytes : Nat) (down : Bool)
    (control worker : Signal) :
    (f.withFlags down control worker).makeSpace bytes =
      (f.makeSpace bytes).mapFifo (fun x => x.withFlags down control worker) := by
  have hr := makeSpaceReset_withFlags f bytes down control worker
  have hp := makeSpacePoll_withFlags f bytes down control worker
  have lhs : (f.withFlags down control worker).makeSpace bytes =
      if f.mPut + (bytes : Int) > f.mEnd then
        if f.wrapPollCond then
          Outcome.waiting (f.withFlags down control worker) (WaitPoint.wrapPoll bytes)
        else (f.withFlags down control worker).makeSpaceReset bytes
      else (f.withFlags down control worker).makeSpacePoll bytes := rfl
  rw [lhs, hr, hp]
  unfold Fifo.makeSpace
  by_cases hw : f.mPut + (bytes : Int) > f.mEnd
  · rw [if_pos hw, if_pos hw]
    cases hc : f.wrapPollCond with
    | true => simp only [if_true, Outcome.mapFifo]
    | false => simp only [Bool.false_eq_true, if_false]
  · rw [if_neg hw, if_neg hw]

theorem andThen_mapFifo (o : Outcome Unit) (t : Fifo → Fifo)
    (ht : ∀ x : Fifo, (t x).mPut = x.mPut) :
    ((o.mapFifo t).andThen fun f1 _ => (Outcome.done f1 (f1.mPut + 4) : Outcome Int)) =
      (o.andThen fun f1 _ => (Outcome.done f1 (f1.mPut + 4) : Outcome Int)).mapFifo t := by
  cases o with
  | done f r => simp only [Outcome.mapFifo, Outcome.andThen, ht]
  | waiting f w => rfl
  | timeout => rfl

/-- C24: reserve(size) and makeSpace never read the shutdown flag nor the two signals:
for two states that differ only in these, reserve(size) has the same outcome (return
with the same pointer, or suspension at the same polling loop), writes the same
bytes and leaves the same put, the resulting states again differing only in the flag
and the signals; the same holds for the continuation of a suspended reserve.  In
particular reserve after shutdown() returns or waits exactly as it does in Active
state. -/
theorem reserve_ignores_shutdown (f : Fifo) (size : Nat) (w : WaitPoint)
    (down : Bool) (control worker : Signal) :
    (f.withFlags down control worker).reserve size =
      (f.reserve size).mapFifo (fun x => x.withFlags down control worker) ∧
    (f.withFlags down control worker).reserveResume w =
      (f.reserveResume w).mapFifo (fun x => x.withFlags down control worker) ∧
    (f.shutdown.reserve size).isDone = (f.reserve size).isDone ∧
    (f.shutdown.reserve size).value? = (f.reserve size).value? ∧
    (∀ f1 p, f.reserve size = Outcome.waiting f1 p →
      ∃ f2, f.shutdown.reserve size = Outcome.waiting f2 p) ∧
    (f.shutdown.reserve size).fifo?.map (fun x => (x.mPut, x.mGet)) =
      (f.reserve size).fifo?.map (fun x => (x.mPut, x.mGet)) ∧
    (∀ a : Int, (f.shutdown.reserve size).fifo?.map (fun x => x.mBuffer a) =
      (f.reserve size).fifo?.map (fun x => x.mBuffer a)) := by
  have h1 : ∀ (d : Bool) (c k : Signal), (f.withFlags d c k).reserve size =
      (f.reserve size).mapFifo (fun x => x.withFlags d c k) := by
    intro d c k
    have lhs : (f.withFlags d c k).reserve size =
        if f.getFreeSpace < (size + 8) % 4294967296 then
          ((f.withFlags d c k).makeSpace ((size + 8) % 4294967296)).andThen
            fun f1 _ => Outcome.done f1 (f1.mPut + 4)
        else Outcome.done (f.withFlags d c k) (f.mPut + 4) := rfl
    rw [lhs, makeSpace_withFlags]
    unfold Fifo.reserve
    by_cases hfree : f.getFreeSpace < (size + 8) % 4294967296
    · simp only [if_pos hfree]
      exact andThen_mapFifo _ _ (fun _ => rfl)
    · simp only [if_neg hfree, Outcome.mapFifo]
  have h3 : f.shutdown.reserve size =
      (f.reserve size).mapFifo
        (fun x => x.withFlags true f.mSignalToControl f.mSignalToWorker.set) :=
    h1 true f.mSignalToControl f.mSignalToWorker.set
  refine ⟨h1 down control worker, ?_, ?_, ?_, ?_, ?_, ?_⟩
  · cases w with
    | wrapPoll bytes =>
      have lhs : (f.withFlags down control worker).reserveResume (WaitPoint.wrapPoll bytes) =
          (if f.wrapPollCond then
              Outcome.waiting (f.withFlags down control worker) (WaitPoint.wrapPoll bytes)
            else (f.withFlags down control worker).makeSpaceReset bytes).andThen
            fun f1 _ => Outcome.done f1 (f1.mPut + 4) := rfl
      rw [lhs, makeSpaceReset_withFlags]
      simp only [Fifo.reserveResume]
      cases hc : f.wrapPollCond with
      | true => simp only [if_true, Outcome.mapFifo, Outcome.andThen]
      | false =>
        simp only [Bool.false_eq_true, if_false]
        exact andThen_mapFifo _ _ (fun _ => rfl)
    | spacePoll bytes =>
      simp only [Fifo.reserveResume, makeSpacePoll_withFlags]
      exact andThen_mapFifo _ _ (fun _ => rfl)
    | idleWait => rfl
    | dataWait => rfl
  · rw [h3]; cases f.reserve size <;> rfl
  · rw [h3]; cases f.reserve size <;> rfl
  · intro f1 p h
    rw [h3, h]
    exact ⟨_, rfl⟩
  · rw [h3]; cases f.reserve size <;> rfl
  · intro a; rw [h3]; cases f.reserve size <;> rfl

/-- Witness for C24: on capacity 64 reserve(56) waits for space, and does so after
shutdown() as well. -/
theorem reserve_ignores_shutdown_witness :
    ∃ f2, (initial zeroMem 64).shutdown.reserve 56 =
      Outcome.waiting f2 (WaitPoint.spacePoll 64) :=
  (reserve_ignores_shutdown (initial zeroMem 64) 56 WaitPoint.idleWait true Signal.new
    Signal.new).2.2.2.2.1
    (((initial zeroMem 64).reserve 56).fifo?.getD (initial zeroMem 64))
    (WaitPoint.spacePoll 64) rfl


/-! ## C26: the 8-byte overhead -/

theorem makeSpacePoll_done (g f1 : Fifo) (bytes : Nat) (u : Unit)
    (h : g.makeSpacePoll bytes = Outcome.done f1 u) : f1 = g ∧ bytes ≤ g.getFreeSpace := by
  unfold Fifo.makeSpacePoll at h
  by_cases hf : g.getFreeSpace < bytes
  · rw [if_pos hf] at h; cases h
  · rw [if_neg hf] at h
    injection h with ha hb
    exact ⟨ha.symm, by omega⟩

theorem makeSpaceReset_done (g f1 : Fifo) (bytes : Nat) (u : Unit)
    (h : g.makeSpaceReset bytes = Outcome.done f1 u) : bytes ≤ f1.getFreeSpace := by
  unfold Fifo.makeSpaceReset at h
  have := makeSpacePoll_done _ f1 bytes u h
  rw [this.1]
  exact this.2

theorem makeSpace_done (g f1 : Fifo) (bytes : Nat) (u : Unit)
    (h : g.makeSpace bytes = Outcome.done f1 u) : bytes ≤ f1.getFreeSpace := by
  unfold Fifo.makeSpace at h
  by_cases hw : g.mPut + (bytes : Int) > g.mEnd
  · rw [if_pos hw] at h
    cases hc : g.wrapPollCond with
    | true => simp [hc] at h
    | false =>
      simp only [hc, Bool.false_eq_true, if_false] at h
      exact makeSpaceReset_done g f1 bytes u h
  · rw [if_neg hw] at h
    have := makeSpacePoll_done g f1 bytes u h
    rw [this.1]
    exact this.2

/-- When reserve returns, the free space it last computed covers the request. -/
theorem reserve_done_free (f f1 : Fifo) (size : Nat) (r : Int)
    (h : f.reserve size = Outcome.done f1 r) :
    (size + 8) % 4294967296 ≤ f1.getFreeSpace := by
  unfold Fifo.reserve at h
  by_cases hf : f.getFreeSpace < (size + 8) % 4294967296
  · simp only [if_pos hf] at h
    obtain ⟨u, hu⟩ := andThen_done _ _ f1 r h
    exact makeSpace_done f f1 _ u hu
  · simp only [if_neg hf] at h
    injection h with ha hb
    subst ha
    omega

/-- The same for the continuations of a suspended reserve. -/
theorem reserveResume_done_free (g f1 : Fifo) (bytes : Nat) (r : Int) :
    (g.reserveResume (WaitPoint.wrapPoll bytes) = Outcome.done f1 r →
      bytes ≤ f1.getFreeSpace) ∧
    (g.reserveResume (WaitPoint.spacePoll bytes) = Outcome.done f1 r →
      bytes ≤ f1.getFreeSpace) := by
  constructor
  · intro h
    simp only [Fifo.reserveResume] at h
    obtain ⟨u, hu⟩ := andThen_done _ _ f1 r h
    cases hc : g.wrapPollCond with
    | true => simp [hc] at hu
    | false =>
      simp only [hc, Bool.false_eq_true, if_false] at hu
      exact makeSpaceReset_done g f1 bytes u hu
  · intro h
    simp only [Fifo.reserveResume] at h
    obtain ⟨u, hu⟩ := andThen_done _ _ f1 r h
    have := makeSpacePoll_done g f1 bytes u hu
    rw [this.1]
    exact this.2

/-- C26 (as stated) fails for the bound put < end when get lies beyond end: capacity 64
with put = 0 and get = 100; reserve(60) finds get - put = 100 >= 68 free bytes and
returns, and commit(1, 60) leaves put at 64 > end = 63.  Such cursors are reached in
the run overrunSchedule, where put = 60, get = 65548 and reserve(40), commit(5, 40)
leave put at 104. -/
theorem overhead_counterexample :
    (({ initial zeroMem 64 with mGet := 100 } : Fifo).reserve 60).isDone = true ∧
    ((({ initial zeroMem 64 with mGet := 100 } : Fifo).reserve 60).fifo?.map
      fun f => ((f.commit 1 60).mPut, (f.commit 1 60).mEnd)) = some (64, 63) ∧
    (((Sys.start zeroMem 64).run overrunSchedule).map
      fun s => (s.fifo.cursors, (s.fifo.commit 5 40).mPut, s.fifo.mEnd)) =
      some ((60, 65548), 104, 63) := by
  decide

/-- C26 (amended): for every state and size < 65536, if reserve(size) returns (directly
or after a suspension) and commit(cmd, size) is then executed in Active state with get
unchanged, then afterwards put != get and, if put < get held when reserve returned,
put < get still holds; and put < end holds afterwards provided the cursors were not
beyond the end when reserve returned (get <= end in case put < get, and put <= end +
2^31 otherwise). -/
theorem overhead_keeps_behind (f1 : Fifo) (size cmd : Nat) (r : Int)
    (hs : size < 65536) (hactive : f1.mInShutdown = false)
    (hret : (∃ f : Fifo, f.reserve size = Outcome.done f1 r) ∨
      (∃ g : Fifo, g.reserveResume (WaitPoint.wrapPoll (size + 8)) = Outcome.done f1 r) ∨
      (∃ g : Fifo, g.reserveResume (WaitPoint.spacePoll (size + 8)) = Outcome.done f1 r)) :
    (f1.commit cmd size).mGet = f1.mGet ∧
    (f1.commit cmd size).mPut ≠ (f1.commit cmd size).mGet ∧
    (f1.commit cmd size).isEmpty = false ∧
    (f1.mPut < f1.mGet → (f1.commit cmd size).mPut < (f1.commit cmd size).mGet) ∧
    ((f1.mPut < f1.mGet → f1.mGet ≤ f1.mEnd) →
      (f1.mGet ≤ f1.mPut → f1.mPut ≤ f1.mEnd + 2147483648) →
      (f1.commit cmd size).mPut < (f1.commit cmd size).mEnd) := by
  have hmod : (size + 8) % 4294967296 = size + 8 := Nat.mod_eq_of_lt (by omega)
  have hfree : size + 8 ≤ f1.getFreeSpace := by
    rcases hret with ⟨f, h⟩ | ⟨g, h⟩ | ⟨g, h⟩
    · have := reserve_done_free f f1 size r h
      omega
    · exact (reserveResume_done_free g f1 (size + 8) r).1 h
    · exact (reserveResume_done_free g f1 (size + 8) r).2 h
  have hadv := recordAdvance_bounds size (by omega)
  have hput : (f1.commit cmd size).mPut = f1.mPut + (recordAdvance size : Int) := by
    simp [Fifo.commit, hactive]
  have hget : (f1.commit cmd size).mGet = f1.mGet := by
    simp [Fifo.commit, hactive]
  have hend : (f1.commit cmd size).mEnd = f1.mEnd := by
    simp [Fifo.commit, hactive]
  have hne : f1.mPut + (recordAdvance size : Int) ≠ f1.mGet := by
    simp only [Fifo.getFreeSpace] at hfree
    unfold toUint32 toInt32 at hfree
    split_ifs at hfree <;> omega
  refine ⟨hget, ?_, ?_, ?_, ?_⟩
  · rw [hput, hget]; exact hne
  · simp only [Fifo.isEmpty, hput, hget, decide_eq_false_iff_not]; exact hne
  · intro hlt
    rw [hput, hget]
    simp only [Fifo.getFreeSpace] at hfree
    unfold toUint32 toInt32 at hfree
    split_ifs at hfree <;> omega
  · intro h1 h2
    rw [hput, hend]
    simp only [Fifo.getFreeSpace] at hfree
    unfold toUint32 toInt32 at hfree
    split_ifs at hfree <;> omega

/-- Witness for C26 (amended): reserve(55) and commit(1, 55) on a fresh channel of
capacity 64. -/
theorem overhead_keeps_behind_witness :
    ((initial zeroMem 64).commit 1 55).mPut ≠ ((initial zeroMem 64).commit 1 55).mGet ∧
    ((initial zeroMem 64).commit 1 55).mPut < ((initial zeroMem 64).commit 1 55).mEnd :=
  ⟨(overhead_keeps_behind (initial zeroMem 64) 55 1 4 (by decide) rfl
      (Or.inl ⟨initial zeroMem 64, rfl⟩)).2.1,
   (overhead_keeps_behind (initial zeroMem 64) 55 1 4 (by decide) rfl
      (Or.inl ⟨initial zeroMem 64, rfl⟩)).2.2.2.2 (by decide) (by decide)⟩


/-! ## C27: oversized reservations -/

/-- C27 (as stated) fails when size + 8 wraps in uint32_t: on a fresh channel of
capacity 64 (put = get = 0 <= end = 63), reserve(4294967295) has size + 8 > capacity - 1
but compares the 63 free bytes with (size + 8) mod 2^32 = 7 and returns offset 4 at
once.  The bound on getFreeSpace() also needs put not to lie 2^31 or more beyond end:
with put = 2^32 - 100 and get = 0 the difference end - put wraps to 163 in int32_t. -/
theorem oversized_counterexample :
    (0 : Int) ≤ (initial zeroMem 64).mPut ∧ (initial zeroMem 64).mGet ≤ (initial zeroMem 64).mEnd ∧
    (4294967295 + 8 : Int) > 64 - 1 ∧
    ((initial zeroMem 64).reserve 4294967295).isDone = true ∧
    ((initial zeroMem 64).reserve 4294967295).value? = some 4 ∧
    ({ initial zeroMem 64 with mPut := 4294967196 } : Fifo).getFreeSpace = 163 := by
  decide

/-- With 0 <= put <= end + 2^31 and get <= end the free space is at most end. -/
theorem free_le_end (f : Fifo)
    (hput0 : 0 ≤ f.mPut) (hput1 : f.mPut ≤ f.mEnd + 2147483648) (hget : f.mGet ≤ f.mEnd) :
    (f.getFreeSpace : Int) ≤ max 0 f.mEnd := by
  simp only [Fifo.getFreeSpace]
  unfold toUint32 toInt32
  split_ifs <;> omega

/-- C27 (amended): in every state with 0 <= put <= end + 2^31 and get <= end,
getFreeSpace() <= capacity - 1 (0 for capacity 0); consequently for every size with
capacity - 1 < size + 8 < 2^32 (e.g. capacity 64, size 56) the exit condition of
makeSpace's space-wait loop is false in every such state, so reserve(size) does not
return: it suspends in a polling loop of makeSpace with put still within these
bounds, and from any such state its continuation suspends again, whatever the
consumer has done to get within get <= end. -/
theorem oversized_never_returns (f : Fifo) (capacity size : Nat)
    (hend : f.mEnd = (capacity : Int) - 1)
    (hput0 : 0 ≤ f.mPut) (hput1 : f.mPut ≤ f.mEnd + 2147483648) (hget : f.mGet ≤ f.mEnd)
    (hover : (size : Int) + 8 > (capacity : Int) - 1) (hsize : size + 8 < 4294967296) :
    (f.getFreeSpace : Int) ≤ max 0 ((capacity : Int) - 1) ∧
    f.getFreeSpace < size + 8 ∧
    (f.reserve size).isDone = false ∧
    (∀ f1 w, f.reserve size = Outcome.waiting f1 w →
      (w = WaitPoint.wrapPoll (size + 8) ∨ w = WaitPoint.spacePoll (size + 8)) ∧
      0 ≤ f1.mPut ∧ f1.mPut ≤ f1.mEnd + 2147483648 ∧ f1.mEnd = f.mEnd ∧ f1.mGet = f.mGet) ∧
    (∀ w, w = WaitPoint.wrapPoll (size + 8) ∨ w = WaitPoint.spacePoll (size + 8) →
      (f.reserveResume w).isDone = false ∧
      ∀ f1 w1, f.reserveResume w = Outcome.waiting f1 w1 →
        (w1 = WaitPoint.wrapPoll (size + 8) ∨ w1 = WaitPoint.spacePoll (size + 8)) ∧
        0 ≤ f1.mPut ∧ f1.mPut ≤ f1.mEnd + 2147483648 ∧ f1.mEnd = f.mEnd ∧
        f1.mGet = f.mGet) := by
  have hmod : (size + 8) % 4294967296 = size + 8 := Nat.mod_eq_of_lt hsize
  have hfe := free_le_end f hput0 hput1 hget
  have hfree : f.getFreeSpace < size + 8 := by omega
  -- free space after the reset
  have hfree0 : ({ f with mBuffer := store16 (store16 f.mBuffer f.mPut 0) (f.mPut + 2) 0,
                          mPut := 0 } : Fifo).getFreeSpace < size + 8 := by
    have := free_le_end
      ({ f with mBuffer := store16 (store16 f.mBuffer f.mPut 0) (f.mPut + 2) 0, mPut := 0 } : Fifo)
      (le_refl 0) (by show (0 : Int) ≤ f.mEnd + 2147483648; omega) hget
    have e : ({ f with mBuffer := store16 (store16 f.mBuffer f.mPut 0) (f.mPut + 2) 0,
                       mPut := 0 } : Fifo).mEnd = f.mEnd := rfl
    rw [e] at this
    omega
  -- the reset step suspends in the second loop
  have hreset : f.makeSpaceReset (size + 8) = Outcome.waiting
      { f with mBuffer := store16 (store16 f.mBuffer f.mPut 0) (f.mPut + 2) 0, mPut := 0 }
      (WaitPoint.spacePoll (size + 8)) := by
    simp only [Fifo.makeSpaceReset, Fifo.makeSpacePoll]
    rw [if_pos hfree0]
  have hpoll : f.makeSpacePoll (size + 8) =
      Outcome.waiting f (WaitPoint.spacePoll (size + 8)) := by
    simp only [Fifo.makeSpacePoll]
    rw [if_pos hfree]
  -- the three ways the call can be suspended
  have hcases : ∀ (o : Outcome Int),
      (o = Outcome.waiting f (WaitPoint.wrapPoll (size + 8)) ∨
       o = Outcome.waiting f (WaitPoint.spacePoll (size + 8)) ∨
       o = Outcome.waiting
          { f with mBuffer := store16 (store16 f.mBuffer f.mPut 0) (f.mPut + 2) 0, mPut := 0 }
          (WaitPoint.spacePoll (size + 8))) →
      o.isDone = false ∧
      ∀ f1 w1, o = Outcome.waiting f1 w1 →
        (w1 = WaitPoint.wrapPoll (size + 8) ∨ w1 = WaitPoint.spacePoll (size + 8)) ∧
        0 ≤ f1.mPut ∧ f1.mPut ≤ f1.mEnd + 2147483648 ∧ f1.mEnd = f.mEnd ∧
        f1.mGet = f.mGet := by
    intro o ho
    rcases ho with ho | ho | ho <;> subst ho <;> refine ⟨rfl, ?_⟩ <;> intro f1 w1 h <;>
      injection h with h1 h2 <;> subst h1 <;> subst h2
    · exact ⟨Or.inl rfl, hput0, hput1, rfl, rfl⟩
    · exact ⟨Or.inr rfl, hput0, hput1, rfl, rfl⟩
    · exact ⟨Or.inr rfl, le_refl 0, by show (0 : Int) ≤ f.mEnd + 2147483648; omega, rfl, rfl⟩
  have hres : f.reserve size = Outcome.waiting f (WaitPoint.wrapPoll (size + 8)) ∨
      f.reserve size = Outcome.waiting f (WaitPoint.spacePoll (size + 8)) ∨
      f.reserve size = Outcome.waiting
          { f with mBuffer := store16 (store16 f.mBuffer f.mPut 0) (f.mPut + 2) 0, mPut := 0 }
          (WaitPoint.spacePoll (size + 8)) := by
    simp only [Fifo.reserve, hmod, Fifo.makeSpace]
    rw [if_pos hfree]
    by_cases hw : f.mPut + ((size + 8 : Nat) : Int) > f.mEnd
    · rw [if_pos hw]
      cases hc : f.wrapPollCond with
      | true => exact Or.inl rfl
      | false =>
        simp only [Bool.false_eq_true, if_false, hreset]
        exact Or.inr (Or.inr rfl)
    · rw [if_neg hw, hpoll]
      exact Or.inr (Or.inl rfl)
  refine ⟨by rw [hend] at hfe; exact hfe, hfree, (hcases _ hres).1, (hcases _ hres).2, ?_⟩
  intro w hw
  apply hcases
  rcases hw with hw | hw <;> subst hw
  · simp only [Fifo.reserveResume]
    cases hc : f.wrapPollCond with
    | true => exact Or.inl rfl
    | false =>
      simp only [Bool.false_eq_true, if_false, hreset]
      exact Or.inr (Or.inr rfl)
  · simp only [Fifo.reserveResume, hpoll]
    exact Or.inr (Or.inl rfl)

/-- Witness for C27 (amended): capacity 64, size 56. -/
theorem oversized_never_returns_witness :
    (initial zeroMem 64).getFreeSpace < 56 + 8 ∧
    ((initial zeroMem 64).reserve 56).isDone = false :=
  ⟨(oversized_never_returns (initial zeroMem 64) 64 56 rfl (by decide) (by decide) (by decide)
      (by decide) (by decide)).2.1,
   (oversized_never_returns (initial zeroMem 64) 64 56 rfl (by decide) (by decide) (by decide)
      (by decide) (by decide)).2.2.1⟩


/-! ## C28, C29: truncation of the header fields -/

theorem advance_differs (size : Nat) (h1 : 65536 ≤ size) (h2 : size < 4294967296) :
    recordAdvance (size % 65536) ≠ recordAdvance size := by
  have ha := recordAdvance_eq (size % 65536) (by omega)
  rw [ha]
  by_cases hs : size < 4294967289
  · rw [recordAdvance_eq size hs]
    omega
  · unfold recordAdvance
    rw [Nat.mod_eq_of_lt h2, land_mask _ (Nat.mod_lt _ (by norm_num))]
    omega

/-- C28 (as stated) fails for sizes from 2^32 - 7 to 2^32 - 4 (all >= 65536): there the
advance ((size + 3) & ~3) + 4 wraps to 0 in uint32_t.  On a fresh channel of capacity
64, commit(1, 4294967292) stores the length 65532 but leaves put at 0 = get, so the
channel looks empty and get suspends waiting for data: no length is reported.  A
length is not reported either when the low 16 bits of the command are zero:
after commit(0x10000, 65540) get takes the header for the reset token. -/
theorem length_truncation_counterexample :
    (65536 : Nat) ≤ 4294967292 ∧
    recordAdvance 4294967292 = 0 ∧
    read16 ((initial zeroMem 64).commit 1 4294967292).mBuffer 2 = 65532 ∧
    ((initial zeroMem 64).commit 1 4294967292).cursors = (0, 0) ∧
    (((initial zeroMem 64).commit 1 4294967292).get 3).isDone = false ∧
    (((initial zeroMem 64).commit 1 4294967292).get 3).fifo?.map Fifo.cursors = some (0, 0) ∧
    (((initial zeroMem 64).commit 65536 65540).get 3).isDone = false := by
  decide

/-- C28 (amended): commit(command, size), size being a 32-bit value, stores only size mod
65536 in the header while advancing put by ((size + 3) & ~3) + 4 computed in uint32_t
from the full size.  When the record is unread at get (Active state, put != get) and
the low 16 bits of its command are non-zero, get returns it and reports the length
size mod 65536; this is the case right after the commit on a channel that was drained,
for every size <= 2^32 - 8.  next() advances get by ((size mod 65536 + 3) & ~3) + 4:
for every size >= 65536 this differs from the amount commit advanced put; for every
size < 65536 the reported length equals size and the two advances are equal. -/
theorem length_truncation (f h : Fifo) (command size fuel : Nat)
    (hactive : f.mInShutdown = false) (hsize : size < 4294967296)
    (hbuf : h.mBuffer = (f.commit command size).mBuffer) (hpos : h.mGet = f.mPut) :
    read16 (f.commit command size).mBuffer (f.mPut + 2) = size % 65536 ∧
    (f.commit command size).mPut - f.mPut = (recordAdvance size : Int) ∧
    (h.mInShutdown = false → h.mPut ≠ h.mGet → command % 65536 ≠ 0 →
      h.get (fuel + 1) = Outcome.done h
        { command := command % 65536, bytesData := size % 65536, data := some (h.mGet + 4) }) ∧
    (f.mGet = f.mPut → size ≤ 4294967288 → command % 65536 ≠ 0 →
      (f.commit command size).get (fuel + 1) = Outcome.done (f.commit command size)
        { command := command % 65536, bytesData := size % 65536, data := some (f.mPut + 4) }) ∧
    h.next.mGet - h.mGet = (recordAdvance (size % 65536) : Int) ∧
    (65536 ≤ size → h.next.mGet - h.mGet ≠ (f.commit command size).mPut - f.mPut) ∧
    (size < 65536 →
      read16 (f.commit command size).mBuffer (f.mPut + 2) = size ∧
      h.next.mGet - h.mGet = (f.commit command size).mPut - f.mPut) := by
  have hh := header_readback f.mBuffer f.mPut command size
  have hcb : (f.commit command size).mBuffer =
      store16 (store16 f.mBuffer f.mPut command) (f.mPut + 2) size := by
    simp [Fifo.commit, hactive]
  have hcmd : read16 (f.commit command size).mBuffer f.mPut = command % 65536 := by
    rw [hcb]; exact hh.1
  have hlen : read16 (f.commit command size).mBuffer (f.mPut + 2) = size % 65536 := by
    rw [hcb]; exact hh.2
  have hcp : (f.commit command size).mPut - f.mPut = (recordAdvance size : Int) := by
    simp [Fifo.commit, hactive]
  have hcg : (f.commit command size).mGet = f.mGet := by
    simp [Fifo.commit, hactive]
  have hca : (f.commit command size).mInShutdown = false := by
    simp [Fifo.commit, hactive]
  have hnext : h.next.mGet - h.mGet = (recordAdvance (size % 65536) : Int) := by
    have : h.next.mGet = h.mGet + (recordAdvance (read16 h.mBuffer (h.mGet + 2)) : Int) := by
      simp only [Fifo.next]; split_ifs <;> rfl
    rw [this, hbuf, hpos, hlen]
    omega
  refine ⟨hlen, hcp, ?_, ?_, hnext, ?_, ?_⟩
  · intro ha hne hnz
    have hc : read16 h.mBuffer h.mGet = command % 65536 := by rw [hbuf, hpos, hcmd]
    have hl : read16 h.mBuffer (h.mGet + 2) = size % 65536 := by rw [hbuf, hpos, hlen]
    rw [get_record fuel h ha hne (by rw [hc]; exact hnz), hc, hl]
  · intro hdrained hfit hnz
    have hadv := recordAdvance_bounds size (by omega)
    have hne : (f.commit command size).mPut ≠ (f.commit command size).mGet := by
      rw [hcg, hdrained]
      omega
    have hc : read16 (f.commit command size).mBuffer (f.commit command size).mGet =
        command % 65536 := by rw [hcg, hdrained, hcmd]
    have hl : read16 (f.commit command size).mBuffer ((f.commit command size).mGet + 2) =
        size % 65536 := by rw [hcg, hdrained, hlen]
    rw [get_record fuel _ hca hne (by rw [hc]; exact hnz), hc, hl, hcg, hdrained]
  · intro hbig
    rw [hnext, hcp]
    have := advance_differs size hbig hsize
    exact_mod_cast this
  · intro hsmall
    rw [hlen, hnext, hcp, Nat.mod_eq_of_lt hsmall]
    exact ⟨rfl, rfl⟩

/-- Witness for C28 (amended): commit(1, 65540) on a fresh channel of capacity 64; get
returns the record with length 4, and next would advance get by 8 while put advanced
by 65544. -/
theorem length_truncation_witness :
    ((initial zeroMem 64).commit 1 65540).get (0 + 1) =
      Outcome.done ((initial zeroMem 64).commit 1 65540)
        { command := 1 % 65536, bytesData := 65540 % 65536,
          data := some (((initial zeroMem 64).commit 1 65540).mGet + 4) } ∧
    ((initial zeroMem 64).commit 1 65540).next.mGet - ((initial zeroMem 64).commit 1 65540).mGet ≠
      ((initial zeroMem 64).commit 1 65540).mPut - (initial zeroMem 64).mPut :=
  ⟨(length_truncation (initial zeroMem 64) ((initial zeroMem 64).commit 1 65540) 1 65540 0 rfl
      (by decide) rfl rfl).2.2.1 rfl (by decide) (by decide),
   (length_truncation (initial zeroMem 64) ((initial zeroMem 64).commit 1 65540) 1 65540 0 rfl
      (by decide) rfl rfl).2.2.2.2.2.1 (by decide)⟩

theorem endOffset_ge (rs : List Record) : ∀ g : Int, g ≤ endOffset g rs := by
  induction rs with
  | nil => intro g; exact le_refl g
  | cons r rs ih =>
    intro g
    have := ih (g + (recordAdvance r.payload.length : Int))
    simp only [endOffset]
    omega

/-- Free space on a channel whose consumer is not ahead and whose end is less than 2^31
bytes away. -/
theorem free_same_lap (f : Fifo) (h1 : f.mGet ≤ f.mPut) (h2 : 0 ≤ f.mEnd - f.mPut)
    (h3 : f.mEnd - f.mPut < 2147483648) : (f.getFreeSpace : Int) = f.mEnd - f.mPut := by
  simp only [Fifo.getFreeSpace]
  unfold toUint32 toInt32
  split_ifs <;> omega

/-- The producer lays the records out one after the other when each fits before the
end. -/
theorem produce_layout (rs : List Record) : ∀ f : Fifo,
    f.mInShutdown = false → f.mGet ≤ f.mPut → f.mEnd - f.mPut < 2147483648 →
    (∀ r ∈ rs, r.Valid) → FitsBefore f.mEnd f.mPut rs →
    ∃ f1 : Fifo, produceTrace f rs = Outcome.done f1 (expectedPointers f.mPut rs) ∧
      f1.mPut = endOffset f.mPut rs ∧ f1.mGet = f.mGet ∧ f1.mEnd = f.mEnd ∧
      f1.mInShutdown = false ∧ Recs f1.mBuffer f.mPut rs ∧
      (∀ a : Int, a < f.mPut → f1.mBuffer a = f.mBuffer a) := by
  induction rs with
  | nil =>
    intro f ha _ _ _ _
    exact ⟨f, rfl, rfl, rfl, rfl, ha, trivial, fun _ _ => rfl⟩
  | cons r rs ih =>
    intro f ha hgp hrange hvalid hfits
    obtain ⟨hfit, hrest⟩ := hfits
    have hv : r.Valid := hvalid r (List.mem_cons_self r rs)
    obtain ⟨hc1, hc2, hl, hb⟩ := hv
    have hadv := recordAdvance_bounds r.payload.length (by omega)
    -- reserve returns at once
    have hfree := free_same_lap f hgp (by omega) hrange
    have hres : f.reserve r.payload.length = Outcome.done f (f.mPut + 4) :=
      reserve_fits f _ (by rw [Nat.mod_eq_of_lt (by omega)]; omega)
    -- the state after fill and commit
    have hcommit : (f.fill (f.mPut + 4) r.payload).commit r.command r.payload.length =
        { f with
          mBuffer := store16 (store16 (writeBytes f.mBuffer (f.mPut + 4) r.payload) f.mPut
            r.command) (f.mPut + 2) r.payload.length
          mPut := f.mPut + (recordAdvance r.payload.length : Int)
          mSignalToWorker := f.mSignalToWorker.set } := by
      simp only [Fifo.commit, Fifo.fill, ha, Bool.false_eq_true, if_false]
    obtain ⟨f1, hp, hput, hget, hend, hact, hrecs, hframe⟩ :=
      ih ((f.fill (f.mPut + 4) r.payload).commit r.command r.payload.length)
        (by rw [hcommit]; exact ha)
        (by rw [hcommit]; show f.mGet ≤ f.mPut + _; omega)
        (by rw [hcommit]; show f.mEnd - (f.mPut + _) < _; omega)
        (fun x hx => hvalid x (List.mem_cons_of_mem r hx))
        (by rw [hcommit]; exact hrest)
    have hputc : ((f.fill (f.mPut + 4) r.payload).commit r.command r.payload.length).mPut =
        f.mPut + (recordAdvance r.payload.length : Int) := by rw [hcommit]
    have hgetc : ((f.fill (f.mPut + 4) r.payload).commit r.command r.payload.length).mGet =
        f.mGet := by rw [hcommit]
    have hendc : ((f.fill (f.mPut + 4) r.payload).commit r.command r.payload.length).mEnd =
        f.mEnd := by rw [hcommit]
    have hbufc : ((f.fill (f.mPut + 4) r.payload).commit r.command r.payload.length).mBuffer =
        store16 (store16 (writeBytes f.mBuffer (f.mPut + 4) r.payload) f.mPut
            r.command) (f.mPut + 2) r.payload.length := by rw [hcommit]
    rw [hputc] at hp hput hrecs hframe
    rw [hgetc] at hget
    rw [hendc] at hend
    rw [hbufc] at hframe
    refine ⟨f1, ?_, hput, hget, hend, hact, ?_, ?_⟩
    · simp only [produceTrace, hres, Outcome.andThen, hp, expectedPointers]
    · have hh := header_readback (writeBytes f.mBuffer (f.mPut + 4) r.payload) f.mPut
        r.command r.payload.length
      refine ⟨?_, ?_, ?_, hrecs⟩
      · rw [read16_congr _ _ _ (hframe _ (by omega)) (hframe _ (by omega)), hh.1]
        exact Nat.mod_eq_of_lt hc2
      · rw [read16_congr _ _ _ (hframe _ (by omega)) (hframe _ (by omega)), hh.2]
        exact Nat.mod_eq_of_lt hl
      · rw [readBytes_congr r.payload.length f1.mBuffer
          (writeBytes f.mBuffer (f.mPut + 4) r.payload) (f.mPut + 4)
          (fun x h1 h2 => by
            rw [hframe x (by omega)]
            exact header_frame _ _ _ _ _ (Or.inr (by omega)))]
        rw [readBytes_writeBytes, map_mod_of_bytes r.payload hb]
    · intro a ha2
      rw [hframe a (by omega), header_frame _ _ _ _ _ (Or.inl ha2),
        writeBytes_outside _ _ _ _ (Or.inl (by omega))]

/-- The consumer receives the records laid out from get on, in order. -/
theorem consume_layout (fuel : Nat) (rs : List Record) : ∀ h : Fifo,
    h.mInShutdown = false → Recs h.mBuffer h.mGet rs → h.mPut = endOffset h.mGet rs →
    (∀ r ∈ rs, r.Valid) →
    ∃ h1 : Fifo, consumeTrace (fuel + 1) rs.length h =
        Outcome.done h1 (expectedTrace h.mGet rs) ∧
      h1.mGet = h.mPut ∧ h1.mPut = h.mPut := by
  induction rs with
  | nil =>
    intro h _ _ hp _
    exact ⟨h, rfl, hp.symm, rfl⟩
  | cons r rs ih =>
    intro h ha hrecs hp hvalid
    obtain ⟨hcmd, hlen, hpay, hrest⟩ := hrecs
    have hv : r.Valid := hvalid r (List.mem_cons_self r rs)
    obtain ⟨hc1, hc2, hl, hb⟩ := hv
    have hadv := recordAdvance_bounds r.payload.length (by omega)
    have hge := endOffset_ge rs (h.mGet + (recordAdvance r.payload.length : Int))
    simp only [endOffset] at hp
    have hne : h.mPut ≠ h.mGet := by omega
    have hget := get_record fuel h ha hne (by rw [hcmd]; omega)
    -- the state after next
    have hnext : h.next.mGet = h.mGet + (recordAdvance r.payload.length : Int) ∧
        h.next.mPut = h.mPut ∧ h.next.mBuffer = h.mBuffer ∧ h.next.mInShutdown = false := by
      simp only [Fifo.next, hlen]
      split_ifs <;> exact ⟨rfl, rfl, rfl, ha⟩
    obtain ⟨h1, ht, hg1, hp1⟩ := ih h.next hnext.2.2.2
      (by rw [hnext.2.2.1, hnext.1]; exact hrest)
      (by rw [hnext.2.1, hnext.1]; exact hp)
      (fun x hx => hvalid x (List.mem_cons_of_mem r hx))
    rw [hnext.1] at ht
    rw [hnext.2.1] at hg1 hp1
    refine ⟨h1, ?_, hg1, hp1⟩
    simp only [List.length_cons, consumeTrace, hget, Outcome.andThen, ht, expectedTrace, hcmd,
      hlen, hpay]

theorem expected_pointers (rs : List Record) : ∀ g : Int,
    (expectedTrace g rs).map (fun x => x.1.data) = (expectedPointers g rs).map some := by
  induction rs with
  | nil => intro g; rfl
  | cons r rs ih =>
    intro g
    simp only [expectedTrace, expectedPointers, List.map_cons, ih]

/-- C25 (as stated) fails for capacities above 2^31: after init(2147483649) the free
space is reported as 0, so reserve(0) for the single record (1, no payload), which
fits before the end, never returns and nothing is delivered. -/
theorem round_trip_counterexample :
    FitsBefore ((2147483649 : Int) - 1) 0 [{ command := 1, payload := [] }] ∧
    (produceTrace (initial zeroMem 2147483649) [{ command := 1, payload := [] }]).isDone =
      false ∧
    ((initial zeroMem 2147483649).reserve 0).isDone = false := by
  refine ⟨⟨by decide, trivial⟩, by decide, by decide⟩

/-- C25 (amended): on a channel freshly initialised with capacity C <= 2^31, for every
list of records (command in 1..65535, payload of fewer than 65536 bytes) such that
every reservation fits before the end, after the producer has performed reserve, the
payload write and commit for all of them (each reserve returning at once), the
consumer's N successive get/next pairs return exactly (command, length, payload) of
each record in order, each payload pointer being the pointer reserve returned for
that record, and afterwards put == get. -/
theorem round_trip (m : Mem) (capacity : Nat) (rs : List Record) (fuel : Nat)
    (hcap : capacity ≤ 2147483648)
    (hvalid : ∀ r ∈ rs, r.Valid)
    (hfits : FitsBefore ((capacity : Int) - 1) 0 rs) :
    ∃ f f1 : Fifo,
      produceTrace (initial m capacity) rs = Outcome.done f (expectedPointers 0 rs) ∧
      consumeTrace (fuel + 1) rs.length f = Outcome.done f1 (expectedTrace 0 rs) ∧
      (expectedTrace 0 rs).map (fun x => (x.1.command, x.1.bytesData, x.2)) =
        rs.map (fun r => (r.command, r.payload.length, r.payload)) ∧
      (expectedTrace 0 rs).map (fun x => x.1.data) = (expectedPointers 0 rs).map some ∧
      f1.mPut = f1.mGet := by
  obtain ⟨f, hp, hput, hget, hend, hact, hrecs, _⟩ :=
    produce_layout rs (initial m capacity) rfl (le_refl _)
      (by show (capacity : Int) - 1 - 0 < 2147483648; omega) hvalid hfits
  have hput0 : (initial m capacity).mPut = 0 := rfl
  have hget0 : (initial m capacity).mGet = 0 := rfl
  rw [hput0] at hp hput hrecs
  rw [hget0] at hget
  obtain ⟨f1, hc, hg1, hp1⟩ := consume_layout fuel rs f hact (by rw [hget]; exact hrecs)
    (by rw [hget]; exact hput) hvalid
  rw [hget] at hc
  refine ⟨f, f1, hp, hc, ?_, expected_pointers rs 0, by rw [hg1, hp1]⟩
  clear hp hc hrecs hput hfits
  generalize (0 : Int) = g
  induction rs generalizing g with
  | nil => rfl
  | cons r rs ih =>
    simp only [expectedTrace, List.map_cons]
    rw [ih (fun x hx => hvalid x (List.mem_cons_of_mem r hx))]

/-- Witness for C25 (amended): capacity 64, records (1, [7, 7]) and (2, [9]). -/
theorem round_trip_witness :
    ∃ f f1 : Fifo,
      produceTrace (initial zeroMem 64)
          [{ command := 1, payload := [7, 7] }, { command := 2, payload := [9] }] =
        Outcome.done f
          (expectedPointers 0 [{ command := 1, payload := [7, 7] }, { command := 2, payload := [9] }]) ∧
      consumeTrace (0 + 1)
          [{ command := 1, payload := [7, 7] }, ({ command := 2, payload := [9] } : Record)].length f =
        Outcome.done f1
          (expectedTrace 0 [{ command := 1, payload := [7, 7] }, { command := 2, payload := [9] }]) ∧
      (expectedTrace 0 [{ command := 1, payload := [7, 7] }, { command := 2, payload := [9] }]).map
          (fun x => (x.1.command, x.1.bytesData, x.2)) =
        [{ command := 1, payload := [7, 7] }, ({ command := 2, payload := [9] } : Record)].map
          (fun r => (r.command, r.payload.length, r.payload)) ∧
      (expectedTrace 0 [{ command := 1, payload := [7, 7] }, { command := 2, payload := [9] }]).map
          (fun x => x.1.data) =
        (expectedPointers 0
          [{ command := 1, payload := [7, 7] }, { command := 2, payload := [9] }]).map some ∧
      f1.mPut = f1.mGet :=
  round_trip zeroMem 64 [{ command := 1, payload := [7, 7] }, { command := 2, payload := [9] }] 0
    (by decide)
    (by
      intro r hr
      simp only [List.mem_cons, List.mem_singleton, List.not_mem_nil, or_false] at hr
      rcases hr with rfl | rfl <;> exact ⟨by decide, by decide, by decide, by decide⟩)
    ⟨by decide, by decide, trivial⟩



/-! ## C22: producer writes stay inside the buffer -/

end LocklessFifo
